import Mathlib

/-!
# Cross-tile routing context

A shallow embedding of `routing/cross_routing_context.cpp`: the two border-node
records with their fixed binary layout, the writer that accumulates nodes,
interns neighbour names and fills the adjacency matrix, and the reader that
parses the blob back and answers cost queries.

Conventions of the embedding

* A byte is a `Fin 256`; a byte source and a byte sink are `List Byte`.
* Machine integers are natural numbers.  Every place where the C++ narrows or
  can wrap is written out: `% 2 ^ 32` for `static_cast<uint32_t>`, `% 2 ^ 64`
  for `size_t` and `uint64_t` arithmetic (an LP64 target), and the field
  encoders keep only the low bytes of what they are given.  Offsets into a
  source are not reduced: an offset is only advanced after a successful read,
  which bounds it by the size of the source.
* Multi-byte fields are laid out little-endian (the format is host-native).
* What the translation unit only includes (the widths of `WritedNodeID` and
  `WritedEdgeWeightT`, `kInvalidAdjacencyIndex`, the point codec, the default
  node, the spatial query) is a field of `Header`.
* `std::vector` and `std::string` are lists, `m4::Tree` is the list of the nodes
  added to it, in insertion order.  Lists are unbounded, so wherever a theorem
  depends on a value fitting its C++ type (a node id, a weight, the byte size
  of a vector in memory) or its field in the format (a count, a name length),
  the bound is a hypothesis of the theorem.
* An operation that can throw or abort returns an `Except` or an `Option`; the
  error of `Load` carries the state the reader was left in.
-/

namespace routing

/-- One byte of a blob. -/
abbrev Byte := Fin 256

/-- The abnormal ways an operation can end. -/
inductive Failure where
  | outOfBounds
  | checkFailed
  | assertFailed
  deriving DecidableEq

/-- Record `IngoingCrossNode`: `m_point`, `m_nodeId`, `m_adjacencyIndex`. -/
structure IngoingCrossNode (P : Type) where
  m_point : P
  m_nodeId : Nat
  m_adjacencyIndex : Nat
  deriving DecidableEq

/-- Record `OutgoingCrossNode`: `m_point`, `m_nodeId`, `m_outgoingIndex`,
`m_adjacencyIndex`. -/
structure OutgoingCrossNode (P : Type) where
  m_point : P
  m_nodeId : Nat
  m_outgoingIndex : Nat
  m_adjacencyIndex : Nat
  deriving DecidableEq

/-- Declarations the translation unit takes from its headers, over the point
type `P` (`m2::PointD`).

* `nodeIdBytes` is `sizeof(WritedNodeID)`, `weightBytes` is
  `sizeof(WritedEdgeWeightT)`;
* `kInvalidAdjacencyIndex` is the constant of that name;
* `PointToInt64` and `Int64ToPoint` are the point codec at `g_coordBits`;
* `defaultOutgoingCrossNode` is a default-constructed `OutgoingCrossNode`;
* `ForEachInRect tree point` lists, in visiting order, the nodes that
  `m4::Tree::ForEachInRect` visits for the rectangle
  `RectByCenterXYAndSizeInMeters(point, 5)`. -/
structure Header (P : Type) where
  nodeIdBytes : Nat
  weightBytes : Nat
  kInvalidAdjacencyIndex : Nat
  PointToInt64 : P → Nat
  Int64ToPoint : Nat → P
  defaultOutgoingCrossNode : OutgoingCrossNode P
  ForEachInRect : List (IngoingCrossNode P) → P → List (IngoingCrossNode P)

/-- Modelled from the spec: the header that declares `m_outgoingIndex` is not
part of the sources; the data model gives `neighborIndex: u32`, four bytes. -/
def outgoingIndexBytes : Nat := 4

/-- Modelled from the spec: the header that defines
`INVALID_CONTEXT_EDGE_WEIGHT` is not part of the sources; the data model makes
the sentinel the maximum representable weight value. -/
def INVALID_CONTEXT_EDGE_WEIGHT {P : Type} (hdr : Header P) : Nat :=
  256 ^ hdr.weightBytes - 1

/-! ## Bytes -/

/-- The low byte of a number. -/
def byteOf (v : Nat) : Byte := ⟨v % 256, Nat.mod_lt v (by decide)⟩

/-- Storing `v` into a field of `w` bytes: the low `w` bytes, least significant first. -/
def toBytes : Nat → Nat → List Byte
  | 0, _ => []
  | w + 1, v => byteOf v :: toBytes w (v / 256)

/-- Reading an unsigned field back from its bytes. -/
def ofBytes : List Byte → Nat
  | [] => 0
  | b :: bs => b.val + 256 * ofBytes bs

/-- Modelled from the spec: class `Reader` is not part of the sources;
`read(offset, buffer, length)` fails with an out-of-bounds error when the
source has fewer bytes than required, and otherwise copies `length` bytes
starting at `offset`.  `none` is the thrown error. -/
def Read (r : List Byte) (pos len : Nat) : Option (List Byte) :=
  if pos + len ≤ r.length then some ((r.drop pos).take len) else none

/-- Modelled from the spec: class `Writer` is not part of the sources;
`write(buffer, length)` is append-only. -/
def Write (w : List Byte) (buff : List Byte) : List Byte := w ++ buff

/-- Effect of `std::vector::resize(n, d)`: keep the first `n` elements, pad with `d`. -/
def resize {α : Type} (xs : List α) (n : Nat) (d : α) : List α :=
  xs.take n ++ List.replicate (n - xs.length) d

/-- The memory image of a vector of weights. -/
def weightsToBytes (wb : Nat) : List Nat → List Byte
  | [] => []
  | x :: xs => toBytes wb x ++ weightsToBytes wb xs

/-- Reading `n` weights of `wb` bytes each from a memory image. -/
def weightsOfBytes (wb : Nat) : Nat → List Byte → List Nat
  | 0, _ => []
  | n + 1, bs => ofBytes (bs.take wb) :: weightsOfBytes wb n (bs.drop wb)

/-- Copying `data` over the start of the memory image `mem`. -/
def overlay (data mem : List Byte) : List Byte :=
  data ++ mem.drop data.length

/-! ## Node records -/

section Nodes

variable {P : Type}

/-- The local `uint64_t point = PointToInt64(m_point, g_coordBits)`. -/
def packedPoint (hdr : Header P) (p : P) : Nat := hdr.PointToInt64 p % 2 ^ 64

/-- Function `OutgoingCrossNode::Save`. -/
def OutgoingCrossNode.Save (hdr : Header P) (n : OutgoingCrossNode P) (w : List Byte) :
    List Byte :=
  let point := hdr.PointToInt64 n.m_point % 2 ^ 64
  let buff := toBytes hdr.nodeIdBytes n.m_nodeId ++ toBytes 8 point ++
    toBytes outgoingIndexBytes n.m_outgoingIndex
  Write w buff

/-- Function `OutgoingCrossNode::Load`; every field of the node is assigned, so
the node it is called on does not matter.  `none` when `Read` throws. -/
def OutgoingCrossNode.Load (hdr : Header P) (r : List Byte) (pos adjacencyIndex : Nat) :
    Option (OutgoingCrossNode P × Nat) :=
  match Read r pos (hdr.nodeIdBytes + 8 + outgoingIndexBytes) with
  | none => none
  | some buff =>
    some ({ m_nodeId := ofBytes (buff.take hdr.nodeIdBytes)
            m_point := hdr.Int64ToPoint (ofBytes ((buff.drop hdr.nodeIdBytes).take 8))
            m_outgoingIndex :=
              ofBytes ((buff.drop (hdr.nodeIdBytes + 8)).take outgoingIndexBytes)
            m_adjacencyIndex := adjacencyIndex },
          pos + (hdr.nodeIdBytes + 8 + outgoingIndexBytes))

/-- Function `IngoingCrossNode::Save`. -/
def IngoingCrossNode.Save (hdr : Header P) (n : IngoingCrossNode P) (w : List Byte) :
    List Byte :=
  let point := hdr.PointToInt64 n.m_point % 2 ^ 64
  let buff := toBytes hdr.nodeIdBytes n.m_nodeId ++ toBytes 8 point
  Write w buff

/-- Function `IngoingCrossNode::Load`; every field of the node is assigned.
`none` when `Read` throws. -/
def IngoingCrossNode.Load (hdr : Header P) (r : List Byte) (pos adjacencyIndex : Nat) :
    Option (IngoingCrossNode P × Nat) :=
  match Read r pos (hdr.nodeIdBytes + 8) with
  | none => none
  | some buff =>
    some ({ m_nodeId := ofBytes (buff.take hdr.nodeIdBytes)
            m_point := hdr.Int64ToPoint (ofBytes ((buff.drop hdr.nodeIdBytes).take 8))
            m_adjacencyIndex := adjacencyIndex },
          pos + (hdr.nodeIdBytes + 8))

end Nodes

/-! ## Reader -/

/-- State of a `CrossRoutingContextReader`. -/
structure CrossRoutingContextReader (P : Type) where
  m_ingoingIndex : List (IngoingCrossNode P)
  m_outgoingNodes : List (OutgoingCrossNode P)
  m_adjacencyMatrix : List Nat
  m_neighborMwmList : List (List Byte)
  deriving DecidableEq

section Reader

variable {P : Type}

/-- A freshly constructed reader. -/
def CrossRoutingContextReader.fresh : CrossRoutingContextReader P :=
  { m_ingoingIndex := [], m_outgoingNodes := [], m_adjacencyMatrix := [],
    m_neighborMwmList := [] }

/-- The first loop of `Load`, with `k` iterations left, at index `i` and offset
`pos`: decode a node and add it to the index.  An error carries the index as the
throwing `Read` left it. -/
def loadIngoingLoop (hdr : Header P) (r : List Byte) :
    Nat → Nat → Nat → List (IngoingCrossNode P) →
      Except (List (IngoingCrossNode P)) (List (IngoingCrossNode P) × Nat)
  | 0, _, pos, tree => .ok (tree, pos)
  | k + 1, i, pos, tree =>
    match IngoingCrossNode.Load hdr r pos i with
    | none => .error tree
    | some (node, pos1) => loadIngoingLoop hdr r k (i + 1) pos1 (tree ++ [node])

/-- The second loop of `Load`: `pos = m_outgoingNodes[i].Load(r, pos, i)`. -/
def loadOutgoingLoop (hdr : Header P) (r : List Byte) :
    Nat → Nat → Nat → List (OutgoingCrossNode P) →
      Except (List (OutgoingCrossNode P)) (List (OutgoingCrossNode P) × Nat)
  | 0, _, pos, nodes => .ok (nodes, pos)
  | k + 1, i, pos, nodes =>
    match OutgoingCrossNode.Load hdr r pos i with
    | none => .error nodes
    | some (node, pos1) => loadOutgoingLoop hdr r k (i + 1) pos1 (nodes.set i node)

/-- The last loop of `Load`: a length, then that many bytes, pushed as a name. -/
def loadNamesLoop (r : List Byte) :
    Nat → Nat → List (List Byte) → Except (List (List Byte)) (List (List Byte) × Nat)
  | 0, pos, names => .ok (names, pos)
  | k + 1, pos, names =>
    match Read r pos 4 with
    | none => .error names
    | some b =>
      let size := ofBytes b
      let pos1 := pos + 4
      match Read r pos1 size with
      | none => .error names
      | some buffer => loadNamesLoop r k (pos1 + size) (names ++ [buffer])

/-- Function `CrossRoutingContextReader::Load`, returning also the final value of
`pos`.  An error is the out-of-bounds exception of a `Read`, together with the
state of the reader at the moment it was thrown.  Memory allocation (the two
`resize` calls, the name buffer) is taken to succeed: a failure of `Load` is a
read past the end of the source. -/
def CrossRoutingContextReader.LoadPos (hdr : Header P) (s : CrossRoutingContextReader P)
    (r : List Byte) :
    Except (Failure × CrossRoutingContextReader P) (CrossRoutingContextReader P × Nat) :=
  match Read r 0 4 with
  | none => .error (.outOfBounds, s)
  | some b0 =>
    let ingoingSize := ofBytes b0
    match loadIngoingLoop hdr r ingoingSize 0 4 s.m_ingoingIndex with
    | .error tree => .error (.outOfBounds, { s with m_ingoingIndex := tree })
    | .ok (tree, pos1) =>
      let s1 := { s with m_ingoingIndex := tree }
      match Read r pos1 4 with
      | none => .error (.outOfBounds, s1)
      | some b1 =>
        let size := ofBytes b1
        let resized := resize s1.m_outgoingNodes size hdr.defaultOutgoingCrossNode
        match loadOutgoingLoop hdr r size 0 (pos1 + 4) resized with
        | .error nodes => .error (.outOfBounds, { s1 with m_outgoingNodes := nodes })
        | .ok (nodes, pos2) =>
          let s2 := { s1 with m_outgoingNodes := nodes }
          let adjacencySize := (ingoingSize * nodes.length) % 2 ^ 64
          let adjMatrixSize := (hdr.weightBytes * adjacencySize) % 2 ^ 64
          let matrix := resize s2.m_adjacencyMatrix adjacencySize 0
          let s3 := { s2 with m_adjacencyMatrix := matrix }
          match Read r pos2 adjMatrixSize with
          | none => .error (.outOfBounds, s3)
          | some data =>
            let loaded := weightsOfBytes hdr.weightBytes adjacencySize
              (overlay data (weightsToBytes hdr.weightBytes matrix))
            let s4 := { s3 with m_adjacencyMatrix := loaded }
            match Read r (pos2 + adjMatrixSize) 4 with
            | none => .error (.outOfBounds, s4)
            | some b2 =>
              let strsize := ofBytes b2
              match loadNamesLoop r strsize (pos2 + adjMatrixSize + 4) s4.m_neighborMwmList with
              | .error names => .error (.outOfBounds, { s4 with m_neighborMwmList := names })
              | .ok (names, pos3) => .ok ({ s4 with m_neighborMwmList := names }, pos3)

/-- Function `CrossRoutingContextReader::Load`. -/
def CrossRoutingContextReader.Load (hdr : Header P) (s : CrossRoutingContextReader P)
    (r : List Byte) :
    Except (Failure × CrossRoutingContextReader P) (CrossRoutingContextReader P) :=
  match s.LoadPos hdr r with
  | .error e => .error e
  | .ok (s1, _) => .ok s1

/-- Function `CrossRoutingContextReader::FindIngoingNodeByPoint`: the returned
flag and the value left in the output parameter `node`. -/
def CrossRoutingContextReader.FindIngoingNodeByPoint (hdr : Header P)
    (s : CrossRoutingContextReader P) (point : P) (node : IngoingCrossNode P) :
    Bool × IngoingCrossNode P :=
  (hdr.ForEachInRect s.m_ingoingIndex point).foldl (fun _ nd => (true, nd)) (false, node)

/-- Function `CrossRoutingContextReader::GetOutgoingMwmName`. -/
def CrossRoutingContextReader.GetOutgoingMwmName (s : CrossRoutingContextReader P)
    (outgoingNode : OutgoingCrossNode P) : Except Failure (List Byte) :=
  if h : outgoingNode.m_outgoingIndex < s.m_neighborMwmList.length then
    .ok (s.m_neighborMwmList.get ⟨outgoingNode.m_outgoingIndex, h⟩)
  else .error .assertFailed

/-- Function `CrossRoutingContextReader::GetAdjacencyCost`.  The matrix is read
through a checked access: `none` would be a read outside the vector. -/
def CrossRoutingContextReader.GetAdjacencyCost (hdr : Header P)
    (s : CrossRoutingContextReader P) (ingoing : IngoingCrossNode P)
    (outgoing : OutgoingCrossNode P) : Option Nat :=
  if ingoing.m_adjacencyIndex = hdr.kInvalidAdjacencyIndex ∨
      outgoing.m_adjacencyIndex = hdr.kInvalidAdjacencyIndex then
    some (INVALID_CONTEXT_EDGE_WEIGHT hdr)
  else
    let cost_index :=
      ((s.m_outgoingNodes.length * ingoing.m_adjacencyIndex) % 2 ^ 64 +
        outgoing.m_adjacencyIndex) % 2 ^ 64
    if cost_index < s.m_adjacencyMatrix.length then s.m_adjacencyMatrix[cost_index]?
    else some (INVALID_CONTEXT_EDGE_WEIGHT hdr)

end Reader

/-! ## Writer -/

/-- State of a `CrossRoutingContextWriter`. -/
structure CrossRoutingContextWriter (P : Type) where
  m_ingoingNodes : List (IngoingCrossNode P)
  m_outgoingNodes : List (OutgoingCrossNode P)
  m_adjacencyMatrix : List Nat
  m_neighborMwmList : List (List Byte)
  deriving DecidableEq

section Writer

variable {P : Type}

/-- A freshly constructed writer. -/
def CrossRoutingContextWriter.empty : CrossRoutingContextWriter P :=
  { m_ingoingNodes := [], m_outgoingNodes := [], m_adjacencyMatrix := [],
    m_neighborMwmList := [] }

/-- Result of `std::find` as a distance from `begin()`: the position of the
first element equal to `target`, the length of the list when there is none. -/
def findIndex (target : List Byte) : List (List Byte) → Nat
  | [] => 0
  | n :: ns => if n = target then 0 else findIndex target ns + 1

/-- Function `CrossRoutingContextWriter::Save`, on a sink holding `sink`.  The
fatal `CHECK` is the error. -/
def CrossRoutingContextWriter.Save (hdr : Header P) (w : CrossRoutingContextWriter P)
    (sink : List Byte) : Except Failure (List Byte) :=
  let size := w.m_ingoingNodes.length % 2 ^ 32
  let sink1 := Write sink (toBytes 4 size)
  let sink2 := w.m_ingoingNodes.foldl (fun acc node => node.Save hdr acc) sink1
  let size := w.m_outgoingNodes.length % 2 ^ 32
  let sink3 := Write sink2 (toBytes 4 size)
  let sink4 := w.m_outgoingNodes.foldl (fun acc node => node.Save hdr acc) sink3
  if w.m_adjacencyMatrix.length =
      (w.m_outgoingNodes.length * w.m_ingoingNodes.length) % 2 ^ 64 then
    let sink5 := Write sink4
      ((weightsToBytes hdr.weightBytes w.m_adjacencyMatrix).take
        ((hdr.weightBytes * w.m_adjacencyMatrix.length) % 2 ^ 64))
    let size := w.m_neighborMwmList.length % 2 ^ 32
    let sink6 := Write sink5 (toBytes 4 size)
    .ok (w.m_neighborMwmList.foldl
      (fun acc neighbor => Write (Write acc (toBytes 4 (neighbor.length % 2 ^ 32))) neighbor)
      sink6)
  else .error .checkFailed

/-- Function `CrossRoutingContextWriter::AddIngoingNode`. -/
def CrossRoutingContextWriter.AddIngoingNode (w : CrossRoutingContextWriter P)
    (nodeId : Nat) (point : P) : CrossRoutingContextWriter P :=
  let adjIndex := w.m_ingoingNodes.length
  { w with m_ingoingNodes := w.m_ingoingNodes ++
      [{ m_nodeId := nodeId, m_point := point, m_adjacencyIndex := adjIndex }] }

/-- Function `CrossRoutingContextWriter::AddOutgoingNode`; the distance found is
stored in the 32-bit field `m_outgoingIndex`. -/
def CrossRoutingContextWriter.AddOutgoingNode (w : CrossRoutingContextWriter P)
    (nodeId : Nat) (targetMwm : List Byte) (point : P) : CrossRoutingContextWriter P :=
  let adjIndex := w.m_outgoingNodes.length
  let it := findIndex targetMwm w.m_neighborMwmList
  let names := if it = w.m_neighborMwmList.length then w.m_neighborMwmList ++ [targetMwm]
    else w.m_neighborMwmList
  { w with
    m_neighborMwmList := names
    m_outgoingNodes := w.m_outgoingNodes ++
      [{ m_nodeId := nodeId, m_outgoingIndex := it % 2 ^ (8 * outgoingIndexBytes),
         m_point := point, m_adjacencyIndex := adjIndex }] }

/-- Function `CrossRoutingContextWriter::ReserveAdjacencyMatrix`. -/
def CrossRoutingContextWriter.ReserveAdjacencyMatrix (hdr : Header P)
    (w : CrossRoutingContextWriter P) : CrossRoutingContextWriter P :=
  let size := (w.m_ingoingNodes.length * w.m_outgoingNodes.length) % 2 ^ 64
  { w with m_adjacencyMatrix := resize w.m_adjacencyMatrix size (INVALID_CONTEXT_EDGE_WEIGHT hdr) }

/-- Function `CrossRoutingContextWriter::SetAdjacencyCost` on the nodes the two
iterators point at.  An error is the failed `ASSERT_LESS`. -/
def CrossRoutingContextWriter.SetAdjacencyCost (w : CrossRoutingContextWriter P)
    (ingoing : IngoingCrossNode P) (outgoing : OutgoingCrossNode P) (value : Nat) :
    Except Failure (CrossRoutingContextWriter P) :=
  let index :=
    ((w.m_outgoingNodes.length * ingoing.m_adjacencyIndex) % 2 ^ 64 +
      outgoing.m_adjacencyIndex) % 2 ^ 64
  if index < w.m_adjacencyMatrix.length then
    .ok { w with m_adjacencyMatrix := w.m_adjacencyMatrix.set index value }
  else .error .assertFailed

/-- One call of the writer's public interface.  `setCost i j value` is
`SetAdjacencyCost` with the iterators at positions `i` and `j` of the writer's
own node sequences. -/
inductive Call (P : Type) where
  | addIngoing (nodeId : Nat) (point : P)
  | addOutgoing (nodeId : Nat) (targetMwm : List Byte) (point : P)
  | reserve
  | setCost (i j value : Nat)
  deriving DecidableEq

/-- Performing one call.  Iterators that point at no node of the writer cannot
be dereferenced; such a call is reported as a failed assertion. -/
def CrossRoutingContextWriter.call (hdr : Header P) (w : CrossRoutingContextWriter P) :
    Call P → Except Failure (CrossRoutingContextWriter P)
  | .addIngoing nodeId point => .ok (w.AddIngoingNode nodeId point)
  | .addOutgoing nodeId targetMwm point => .ok (w.AddOutgoingNode nodeId targetMwm point)
  | .reserve => .ok (w.ReserveAdjacencyMatrix hdr)
  | .setCost i j value =>
    match w.m_ingoingNodes[i]?, w.m_outgoingNodes[j]? with
    | some ingoing, some outgoing => w.SetAdjacencyCost ingoing outgoing value
    | _, _ => .error .assertFailed

/-- Performing a sequence of calls, stopping at the first failure. -/
def CrossRoutingContextWriter.calls (hdr : Header P) :
    CrossRoutingContextWriter P → List (Call P) → Except Failure (CrossRoutingContextWriter P)
  | w, [] => .ok w
  | w, c :: cs =>
    match w.call hdr c with
    | .error e => .error e
    | .ok w1 => calls hdr w1 cs

end Writer

/-! ## Reference definitions taken from the specification -/

section Reference

variable {P : Type}

/-- The adjacency-cost query as the specification words it: the sentinel when
either index is the invalid marker or the flat index is outside the matrix, the
matrix cell at the flat index otherwise. -/
def GetAdjacencyCostReference (hdr : Header P) (s : CrossRoutingContextReader P)
    (ingoing : IngoingCrossNode P) (outgoing : OutgoingCrossNode P) : Nat :=
  let flat := (s.m_outgoingNodes.length * ingoing.m_adjacencyIndex +
    outgoing.m_adjacencyIndex) % 2 ^ 64
  if ingoing.m_adjacencyIndex = hdr.kInvalidAdjacencyIndex then INVALID_CONTEXT_EDGE_WEIGHT hdr
  else if outgoing.m_adjacencyIndex = hdr.kInvalidAdjacencyIndex then
    INVALID_CONTEXT_EDGE_WEIGHT hdr
  else if h : flat < s.m_adjacencyMatrix.length then s.m_adjacencyMatrix.get ⟨flat, h⟩
  else INVALID_CONTEXT_EDGE_WEIGHT hdr

end Reference

/-! ## A concrete instance

Points on an integer grid, quantised to even coordinates; four-byte node ids
and weights; a spatial query that yields, in insertion order, the nodes within
five units of the centre in both coordinates. -/

/-- A lossy point codec on the grid: coordinates are halved when packed. -/
def gridPack (p : Nat × Nat) : Nat := (p.1 / 2) * 2 ^ 32 + (p.2 / 2) % 2 ^ 32

/-- Inverse of `gridPack` up to the quantisation. -/
def gridUnpack (v : Nat) : Nat × Nat := (2 * (v / 2 ^ 32), 2 * (v % 2 ^ 32))

/-- Whether two grid coordinates are at most five apart. -/
def gridNear (a b : Nat) : Bool := decide (a ≤ b + 5) && decide (b ≤ a + 5)

/-- The concrete header used in the examples. -/
def gridHeader : Header (Nat × Nat) :=
  { nodeIdBytes := 4
    weightBytes := 4
    kInvalidAdjacencyIndex := 2 ^ 64 - 1
    PointToInt64 := gridPack
    Int64ToPoint := gridUnpack
    defaultOutgoingCrossNode :=
      { m_point := (0, 0), m_nodeId := 2 ^ 32 - 1, m_outgoingIndex := 2 ^ 32 - 1,
        m_adjacencyIndex := 2 ^ 64 - 1 }
    ForEachInRect := fun tree point =>
      tree.filter (fun nd => gridNear nd.m_point.1 point.1 && gridNear nd.m_point.2 point.2) }

/-- Ingoing node A of the specification's scenario (coordinates scaled by ten). -/
def nodeA : IngoingCrossNode (Nat × Nat) :=
  { m_point := (10, 10), m_nodeId := 10, m_adjacencyIndex := 0 }

/-- Ingoing node B of the specification's scenario, moved next to A. -/
def nodeB : IngoingCrossNode (Nat × Nat) :=
  { m_point := (12, 12), m_nodeId := 11, m_adjacencyIndex := 1 }

/-- A reader whose index holds A and B, three units apart. -/
def readerAB : CrossRoutingContextReader (Nat × Nat) :=
  { m_ingoingIndex := [nodeA, nodeB], m_outgoingNodes := [], m_adjacencyMatrix := [],
    m_neighborMwmList := [] }

/-- The name "tileX". -/
def tileX : List Byte := [116, 105, 108, 101, 88]

/-- Writer holding A and one outgoing node, on which `ReserveAdjacencyMatrix`
was never called. -/
def writerUnreserved : CrossRoutingContextWriter (Nat × Nat) :=
  (CrossRoutingContextWriter.empty.AddIngoingNode 10 (10, 10)).AddOutgoingNode 20
    tileX (30, 30)

/-- The neighbour names passed to `AddOutgoingNode`, in call order. -/
def passedNames {P : Type} : List (Call P) → List (List Byte)
  | [] => []
  | .addOutgoing _ targetMwm _ :: cs => targetMwm :: passedNames cs
  | .addIngoing _ _ :: cs => passedNames cs
  | .reserve :: cs => passedNames cs
  | .setCost _ _ _ :: cs => passedNames cs

/-- Neighbour name an outgoing node resolves to in a name list: the entry at
its `m_outgoingIndex`. -/
def resolveName {P : Type} (names : List (List Byte)) (n : OutgoingCrossNode P) :
    Option (List Byte) :=
  names[n.m_outgoingIndex]?

/-- The adjacency indices of the nodes are their positions `start, start + 1, …`. -/
def IndexedFrom {α : Type} (adj : α → Nat) : Nat → List α → Prop
  | _, [] => True
  | start, n :: ns => adj n = start ∧ IndexedFrom adj (start + 1) ns

/-- The bytes `Save` writes for a sequence of ingoing nodes. -/
def ingoingImage {P : Type} (hdr : Header P) : List (IngoingCrossNode P) → List Byte
  | [] => []
  | n :: ns => n.Save hdr [] ++ ingoingImage hdr ns

/-- The bytes `Save` writes for a sequence of outgoing nodes. -/
def outgoingImage {P : Type} (hdr : Header P) : List (OutgoingCrossNode P) → List Byte
  | [] => []
  | n :: ns => n.Save hdr [] ++ outgoingImage hdr ns

/-- The bytes `Save` writes for a list of names: each as a 32-bit length and its bytes. -/
def namesImage : List (List Byte) → List Byte
  | [] => []
  | n :: ns => toBytes 4 (n.length % 2 ^ 32) ++ n ++ namesImage ns

/-- The bytes `Save` writes for a writer whose matrix passes the `CHECK` and fits
in the address space. -/
def savedImage {P : Type} (hdr : Header P) (w : CrossRoutingContextWriter P) : List Byte :=
  toBytes 4 (w.m_ingoingNodes.length % 2 ^ 32) ++ ingoingImage hdr w.m_ingoingNodes ++
    toBytes 4 (w.m_outgoingNodes.length % 2 ^ 32) ++ outgoingImage hdr w.m_outgoingNodes ++
    weightsToBytes hdr.weightBytes w.m_adjacencyMatrix ++
    toBytes 4 (w.m_neighborMwmList.length % 2 ^ 32) ++ namesImage w.m_neighborMwmList

/-- What decoding the encoding of an ingoing node at index `i` gives: the id as
stored in its field, the point after quantisation, and `i`. -/
def IngoingCrossNode.reloaded {P : Type} (hdr : Header P) (n : IngoingCrossNode P) (i : Nat) :
    IngoingCrossNode P :=
  { m_nodeId := n.m_nodeId % 256 ^ hdr.nodeIdBytes
    m_point := hdr.Int64ToPoint (packedPoint hdr n.m_point)
    m_adjacencyIndex := i }

/-- What decoding the encoding of an outgoing node at index `i` gives. -/
def OutgoingCrossNode.reloaded {P : Type} (hdr : Header P) (n : OutgoingCrossNode P) (i : Nat) :
    OutgoingCrossNode P :=
  { m_nodeId := n.m_nodeId % 256 ^ hdr.nodeIdBytes
    m_point := hdr.Int64ToPoint (packedPoint hdr n.m_point)
    m_outgoingIndex := n.m_outgoingIndex % 2 ^ 32
    m_adjacencyIndex := i }

/-- Decoding a sequence of ingoing nodes, the first at index `i`. -/
def reloadedIngoing {P : Type} (hdr : Header P) :
    Nat → List (IngoingCrossNode P) → List (IngoingCrossNode P)
  | _, [] => []
  | i, n :: ns => n.reloaded hdr i :: reloadedIngoing hdr (i + 1) ns

/-- Decoding a sequence of outgoing nodes, the first at index `i`. -/
def reloadedOutgoing {P : Type} (hdr : Header P) :
    Nat → List (OutgoingCrossNode P) → List (OutgoingCrossNode P)
  | _, [] => []
  | i, n :: ns => n.reloaded hdr i :: reloadedOutgoing hdr (i + 1) ns

/-- What a successful `Load` of the saved image of `w` leaves in a reader that
was in state `s`: the decoded nodes, the matrix cells as stored in their fields,
and the names. -/
def reloadedContext {P : Type} (hdr : Header P) (s : CrossRoutingContextReader P)
    (w : CrossRoutingContextWriter P) : CrossRoutingContextReader P :=
  { m_ingoingIndex := s.m_ingoingIndex ++ reloadedIngoing hdr 0 w.m_ingoingNodes
    m_outgoingNodes := reloadedOutgoing hdr 0 w.m_outgoingNodes
    m_adjacencyMatrix := w.m_adjacencyMatrix.map (· % 256 ^ hdr.weightBytes)
    m_neighborMwmList := s.m_neighborMwmList ++ w.m_neighborMwmList }

/-- The writer can be saved without loss: the counts and the name lengths fit
the 32-bit fields `Save` narrows them to, the matrix has one cell per pair of
nodes (the `CHECK` of `Save`), and the matrix fits in the address space. -/
def FitsFormat {P : Type} (hdr : Header P) (w : CrossRoutingContextWriter P) : Prop :=
  w.m_ingoingNodes.length < 2 ^ 32 ∧ w.m_outgoingNodes.length < 2 ^ 32 ∧
    w.m_neighborMwmList.length < 2 ^ 32 ∧
    (∀ n ∈ w.m_neighborMwmList, n.length < 2 ^ 32) ∧
    w.m_adjacencyMatrix.length = w.m_ingoingNodes.length * w.m_outgoingNodes.length ∧
    hdr.weightBytes * w.m_adjacencyMatrix.length < 2 ^ 64

instance {P : Type} (hdr : Header P) (w : CrossRoutingContextWriter P) :
    Decidable (FitsFormat hdr w) := by
  unfold FitsFormat
  infer_instance

/-- The node additions of the specification's scenario (coordinates scaled by
ten): ingoing A and B, outgoing C and D towards "tileX". -/
def scenarioAdds : List (Call (Nat × Nat)) :=
  [.addIngoing 10 (10, 10), .addIngoing 11 (20, 20), .addOutgoing 20 tileX (30, 30),
    .addOutgoing 21 tileX (40, 40)]

/-- The cost settings of the scenario: cost(A,C) = 5 and cost(B,D) = 7. -/
def scenarioSets : List (Call (Nat × Nat)) := [.setCost 0 0 5, .setCost 1 1 7]

/-- The calls of the scenario: the additions, `ReserveAdjacencyMatrix`, the
cost settings. -/
def scenarioCalls : List (Call (Nat × Nat)) :=
  scenarioAdds ++ .reserve :: scenarioSets

/-- The writer the scenario's calls produce. -/
def scenarioWriter : CrossRoutingContextWriter (Nat × Nat) :=
  { m_ingoingNodes :=
      [{ m_point := (10, 10), m_nodeId := 10, m_adjacencyIndex := 0 },
        { m_point := (20, 20), m_nodeId := 11, m_adjacencyIndex := 1 }]
    m_outgoingNodes :=
      [{ m_point := (30, 30), m_nodeId := 20, m_outgoingIndex := 0, m_adjacencyIndex := 0 },
        { m_point := (40, 40), m_nodeId := 21, m_outgoingIndex := 0, m_adjacencyIndex := 1 }]
    m_adjacencyMatrix := [5, 4294967295, 4294967295, 7]
    m_neighborMwmList := [tileX] }

/-- Whether a call adds a node. -/
def Call.isAdd {P : Type} : Call P → Bool
  | .addIngoing _ _ => true
  | .addOutgoing _ _ _ => true
  | .reserve => false
  | .setCost _ _ _ => false

/-- Whether a call is a `SetAdjacencyCost` whose iterators point at nodes of a
writer with `m` ingoing and `n` outgoing nodes. -/
def Call.isSetWithin {P : Type} (m n : Nat) : Call P → Bool
  | .setCost i j _ => decide (i < m) && decide (j < n)
  | .addIngoing _ _ => false
  | .addOutgoing _ _ _ => false
  | .reserve => false

/-- Whether the arguments of a call are values of their C++ types: node ids of
`WritedNodeID`, weights of `WritedEdgeWeightT`. -/
def Call.wellTyped {P : Type} (hdr : Header P) : Call P → Bool
  | .addIngoing nodeId _ => decide (nodeId < 256 ^ hdr.nodeIdBytes)
  | .addOutgoing nodeId _ _ => decide (nodeId < 256 ^ hdr.nodeIdBytes)
  | .reserve => true
  | .setCost _ _ value => decide (value < 256 ^ hdr.weightBytes)

/-- Number of `AddIngoingNode` calls. -/
def ingoingCount {P : Type} : List (Call P) → Nat
  | [] => 0
  | .addIngoing _ _ :: cs => ingoingCount cs + 1
  | .addOutgoing _ _ _ :: cs => ingoingCount cs
  | .reserve :: cs => ingoingCount cs
  | .setCost _ _ _ :: cs => ingoingCount cs

/-- Number of `AddOutgoingNode` calls. -/
abbrev outgoingCount {P : Type} (cs : List (Call P)) : Nat := (passedNames cs).length

/-- The values of the `SetAdjacencyCost` calls made for the pair `(i, j)`, in
call order. -/
def costsSet {P : Type} (i j : Nat) : List (Call P) → List Nat
  | [] => []
  | .setCost i1 j1 value :: cs =>
    if i1 = i ∧ j1 = j then value :: costsSet i j cs else costsSet i j cs
  | .addIngoing _ _ :: cs => costsSet i j cs
  | .addOutgoing _ _ _ :: cs => costsSet i j cs
  | .reserve :: cs => costsSet i j cs

/-- The value of the last `SetAdjacencyCost` call made for the pair `(i, j)`,
the sentinel when no call was made for it. -/
def expectedCost {P : Type} (hdr : Header P) (i j : Nat) (cs : List (Call P)) : Nat :=
  (costsSet i j cs).getLast?.getD (INVALID_CONTEXT_EDGE_WEIGHT hdr)

/-- An ingoing node with its point replaced by `unpack (pack point)`. -/
def IngoingCrossNode.requantized {P : Type} (hdr : Header P) (n : IngoingCrossNode P) :
    IngoingCrossNode P :=
  { n with m_point := hdr.Int64ToPoint (packedPoint hdr n.m_point) }

/-- An outgoing node with its point replaced by `unpack (pack point)`. -/
def OutgoingCrossNode.requantized {P : Type} (hdr : Header P) (n : OutgoingCrossNode P) :
    OutgoingCrossNode P :=
  { n with m_point := hdr.Int64ToPoint (packedPoint hdr n.m_point) }

/-- Every successful read of `r0` is a read of `r` that returns the same bytes
and ends at or before `limit`; so is a truncation of `r` to `limit` bytes. -/
def ReadsWithin (r0 r : List Byte) (limit : Nat) : Prop :=
  ∀ pos len d, Read r0 pos len = some d → Read r pos len = some d ∧ pos + len ≤ limit

/-- An ingoing node with its adjacency index erased. -/
def IngoingCrossNode.eraseIndex {P : Type} (n : IngoingCrossNode P) : IngoingCrossNode P :=
  { n with m_adjacencyIndex := 0 }

/-- An outgoing node with its adjacency index erased. -/
def OutgoingCrossNode.eraseIndex {P : Type} (n : OutgoingCrossNode P) : OutgoingCrossNode P :=
  { n with m_adjacencyIndex := 0 }

/-- Outgoing node C of the scenario. -/
def nodeC : OutgoingCrossNode (Nat × Nat) :=
  { m_point := (30, 30), m_nodeId := 20, m_outgoingIndex := 0, m_adjacencyIndex := 0 }

/-- Outgoing node D of the scenario. -/
def nodeD : OutgoingCrossNode (Nat × Nat) :=
  { m_point := (40, 40), m_nodeId := 21, m_outgoingIndex := 0, m_adjacencyIndex := 1 }

/-- The scenario's writer with other adjacency indices written into its nodes. -/
def scenarioWriterReindexed : CrossRoutingContextWriter (Nat × Nat) :=
  { m_ingoingNodes :=
      [{ m_point := (10, 10), m_nodeId := 10, m_adjacencyIndex := 7 },
        { m_point := (20, 20), m_nodeId := 11, m_adjacencyIndex := 7 }]
    m_outgoingNodes :=
      [{ m_point := (30, 30), m_nodeId := 20, m_outgoingIndex := 0, m_adjacencyIndex := 9 },
        { m_point := (40, 40), m_nodeId := 21, m_outgoingIndex := 0, m_adjacencyIndex := 3 }]
    m_adjacencyMatrix := [5, 4294967295, 4294967295, 7]
    m_neighborMwmList := [tileX] }

/-- Ingoing node B as it stands in the scenario's writer. -/
def scenarioNodeB : IngoingCrossNode (Nat × Nat) :=
  { m_point := (20, 20), m_nodeId := 11, m_adjacencyIndex := 1 }

/-- Encoding of an ingoing node as the specification gives it: `id`, then
`packedPoint`, no padding. -/
def encodeIngoing {P : Type} (hdr : Header P) (n : IngoingCrossNode P) : List Byte :=
  toBytes hdr.nodeIdBytes n.m_nodeId ++ toBytes 8 (packedPoint hdr n.m_point)

/-- Encoding of an outgoing node as the specification gives it: `id`,
`packedPoint`, `neighborIndex`. -/
def encodeOutgoing {P : Type} (hdr : Header P) (n : OutgoingCrossNode P) : List Byte :=
  toBytes hdr.nodeIdBytes n.m_nodeId ++ toBytes 8 (packedPoint hdr n.m_point) ++
    toBytes 4 n.m_outgoingIndex

/-- The blob as the format table of the specification lays it out: the ingoing
count, the ingoing nodes, the outgoing count, the outgoing nodes, the weights of
the matrix in index order, the name count, and each name as its length and its
bytes. -/
def contextLayout {P : Type} (hdr : Header P) (w : CrossRoutingContextWriter P) : List Byte :=
  toBytes 4 w.m_ingoingNodes.length ++ w.m_ingoingNodes.flatMap (encodeIngoing hdr) ++
    toBytes 4 w.m_outgoingNodes.length ++ w.m_outgoingNodes.flatMap (encodeOutgoing hdr) ++
    w.m_adjacencyMatrix.flatMap (toBytes hdr.weightBytes) ++
    toBytes 4 w.m_neighborMwmList.length ++
    w.m_neighborMwmList.flatMap (fun name => toBytes 4 name.length ++ name)

/-- The reader loaded from the bytes saved by the scenario's writer. -/
def scenarioReader : CrossRoutingContextReader (Nat × Nat) :=
  { m_ingoingIndex := [nodeA, scenarioNodeB], m_outgoingNodes := [nodeC, nodeD],
    m_adjacencyMatrix := [5, 4294967295, 4294967295, 7], m_neighborMwmList := [tileX] }

/-- An outgoing node that no context of two outgoing nodes holds: column 3. -/
def strayOutgoing : OutgoingCrossNode (Nat × Nat) :=
  { m_point := (50, 50), m_nodeId := 22, m_outgoingIndex := 0, m_adjacencyIndex := 3 }

/-- An ingoing node that no context of two ingoing nodes holds: row 2. -/
def strayIngoing : IngoingCrossNode (Nat × Nat) :=
  { m_point := (60, 60), m_nodeId := 12, m_adjacencyIndex := 2 }

/-- The ids and points passed to `AddIngoingNode`, in call order. -/
def addedIngoing {P : Type} : List (Call P) → List (Nat × P)
  | [] => []
  | .addIngoing nodeId point :: cs => (nodeId, point) :: addedIngoing cs
  | .addOutgoing _ _ _ :: cs => addedIngoing cs
  | .reserve :: cs => addedIngoing cs
  | .setCost _ _ _ :: cs => addedIngoing cs

/-- The ids and points passed to `AddOutgoingNode`, in call order. -/
def addedOutgoing {P : Type} : List (Call P) → List (Nat × P)
  | [] => []
  | .addOutgoing nodeId _ point :: cs => (nodeId, point) :: addedOutgoing cs
  | .addIngoing _ _ :: cs => addedOutgoing cs
  | .reserve :: cs => addedOutgoing cs
  | .setCost _ _ _ :: cs => addedOutgoing cs

/-- The ingoing nodes the first loop of `Load` decodes before it ends: at most
`k` nodes, read one after the other from offset `pos` with indices `i`,
`i + 1`, …, up to the first one whose read fails. -/
def decodedIngoing {P : Type} (hdr : Header P) (r : List Byte) :
    Nat → Nat → Nat → List (IngoingCrossNode P)
  | 0, _, _ => []
  | k + 1, i, pos =>
    match IngoingCrossNode.Load hdr r pos i with
    | none => []
    | some (node, pos1) => node :: decodedIngoing hdr r k (i + 1) pos1

/-- A neighbour name of 2^32 bytes. -/
def longName : List Byte := List.replicate (2 ^ 32) 0

/-- The writer holding one outgoing node towards the neighbour `name`. -/
def oneNeighborWriter (name : List Byte) : CrossRoutingContextWriter (Nat × Nat) :=
  CrossRoutingContextWriter.empty.AddOutgoingNode 20 name (30, 30)

/-- The reader holding outgoing node C and one neighbour name, the empty name. -/
def emptyNameReader : CrossRoutingContextReader (Nat × Nat) :=
  { m_ingoingIndex := [], m_outgoingNodes := [nodeC], m_adjacencyMatrix := [],
    m_neighborMwmList := [[]] }

/-- The additions of a context with `n` ingoing nodes, all with id 0 at the
origin, and outgoing node C. -/
def wideAdds (n : Nat) : List (Call (Nat × Nat)) :=
  List.replicate n (.addIngoing 0 (0, 0)) ++ [.addOutgoing 20 tileX (30, 30)]

/-- The calls that build a context with `n` ingoing nodes and outgoing node C,
reserve its matrix and set the cost of the pair (0, 0) to 5. -/
def wideCalls (n : Nat) : List (Call (Nat × Nat)) :=
  wideAdds n ++ .reserve :: [.setCost 0 0 5]

/-- A neighbour name that starts with four bytes 255 and goes on with `rest`. -/
def garbledName (rest : List Byte) : List Byte := 255 :: 255 :: 255 :: 255 :: rest

/-- The calls that build a context with ingoing node A and three outgoing nodes
towards three neighbours, the first named `garbledName rest`, reserve its matrix
and set the cost of the pair (0, 0) to 5. -/
def garbledCalls (rest : List Byte) : List (Call (Nat × Nat)) :=
  [.addIngoing 10 (10, 10), .addOutgoing 20 (garbledName rest) (30, 30),
    .addOutgoing 21 [255, 255, 255] (40, 40), .addOutgoing 22 [] (50, 50), .reserve,
    .setCost 0 0 5]

/-- The writer the calls `garbledCalls rest` produce. -/
def garbledWriter (rest : List Byte) : CrossRoutingContextWriter (Nat × Nat) :=
  { m_ingoingNodes := [nodeA]
    m_outgoingNodes :=
      [{ m_point := (30, 30), m_nodeId := 20, m_outgoingIndex := 0, m_adjacencyIndex := 0 },
        { m_point := (40, 40), m_nodeId := 21, m_outgoingIndex := 1, m_adjacencyIndex := 1 },
        { m_point := (50, 50), m_nodeId := 22, m_outgoingIndex := 2, m_adjacencyIndex := 2 }]
    m_adjacencyMatrix := [5, 4294967295, 4294967295]
    m_neighborMwmList := [garbledName rest, [255, 255, 255], []] }

/-- The bytes 4, 5, … of a name of 2^32 bytes. -/
def longRest : List Byte := List.replicate (2 ^ 32 - 4) 0

/-- The calls of the scenario with the additions of the two kinds interleaved:
C, A, D, B, then the reservation and the cost settings. -/
def interleavedCalls : List (Call (Nat × Nat)) :=
  [.addOutgoing 20 tileX (30, 30), .addIngoing 10 (10, 10), .addOutgoing 21 tileX (40, 40),
    .addIngoing 11 (20, 20), .reserve, .setCost 0 0 5, .setCost 1 1 7]

/-! ## Lemmas on the writer's calls -/

section Proofs

variable {P : Type}

theorem resize_length {α : Type} (xs : List α) (n : Nat) (d : α) :
    (resize xs n d).length = n := by
  simp only [resize, List.length_append, List.length_take, List.length_replicate]
  omega

theorem calls_snoc (hdr : Header P) (w : CrossRoutingContextWriter P) (cs : List (Call P))
    (c : Call P) :
    CrossRoutingContextWriter.calls hdr w (cs ++ [c]) =
      match CrossRoutingContextWriter.calls hdr w cs with
      | .error e => .error e
      | .ok w1 => w1.call hdr c := by
  induction cs generalizing w with
  | nil =>
    simp only [List.nil_append, CrossRoutingContextWriter.calls]
    cases w.call hdr c <;> rfl
  | cons d ds ih =>
    simp only [List.cons_append, CrossRoutingContextWriter.calls]
    cases w.call hdr d with
    | error e => rfl
    | ok w1 => exact ih w1

theorem calls_snoc_ok (hdr : Header P) (w w2 : CrossRoutingContextWriter P)
    (cs : List (Call P)) (c : Call P)
    (h : CrossRoutingContextWriter.calls hdr w (cs ++ [c]) = .ok w2) :
    ∃ w1, CrossRoutingContextWriter.calls hdr w cs = .ok w1 ∧ w1.call hdr c = .ok w2 := by
  rw [calls_snoc] at h
  cases h1 : CrossRoutingContextWriter.calls hdr w cs with
  | error e => rw [h1] at h; cases h
  | ok w1 => rw [h1] at h; exact ⟨w1, rfl, h⟩

/-- A property of writer states that holds initially and is kept by every
successful call among those allowed holds after any successful sequence of
allowed calls. -/
theorem calls_invariant (hdr : Header P) (Inv : CrossRoutingContextWriter P → Prop)
    (Allowed : Call P → Prop)
    (hstep : ∀ w c w1, Inv w → Allowed c → w.call hdr c = .ok w1 → Inv w1)
    (w w1 : CrossRoutingContextWriter P) (cs : List (Call P)) (h0 : Inv w)
    (hcs : ∀ c ∈ cs, Allowed c)
    (h : CrossRoutingContextWriter.calls hdr w cs = .ok w1) : Inv w1 := by
  induction cs generalizing w with
  | nil =>
    simp only [CrossRoutingContextWriter.calls, Except.ok.injEq] at h
    exact h ▸ h0
  | cons c cs ih =>
    simp only [CrossRoutingContextWriter.calls] at h
    cases hc : w.call hdr c with
    | error e => rw [hc] at h; cases h
    | ok w2 =>
      rw [hc] at h
      exact ih w2 (hstep w c w2 h0 (hcs c (List.mem_cons_self _ _)) hc)
        (fun d hd => hcs d (List.mem_cons_of_mem _ hd)) h

/-- What a successful `SetAdjacencyCost` leaves behind. -/
theorem SetAdjacencyCost_ok (w w1 : CrossRoutingContextWriter P) (a : IngoingCrossNode P)
    (b : OutgoingCrossNode P) (v : Nat) (h : w.SetAdjacencyCost a b v = .ok w1) :
    w1.m_ingoingNodes = w.m_ingoingNodes ∧ w1.m_outgoingNodes = w.m_outgoingNodes ∧
      w1.m_neighborMwmList = w.m_neighborMwmList ∧
      w1.m_adjacencyMatrix.length = w.m_adjacencyMatrix.length := by
  simp only [CrossRoutingContextWriter.SetAdjacencyCost] at h
  split at h
  · simp only [Except.ok.injEq] at h
    subst h
    simp
  · cases h

/-- A successful `setCost` call is a successful `SetAdjacencyCost` on two nodes
of the writer. -/
theorem call_setCost_ok (hdr : Header P) (w w1 : CrossRoutingContextWriter P) (i j v : Nat)
    (h : w.call hdr (.setCost i j v) = .ok w1) :
    ∃ a b, w.m_ingoingNodes[i]? = some a ∧ w.m_outgoingNodes[j]? = some b ∧
      w.SetAdjacencyCost a b v = .ok w1 := by
  simp only [CrossRoutingContextWriter.call] at h
  split at h
  · rename_i a b ha hb
    exact ⟨a, b, ha, hb, h⟩
  · cases h

theorem passedNames_append (cs ds : List (Call P)) :
    passedNames (cs ++ ds) = passedNames cs ++ passedNames ds := by
  induction cs with
  | nil => rfl
  | cons c cs ih => cases c <;> simp [passedNames, ih]

theorem findIndex_le (t : List Byte) (ns : List (List Byte)) : findIndex t ns ≤ ns.length := by
  induction ns with
  | nil => simp [findIndex]
  | cons n ns ih =>
    simp only [findIndex, List.length_cons]
    split <;> omega

theorem findIndex_eq_length (t : List Byte) (ns : List (List Byte)) :
    findIndex t ns = ns.length ↔ t ∉ ns := by
  induction ns with
  | nil => simp [findIndex]
  | cons n ns ih =>
    simp only [findIndex, List.length_cons, List.mem_cons, not_or]
    by_cases h : n = t
    · simp [h]
    · simp only [h, if_false, Nat.add_right_cancel_iff, ih]
      constructor
      · intro h1
        exact ⟨fun h2 => h h2.symm, h1⟩
      · intro h1
        exact h1.2

theorem findIndex_get (t : List Byte) (ns : List (List Byte))
    (h : findIndex t ns < ns.length) : ns[findIndex t ns]? = some t := by
  induction ns with
  | nil => simp [findIndex] at h
  | cons n ns ih =>
    simp only [findIndex, List.length_cons] at h ⊢
    by_cases hn : n = t
    · simp [hn]
    · simp only [hn, if_false] at h ⊢
      simpa using ih (by omega)

/-- The name list after `AddOutgoingNode`: the old list, with the new name
appended when it was absent; the name then sits at the index found. -/
theorem AddOutgoingNode_names (w : CrossRoutingContextWriter P) (nodeId : Nat)
    (targetMwm : List Byte) (point : P) :
    ∃ suffix, (w.AddOutgoingNode nodeId targetMwm point).m_neighborMwmList =
        w.m_neighborMwmList ++ suffix ∧
      ((suffix = [] ∧ targetMwm ∈ w.m_neighborMwmList) ∨
        (suffix = [targetMwm] ∧ targetMwm ∉ w.m_neighborMwmList)) ∧
      (w.m_neighborMwmList ++ suffix)[findIndex targetMwm w.m_neighborMwmList]? =
        some targetMwm := by
  by_cases h : targetMwm ∈ w.m_neighborMwmList
  · refine ⟨[], ?_, Or.inl ⟨rfl, h⟩, ?_⟩
    · have h1 : findIndex targetMwm w.m_neighborMwmList ≠ w.m_neighborMwmList.length :=
        fun h2 => (findIndex_eq_length _ _).1 h2 h
      simp [CrossRoutingContextWriter.AddOutgoingNode, h1]
    · have h1 : findIndex targetMwm w.m_neighborMwmList ≠ w.m_neighborMwmList.length :=
        fun h2 => (findIndex_eq_length _ _).1 h2 h
      have h2 := findIndex_le targetMwm w.m_neighborMwmList
      rw [List.append_nil]
      exact findIndex_get _ _ (by omega)
  · refine ⟨[targetMwm], ?_, Or.inr ⟨rfl, h⟩, ?_⟩
    · have h1 := (findIndex_eq_length _ _).2 h
      simp [CrossRoutingContextWriter.AddOutgoingNode, h1]
    · have h1 := (findIndex_eq_length _ _).2 h
      rw [h1]
      simp

/-- Without a call of `ReserveAdjacencyMatrix` the matrix stays empty. -/
theorem calls_unreserved (hdr : Header P) (w w1 : CrossRoutingContextWriter P)
    (cs : List (Call P)) (h0 : w.m_adjacencyMatrix = []) (hcs : Call.reserve ∉ cs)
    (h : CrossRoutingContextWriter.calls hdr w cs = .ok w1) : w1.m_adjacencyMatrix = [] := by
  induction cs generalizing w with
  | nil =>
    simp only [CrossRoutingContextWriter.calls, Except.ok.injEq] at h
    exact h ▸ h0
  | cons c cs ih =>
    simp only [List.mem_cons, not_or] at hcs
    simp only [CrossRoutingContextWriter.calls] at h
    cases hc : w.call hdr c with
    | error e => rw [hc] at h; cases h
    | ok w2 =>
      rw [hc] at h
      refine ih w2 ?_ hcs.2 h
      cases c with
      | addIngoing nodeId point =>
        simp only [CrossRoutingContextWriter.call, Except.ok.injEq] at hc
        subst hc
        exact h0
      | addOutgoing nodeId targetMwm point =>
        simp only [CrossRoutingContextWriter.call, Except.ok.injEq] at hc
        subst hc
        exact h0
      | reserve => exact absurd rfl hcs.1
      | setCost i j v =>
        obtain ⟨a, b, _, _, hs⟩ := call_setCost_ok hdr w w2 i j v hc
        simp only [CrossRoutingContextWriter.SetAdjacencyCost, h0, List.length_nil,
          Nat.not_lt_zero, if_false] at hs
        cases hs

theorem IndexedFrom_append {α : Type} (adj : α → Nat) (start : Nat) (xs ys : List α) :
    IndexedFrom adj start (xs ++ ys) ↔
      IndexedFrom adj start xs ∧ IndexedFrom adj (start + xs.length) ys := by
  induction xs generalizing start with
  | nil => simp [IndexedFrom]
  | cons x xs ih =>
    have e : start + 1 + xs.length = start + (xs.length + 1) := by omega
    rw [List.cons_append]
    simp only [IndexedFrom, List.length_cons]
    rw [ih, e, and_assoc]

theorem IndexedFrom_get {α : Type} (adj : α → Nat) (start : Nat) (xs : List α)
    (h : IndexedFrom adj start xs) (k : Nat) (n : α) (hk : xs[k]? = some n) :
    adj n = start + k := by
  induction xs generalizing start k with
  | nil => simp at hk
  | cons x xs ih =>
    cases k with
    | zero =>
      simp only [List.getElem?_cons_zero, Option.some.injEq] at hk
      subst hk
      exact h.1
    | succ k =>
      simp only [List.getElem?_cons_succ] at hk
      have := ih (start + 1) h.2 k hk
      omega

/-- State invariant of the writer: adjacency indices are positions, and every
outgoing node's `m_outgoingIndex` is a valid index into the name list, which has
no more entries than there are outgoing nodes and no repetition. -/
theorem calls_state (hdr : Header P) (w : CrossRoutingContextWriter P) (cs : List (Call P))
    (h : CrossRoutingContextWriter.calls hdr CrossRoutingContextWriter.empty cs = .ok w) :
    IndexedFrom IngoingCrossNode.m_adjacencyIndex 0 w.m_ingoingNodes ∧
      IndexedFrom OutgoingCrossNode.m_adjacencyIndex 0 w.m_outgoingNodes ∧
      (∀ n ∈ w.m_outgoingNodes, n.m_outgoingIndex < w.m_neighborMwmList.length) ∧
      w.m_neighborMwmList.length ≤ w.m_outgoingNodes.length ∧
      w.m_neighborMwmList.Nodup := by
  refine calls_invariant hdr (fun v =>
    IndexedFrom IngoingCrossNode.m_adjacencyIndex 0 v.m_ingoingNodes ∧
      IndexedFrom OutgoingCrossNode.m_adjacencyIndex 0 v.m_outgoingNodes ∧
      (∀ n ∈ v.m_outgoingNodes, n.m_outgoingIndex < v.m_neighborMwmList.length) ∧
      v.m_neighborMwmList.length ≤ v.m_outgoingNodes.length ∧
      v.m_neighborMwmList.Nodup) (fun _ => True) ?_ CrossRoutingContextWriter.empty w cs ?_
    (fun _ _ => trivial) h
  · intro v c v1 ⟨hi, ho, hx, hl, hn⟩ _ hc
    cases c with
    | addIngoing nodeId point =>
      simp only [CrossRoutingContextWriter.call, Except.ok.injEq] at hc
      subst hc
      refine ⟨?_, ho, hx, hl, hn⟩
      simp only [CrossRoutingContextWriter.AddIngoingNode]
      rw [IndexedFrom_append]
      exact ⟨hi, by simp [IndexedFrom]⟩
    | addOutgoing nodeId targetMwm point =>
      simp only [CrossRoutingContextWriter.call, Except.ok.injEq] at hc
      subst hc
      obtain ⟨suffix, hs, hcase, hget⟩ := AddOutgoingNode_names v nodeId targetMwm point
      have hfl : findIndex targetMwm v.m_neighborMwmList <
          (v.m_neighborMwmList ++ suffix).length := by
        by_contra hcon
        rw [List.getElem?_eq_none (by omega)] at hget
        cases hget
      refine ⟨hi, ?_, ?_, ?_, ?_⟩
      · simp only [CrossRoutingContextWriter.AddOutgoingNode]
        rw [IndexedFrom_append]
        exact ⟨ho, by simp [IndexedFrom]⟩
      · rw [hs]
        intro n hn1
        simp only [CrossRoutingContextWriter.AddOutgoingNode, List.mem_append,
          List.mem_singleton] at hn1
        rcases hn1 with hn1 | hn1
        · have := hx n hn1
          simp only [List.length_append]
          omega
        · subst hn1
          exact Nat.lt_of_le_of_lt (Nat.mod_le _ _) hfl
      · rw [hs]
        simp only [CrossRoutingContextWriter.AddOutgoingNode, List.length_append,
          List.length_singleton]
        rcases hcase with ⟨h1, _⟩ | ⟨h1, _⟩ <;> simp [h1] <;> omega
      · rw [hs]
        rcases hcase with ⟨h1, _⟩ | ⟨h1, h2⟩
        · simpa [h1] using hn
        · rw [h1]
          exact List.Nodup.append hn (List.nodup_singleton _) (by simpa using h2)
    | reserve =>
      simp only [CrossRoutingContextWriter.call, Except.ok.injEq] at hc
      subst hc
      exact ⟨hi, ho, hx, hl, hn⟩
    | setCost i j value =>
      obtain ⟨a, b, _, _, hs⟩ := call_setCost_ok hdr v v1 i j value hc
      obtain ⟨h1, h2, h3, _⟩ := SetAdjacencyCost_ok v v1 a b value hs
      rw [h1, h2, h3]
      exact ⟨hi, ho, hx, hl, hn⟩
  · simp [CrossRoutingContextWriter.empty, IndexedFrom]

/-- History invariant of the writer: the name list holds exactly the names
passed so far, there is one outgoing node per name passed, and, unless an index
was narrowed, the k-th outgoing node resolves to the k-th name passed. -/
theorem calls_history (hdr : Header P) (cs : List (Call P)) :
    ∀ w, CrossRoutingContextWriter.calls hdr CrossRoutingContextWriter.empty cs = .ok w →
      (∀ x, x ∈ w.m_neighborMwmList ↔ x ∈ passedNames cs) ∧
      w.m_outgoingNodes.length = (passedNames cs).length ∧
      (w.m_neighborMwmList.length ≤ 2 ^ 32 →
        w.m_outgoingNodes.map (resolveName w.m_neighborMwmList) =
          (passedNames cs).map some) := by
  induction cs using List.reverseRecOn with
  | nil =>
    intro w h
    simp only [CrossRoutingContextWriter.calls, Except.ok.injEq] at h
    subst h
    simp [CrossRoutingContextWriter.empty, passedNames]
  | append_singleton cs c ih =>
    intro w2 h
    obtain ⟨w, hw, hc⟩ := calls_snoc_ok hdr _ w2 cs c h
    obtain ⟨hm, hl, hr⟩ := ih w hw
    obtain ⟨_, _, hx, _, _⟩ := calls_state hdr w cs hw
    rw [passedNames_append]
    cases c with
    | addIngoing nodeId point =>
      simp only [CrossRoutingContextWriter.call, Except.ok.injEq] at hc
      subst hc
      simpa [passedNames, CrossRoutingContextWriter.AddIngoingNode] using ⟨hm, hl, hr⟩
    | addOutgoing nodeId targetMwm point =>
      simp only [CrossRoutingContextWriter.call, Except.ok.injEq] at hc
      subst hc
      obtain ⟨suffix, hs, hcase, hget⟩ := AddOutgoingNode_names w nodeId targetMwm point
      have hfl : findIndex targetMwm w.m_neighborMwmList <
          (w.m_neighborMwmList ++ suffix).length := by
        by_contra hcon
        rw [List.getElem?_eq_none (by omega)] at hget
        cases hget
      rw [hs]
      refine ⟨?_, ?_, ?_⟩
      · intro x
        simp only [List.mem_append, hm, passedNames, List.mem_singleton]
        rcases hcase with ⟨h1, h2⟩ | ⟨h1, _⟩
        · subst h1
          simp only [List.not_mem_nil, or_false]
          constructor
          · exact Or.inl
          · rintro (h3 | h3)
            · exact h3
            · subst h3
              exact (hm _).1 h2
        · subst h1
          simp
      · simp [CrossRoutingContextWriter.AddOutgoingNode, passedNames, hl]
      · intro hlen
        have hlen1 : w.m_neighborMwmList.length ≤ 2 ^ 32 := by
          simp only [List.length_append] at hlen
          omega
        simp only [CrossRoutingContextWriter.AddOutgoingNode, List.map_append, passedNames,
          List.map_cons, List.map_nil]
        congr 1
        · rw [← hr hlen1]
          apply List.map_congr_left
          intro n hn
          simp only [resolveName]
          exact List.getElem?_append_left (hx n hn)
        · simp only [resolveName, outgoingIndexBytes]
          rw [Nat.mod_eq_of_lt (by omega), hget]
    | reserve =>
      simp only [CrossRoutingContextWriter.call, Except.ok.injEq] at hc
      subst hc
      simpa [passedNames, CrossRoutingContextWriter.ReserveAdjacencyMatrix] using ⟨hm, hl, hr⟩
    | setCost i j value =>
      obtain ⟨a, b, _, _, hs⟩ := call_setCost_ok hdr w w2 i j value hc
      obtain ⟨h1, h2, h3, _⟩ := SetAdjacencyCost_ok w w2 a b value hs
      rw [h2, h3]
      simpa [passedNames] using ⟨hm, hl, hr⟩


/-! ### Field encoding -/

theorem toBytes_length (w v : Nat) : (toBytes w v).length = w := by
  induction w generalizing v with
  | zero => rfl
  | succ w ih => simp [toBytes, ih]

theorem ofBytes_toBytes (w v : Nat) : ofBytes (toBytes w v) = v % 256 ^ w := by
  induction w generalizing v with
  | zero => simp [toBytes, ofBytes, Nat.mod_one]
  | succ w ih =>
    simp only [toBytes, ofBytes, byteOf, ih]
    rw [pow_succ', Nat.mod_mul]

theorem ofBytes_lt (bs : List Byte) : ofBytes bs < 256 ^ bs.length := by
  induction bs with
  | nil => simp [ofBytes]
  | cons b bs ih =>
    simp only [ofBytes, List.length_cons, pow_succ']
    have := b.isLt
    omega

theorem weightsToBytes_length (wb : Nat) (m : List Nat) :
    (weightsToBytes wb m).length = wb * m.length := by
  induction m with
  | nil => rfl
  | cons x xs ih =>
    simp only [weightsToBytes, List.length_append, toBytes_length, ih, List.length_cons]
    ring

theorem weightsOfBytes_toBytes (wb : Nat) (m : List Nat) (post : List Byte) :
    weightsOfBytes wb m.length (weightsToBytes wb m ++ post) = m.map (· % 256 ^ wb) := by
  induction m with
  | nil => rfl
  | cons x xs ih =>
    simp only [weightsToBytes, List.length_cons, weightsOfBytes, List.map_cons,
      List.append_assoc]
    rw [List.take_left' (toBytes_length wb x), List.drop_left' (toBytes_length wb x), ih,
      ofBytes_toBytes]

theorem weightsOfBytes_length (wb n : Nat) (bs : List Byte) :
    (weightsOfBytes wb n bs).length = n := by
  induction n generalizing bs with
  | zero => rfl
  | succ n ih => simp [weightsOfBytes, ih]

/-! ### Reading a known region -/

theorem Read_at (pre mid post : List Byte) (r : List Byte) (pos len : Nat)
    (hr : r = pre ++ (mid ++ post)) (hp : pos = pre.length) (hl : len = mid.length) :
    Read r pos len = some mid := by
  subst hr hp hl
  simp only [Read, List.length_append]
  rw [if_pos (by omega), List.drop_left, List.take_left]

theorem ingoing_Save_eq (hdr : Header P) (n : IngoingCrossNode P) (sink : List Byte) :
    n.Save hdr sink = sink ++ n.Save hdr [] := by
  simp [IngoingCrossNode.Save, Write]

theorem outgoing_Save_eq (hdr : Header P) (n : OutgoingCrossNode P)
    (sink : List Byte) : n.Save hdr sink = sink ++ n.Save hdr [] := by
  simp [OutgoingCrossNode.Save, Write]

theorem ingoing_Save_length (hdr : Header P) (n : IngoingCrossNode P) :
    (n.Save hdr []).length = hdr.nodeIdBytes + 8 := by
  simp [IngoingCrossNode.Save, Write, toBytes_length]

theorem outgoing_Save_length (hdr : Header P) (n : OutgoingCrossNode P) :
    (n.Save hdr []).length = hdr.nodeIdBytes + 8 + outgoingIndexBytes := by
  simp [OutgoingCrossNode.Save, Write, toBytes_length, Nat.add_assoc]

theorem ingoingImage_length (hdr : Header P) (ns : List (IngoingCrossNode P)) :
    (ingoingImage hdr ns).length = ns.length * (hdr.nodeIdBytes + 8) := by
  induction ns with
  | nil => simp [ingoingImage]
  | cons n ns ih =>
    simp only [ingoingImage, List.length_append, ingoing_Save_length, ih,
      List.length_cons]
    ring

theorem outgoingImage_length (hdr : Header P) (ns : List (OutgoingCrossNode P)) :
    (outgoingImage hdr ns).length = ns.length * (hdr.nodeIdBytes + 8 + outgoingIndexBytes) := by
  induction ns with
  | nil => simp [outgoingImage]
  | cons n ns ih =>
    simp only [outgoingImage, List.length_append, outgoing_Save_length, ih,
      List.length_cons]
    ring

theorem ingoing_Load_at (hdr : Header P) (n : IngoingCrossNode P)
    (pre post r : List Byte) (pos i : Nat) (hr : r = pre ++ (n.Save hdr [] ++ post))
    (hp : pos = pre.length) :
    IngoingCrossNode.Load hdr r pos i =
      some (n.reloaded hdr i, pos + (hdr.nodeIdBytes + 8)) := by
  have hread := Read_at pre (n.Save hdr []) post r pos (hdr.nodeIdBytes + 8) hr hp
    (ingoing_Save_length hdr n).symm
  simp only [IngoingCrossNode.Load, hread]
  simp only [IngoingCrossNode.Save, Write, List.nil_append, IngoingCrossNode.reloaded,
    packedPoint]
  rw [List.take_left' (toBytes_length _ _), List.drop_left' (toBytes_length _ _),
    List.take_of_length_le (by rw [toBytes_length]), ofBytes_toBytes, ofBytes_toBytes]
  have e : (256 : Nat) ^ 8 = 2 ^ 64 := by norm_num
  rw [e, Nat.mod_mod]

theorem outgoing_Load_at (hdr : Header P) (n : OutgoingCrossNode P)
    (pre post r : List Byte) (pos i : Nat) (hr : r = pre ++ (n.Save hdr [] ++ post))
    (hp : pos = pre.length) :
    OutgoingCrossNode.Load hdr r pos i =
      some (n.reloaded hdr i, pos + (hdr.nodeIdBytes + 8 + outgoingIndexBytes)) := by
  have hread := Read_at pre (n.Save hdr []) post r pos
    (hdr.nodeIdBytes + 8 + outgoingIndexBytes) hr hp (outgoing_Save_length hdr n).symm
  simp only [OutgoingCrossNode.Load, hread]
  simp only [OutgoingCrossNode.Save, Write, List.nil_append, OutgoingCrossNode.reloaded,
    packedPoint, List.append_assoc]
  rw [List.take_left' (toBytes_length _ _), List.drop_left' (toBytes_length _ _),
    List.take_left' (toBytes_length _ _)]
  have hd : List.drop (hdr.nodeIdBytes + 8)
      (toBytes hdr.nodeIdBytes n.m_nodeId ++
        (toBytes 8 (hdr.PointToInt64 n.m_point % 2 ^ 64) ++
          toBytes outgoingIndexBytes n.m_outgoingIndex)) =
      toBytes outgoingIndexBytes n.m_outgoingIndex := by
    rw [← List.append_assoc]
    exact List.drop_left' (by simp [toBytes_length])
  rw [hd, List.take_of_length_le (by rw [toBytes_length]), ofBytes_toBytes, ofBytes_toBytes,
    ofBytes_toBytes]
  have e : (256 : Nat) ^ 8 = 2 ^ 64 := by norm_num
  have e2 : (256 : Nat) ^ outgoingIndexBytes = 2 ^ 32 := by norm_num [outgoingIndexBytes]
  rw [e, e2, Nat.mod_mod]

/-! ### The loops of `Load` on a saved region -/

theorem reloadedIngoing_length (hdr : Header P) (i : Nat) (ns : List (IngoingCrossNode P)) :
    (reloadedIngoing hdr i ns).length = ns.length := by
  induction ns generalizing i with
  | nil => rfl
  | cons n ns ih => simp [reloadedIngoing, ih]

theorem reloadedOutgoing_length (hdr : Header P) (i : Nat) (ns : List (OutgoingCrossNode P)) :
    (reloadedOutgoing hdr i ns).length = ns.length := by
  induction ns generalizing i with
  | nil => rfl
  | cons n ns ih => simp [reloadedOutgoing, ih]

theorem loadIngoingLoop_at (hdr : Header P) (ns : List (IngoingCrossNode P)) :
    ∀ (pre post r : List Byte) (pos i : Nat) (tree : List (IngoingCrossNode P)),
      r = pre ++ (ingoingImage hdr ns ++ post) → pos = pre.length →
      loadIngoingLoop hdr r ns.length i pos tree =
        .ok (tree ++ reloadedIngoing hdr i ns, pos + (ingoingImage hdr ns).length) := by
  induction ns with
  | nil =>
    intro pre post r pos i tree _ _
    simp [loadIngoingLoop, reloadedIngoing, ingoingImage]
  | cons n ns ih =>
    intro pre post r pos i tree hr hp
    simp only [List.length_cons, loadIngoingLoop]
    rw [ingoing_Load_at hdr n pre (ingoingImage hdr ns ++ post) r pos i
      (by rw [hr]; simp [ingoingImage]) hp]
    simp only
    rw [ih (pre ++ n.Save hdr []) post r _ (i + 1) _ (by rw [hr]; simp [ingoingImage])
      (by simp [hp, ingoing_Save_length])]
    simp only [reloadedIngoing, ingoingImage, List.length_append, ingoing_Save_length,
      List.append_assoc, List.singleton_append, Nat.add_assoc]

theorem set_at_length {α : Type} (done pad : List α) (p x : α) :
    (done ++ p :: pad).set done.length x = (done ++ [x]) ++ pad := by
  rw [List.set_append_right _ _ (Nat.le_refl _)]
  simp

theorem loadOutgoingLoop_at (hdr : Header P) (ns : List (OutgoingCrossNode P)) :
    ∀ (pre post r : List Byte) (pos : Nat) (done pad : List (OutgoingCrossNode P)),
      r = pre ++ (outgoingImage hdr ns ++ post) → pos = pre.length →
      pad.length = ns.length →
      loadOutgoingLoop hdr r ns.length done.length pos (done ++ pad) =
        .ok (done ++ reloadedOutgoing hdr done.length ns,
          pos + (outgoingImage hdr ns).length) := by
  induction ns with
  | nil =>
    intro pre post r pos done pad _ _ hpad
    have : pad = [] := List.length_eq_zero.1 hpad
    simp [loadOutgoingLoop, reloadedOutgoing, outgoingImage, this]
  | cons n ns ih =>
    intro pre post r pos done pad hr hp hpad
    cases pad with
    | nil => simp at hpad
    | cons p pad =>
      simp only [List.length_cons, loadOutgoingLoop]
      rw [outgoing_Load_at hdr n pre (outgoingImage hdr ns ++ post) r pos done.length
        (by rw [hr]; simp [outgoingImage]) hp]
      simp only
      rw [set_at_length]
      have hl : done.length + 1 = (done ++ [n.reloaded hdr done.length]).length := by simp
      rw [hl, ih (pre ++ n.Save hdr []) post r _ _ pad (by rw [hr]; simp [outgoingImage])
        (by simp [hp, outgoing_Save_length]) (by simpa using hpad)]
      simp only [reloadedOutgoing, outgoingImage, List.length_append,
        outgoing_Save_length, List.append_assoc, List.singleton_append,
        Nat.add_assoc, List.length_singleton]

theorem loadNamesLoop_at (ns : List (List Byte)) (hlen : ∀ n ∈ ns, n.length < 2 ^ 32) :
    ∀ (pre post r : List Byte) (pos : Nat) (acc : List (List Byte)),
      r = pre ++ (namesImage ns ++ post) → pos = pre.length →
      loadNamesLoop r ns.length pos acc = .ok (acc ++ ns, pos + (namesImage ns).length) := by
  induction ns with
  | nil =>
    intro pre post r pos acc _ _
    simp [loadNamesLoop, namesImage]
  | cons n ns ih =>
    intro pre post r pos acc hr hp
    have hn : n.length < 2 ^ 32 := hlen n (List.mem_cons_self _ _)
    have h1 : Read r pos 4 = some (toBytes 4 (n.length % 2 ^ 32)) :=
      Read_at pre _ (n ++ (namesImage ns ++ post)) r pos 4
        (by rw [hr]; simp [namesImage]) hp (toBytes_length _ _).symm
    have e1 : ofBytes (toBytes 4 (n.length % 2 ^ 32)) = n.length := by
      rw [ofBytes_toBytes, Nat.mod_eq_of_lt hn]
      exact Nat.mod_eq_of_lt (by omega)
    have h2 : Read r (pos + 4) n.length = some n :=
      Read_at (pre ++ toBytes 4 (n.length % 2 ^ 32)) n (namesImage ns ++ post) r _ _
        (by rw [hr]; simp [namesImage]) (by simp [hp, toBytes_length]) rfl
    simp only [List.length_cons, loadNamesLoop, h1, e1, h2]
    rw [ih (fun m hm => hlen m (List.mem_cons_of_mem _ hm))
      (pre ++ toBytes 4 (n.length % 2 ^ 32) ++ n) post r _ _
      (by rw [hr]; simp [namesImage]) (by simp [hp, toBytes_length, Nat.add_assoc])]
    simp only [namesImage, List.length_append, toBytes_length, List.append_assoc,
      List.singleton_append, Nat.add_assoc]

/-! ### `Save` writes the saved image -/

theorem foldl_ingoing_Save (hdr : Header P) (ns : List (IngoingCrossNode P))
    (sink : List Byte) :
    ns.foldl (fun acc node => node.Save hdr acc) sink = sink ++ ingoingImage hdr ns := by
  induction ns generalizing sink with
  | nil => simp [ingoingImage]
  | cons n ns ih =>
    simp only [List.foldl_cons, ih, ingoingImage]
    rw [ingoing_Save_eq, List.append_assoc]

theorem foldl_outgoing_Save (hdr : Header P) (ns : List (OutgoingCrossNode P))
    (sink : List Byte) :
    ns.foldl (fun acc node => node.Save hdr acc) sink = sink ++ outgoingImage hdr ns := by
  induction ns generalizing sink with
  | nil => simp [outgoingImage]
  | cons n ns ih =>
    simp only [List.foldl_cons, ih, outgoingImage]
    rw [outgoing_Save_eq, List.append_assoc]

theorem foldl_names_Write (ns : List (List Byte)) (sink : List Byte) :
    ns.foldl (fun acc neighbor =>
      Write (Write acc (toBytes 4 (neighbor.length % 2 ^ 32))) neighbor) sink =
      sink ++ namesImage ns := by
  induction ns generalizing sink with
  | nil => simp [namesImage]
  | cons n ns ih =>
    simp only [List.foldl_cons]
    rw [ih]
    simp only [namesImage, Write, List.append_assoc]

/-- On a writer that passes the `CHECK` and whose matrix fits in the address
space, `Save` appends the saved image to the sink. -/
theorem Save_ok (hdr : Header P) (w : CrossRoutingContextWriter P) (sink : List Byte)
    (hcheck : w.m_adjacencyMatrix.length =
      (w.m_outgoingNodes.length * w.m_ingoingNodes.length) % 2 ^ 64)
    (hmem : hdr.weightBytes * w.m_adjacencyMatrix.length < 2 ^ 64) :
    w.Save hdr sink = .ok (sink ++ savedImage hdr w) := by
  simp only [CrossRoutingContextWriter.Save]
  rw [if_pos hcheck, Nat.mod_eq_of_lt hmem,
    List.take_of_length_le (by rw [weightsToBytes_length])]
  simp only [foldl_ingoing_Save, foldl_outgoing_Save, foldl_names_Write]
  simp only [Write, savedImage, List.append_assoc]

theorem ofBytes_count (n : Nat) (h : n < 2 ^ 32) : ofBytes (toBytes 4 (n % 2 ^ 32)) = n := by
  rw [ofBytes_toBytes, Nat.mod_eq_of_lt h]
  exact Nat.mod_eq_of_lt (by omega)

theorem overlay_full (data mem : List Byte) (h : mem.length = data.length) :
    overlay data mem = data := by
  simp [overlay, ← h]

/-- Loading the saved image of a writer whose counts and name lengths fit their
32-bit fields and whose matrix has one cell per pair of nodes and fits in the
address space: every read succeeds, the whole image is consumed, and the reader
ends in `reloadedContext`. -/
theorem LoadPos_savedImage (hdr : Header P) (w : CrossRoutingContextWriter P)
    (s : CrossRoutingContextReader P)
    (hin : w.m_ingoingNodes.length < 2 ^ 32) (hout : w.m_outgoingNodes.length < 2 ^ 32)
    (hnames : w.m_neighborMwmList.length < 2 ^ 32)
    (hlen : ∀ n ∈ w.m_neighborMwmList, n.length < 2 ^ 32)
    (hcheck : w.m_adjacencyMatrix.length = w.m_ingoingNodes.length * w.m_outgoingNodes.length)
    (hmem : hdr.weightBytes * w.m_adjacencyMatrix.length < 2 ^ 64) :
    s.LoadPos hdr (savedImage hdr w) =
      .ok (reloadedContext hdr s w, (savedImage hdr w).length) := by
  have h1 : Read (savedImage hdr w) 0 4 = some (toBytes 4 (w.m_ingoingNodes.length % 2 ^ 32)) :=
    Read_at [] _ (ingoingImage hdr w.m_ingoingNodes ++
      (toBytes 4 (w.m_outgoingNodes.length % 2 ^ 32) ++ (outgoingImage hdr w.m_outgoingNodes ++
      (weightsToBytes hdr.weightBytes w.m_adjacencyMatrix ++
        (toBytes 4 (w.m_neighborMwmList.length % 2 ^ 32) ++
          namesImage w.m_neighborMwmList))))) _ 0 4
      (by simp only [savedImage, List.append_assoc, List.nil_append]) rfl
      (toBytes_length _ _).symm
  have h2 := loadIngoingLoop_at hdr w.m_ingoingNodes
    (toBytes 4 (w.m_ingoingNodes.length % 2 ^ 32))
    (toBytes 4 (w.m_outgoingNodes.length % 2 ^ 32) ++ (outgoingImage hdr w.m_outgoingNodes ++
      (weightsToBytes hdr.weightBytes w.m_adjacencyMatrix ++
        (toBytes 4 (w.m_neighborMwmList.length % 2 ^ 32) ++ namesImage w.m_neighborMwmList))))
    (savedImage hdr w) 4 0 s.m_ingoingIndex
    (by simp only [savedImage, List.append_assoc]) (toBytes_length _ _).symm
  have h3 : Read (savedImage hdr w) (4 + (ingoingImage hdr w.m_ingoingNodes).length) 4 =
      some (toBytes 4 (w.m_outgoingNodes.length % 2 ^ 32)) :=
    Read_at (toBytes 4 (w.m_ingoingNodes.length % 2 ^ 32) ++ ingoingImage hdr w.m_ingoingNodes)
      _ (outgoingImage hdr w.m_outgoingNodes ++
      (weightsToBytes hdr.weightBytes w.m_adjacencyMatrix ++
        (toBytes 4 (w.m_neighborMwmList.length % 2 ^ 32) ++ namesImage w.m_neighborMwmList)))
      _ _ 4 (by simp only [savedImage, List.append_assoc])
      (by simp only [List.length_append, toBytes_length]) (toBytes_length _ _).symm
  have h4 := loadOutgoingLoop_at hdr w.m_outgoingNodes
    (toBytes 4 (w.m_ingoingNodes.length % 2 ^ 32) ++ ingoingImage hdr w.m_ingoingNodes ++
      toBytes 4 (w.m_outgoingNodes.length % 2 ^ 32))
    (weightsToBytes hdr.weightBytes w.m_adjacencyMatrix ++
      (toBytes 4 (w.m_neighborMwmList.length % 2 ^ 32) ++ namesImage w.m_neighborMwmList))
    (savedImage hdr w) (4 + (ingoingImage hdr w.m_ingoingNodes).length + 4) []
    (resize s.m_outgoingNodes w.m_outgoingNodes.length hdr.defaultOutgoingCrossNode)
    (by simp only [savedImage, List.append_assoc]) (by simp only [List.length_append, toBytes_length])
    (resize_length _ _ _)
  have eadj : (w.m_ingoingNodes.length * w.m_outgoingNodes.length) % 2 ^ 64 =
      w.m_adjacencyMatrix.length := by
    rw [← hcheck]
    have : w.m_adjacencyMatrix.length < 2 ^ 64 := by
      rw [hcheck]
      calc w.m_ingoingNodes.length * w.m_outgoingNodes.length
          < 2 ^ 32 * 2 ^ 32 := Nat.mul_lt_mul'' hin hout
        _ = 2 ^ 64 := by norm_num
    exact Nat.mod_eq_of_lt this
  have h5 : Read (savedImage hdr w)
      (4 + (ingoingImage hdr w.m_ingoingNodes).length + 4 +
        (outgoingImage hdr w.m_outgoingNodes).length)
      (hdr.weightBytes * w.m_adjacencyMatrix.length) =
      some (weightsToBytes hdr.weightBytes w.m_adjacencyMatrix) :=
    Read_at (toBytes 4 (w.m_ingoingNodes.length % 2 ^ 32) ++ ingoingImage hdr w.m_ingoingNodes ++
      toBytes 4 (w.m_outgoingNodes.length % 2 ^ 32) ++ outgoingImage hdr w.m_outgoingNodes)
      _ (toBytes 4 (w.m_neighborMwmList.length % 2 ^ 32) ++ namesImage w.m_neighborMwmList)
      _ _ _ (by simp only [savedImage, List.append_assoc])
      (by simp only [List.length_append, toBytes_length]) (weightsToBytes_length _ _).symm
  have h6 : Read (savedImage hdr w)
      (4 + (ingoingImage hdr w.m_ingoingNodes).length + 4 +
        (outgoingImage hdr w.m_outgoingNodes).length +
        hdr.weightBytes * w.m_adjacencyMatrix.length) 4 =
      some (toBytes 4 (w.m_neighborMwmList.length % 2 ^ 32)) :=
    Read_at (toBytes 4 (w.m_ingoingNodes.length % 2 ^ 32) ++ ingoingImage hdr w.m_ingoingNodes ++
      toBytes 4 (w.m_outgoingNodes.length % 2 ^ 32) ++ outgoingImage hdr w.m_outgoingNodes ++
      weightsToBytes hdr.weightBytes w.m_adjacencyMatrix)
      _ (namesImage w.m_neighborMwmList)
      _ _ 4 (by simp only [savedImage, List.append_assoc])
      (by simp only [List.length_append, toBytes_length, weightsToBytes_length]) (toBytes_length _ _).symm
  have h7 := loadNamesLoop_at w.m_neighborMwmList hlen
    (toBytes 4 (w.m_ingoingNodes.length % 2 ^ 32) ++ ingoingImage hdr w.m_ingoingNodes ++
      toBytes 4 (w.m_outgoingNodes.length % 2 ^ 32) ++ outgoingImage hdr w.m_outgoingNodes ++
      weightsToBytes hdr.weightBytes w.m_adjacencyMatrix ++
      toBytes 4 (w.m_neighborMwmList.length % 2 ^ 32)) []
    (savedImage hdr w)
    (4 + (ingoingImage hdr w.m_ingoingNodes).length + 4 +
        (outgoingImage hdr w.m_outgoingNodes).length +
        hdr.weightBytes * w.m_adjacencyMatrix.length + 4) s.m_neighborMwmList
    (by simp only [savedImage, List.append_assoc, List.append_nil])
    (by simp only [List.length_append, toBytes_length, weightsToBytes_length])
  have e5 : overlay (weightsToBytes hdr.weightBytes w.m_adjacencyMatrix)
      (weightsToBytes hdr.weightBytes
        (resize s.m_adjacencyMatrix w.m_adjacencyMatrix.length 0)) =
      weightsToBytes hdr.weightBytes w.m_adjacencyMatrix :=
    overlay_full _ _ (by rw [weightsToBytes_length, weightsToBytes_length, resize_length])
  have e6 := weightsOfBytes_toBytes hdr.weightBytes w.m_adjacencyMatrix []
  rw [List.append_nil] at e6
  simp only [List.nil_append, List.length_nil] at h4
  simp only [CrossRoutingContextReader.LoadPos, h1, ofBytes_count _ hin, h2, h3,
    ofBytes_count _ hout, h4, reloadedOutgoing_length, eadj, Nat.mod_eq_of_lt hmem, h5, e5, e6,
    h6, ofBytes_count _ hnames, h7]
  simp only [reloadedContext, savedImage, List.length_append, toBytes_length,
    weightsToBytes_length]

theorem reloadedIngoing_get (hdr : Header P) (ns : List (IngoingCrossNode P)) (i k : Nat)
    (n : IngoingCrossNode P) (h : (reloadedIngoing hdr i ns)[k]? = some n) :
    ∃ m, ns[k]? = some m ∧ n = m.reloaded hdr (i + k) := by
  induction ns generalizing i k with
  | nil => simp [reloadedIngoing] at h
  | cons x xs ih =>
    cases k with
    | zero =>
      simp only [reloadedIngoing, List.getElem?_cons_zero, Option.some.injEq] at h
      exact ⟨x, by simp, h.symm⟩
    | succ k =>
      simp only [reloadedIngoing, List.getElem?_cons_succ] at h
      obtain ⟨m, hm, hn⟩ := ih (i + 1) k h
      refine ⟨m, by simpa using hm, ?_⟩
      rw [hn]
      congr 1
      omega

theorem reloadedOutgoing_get (hdr : Header P) (ns : List (OutgoingCrossNode P)) (i k : Nat)
    (n : OutgoingCrossNode P) (h : (reloadedOutgoing hdr i ns)[k]? = some n) :
    ∃ m, ns[k]? = some m ∧ n = m.reloaded hdr (i + k) := by
  induction ns generalizing i k with
  | nil => simp [reloadedOutgoing] at h
  | cons x xs ih =>
    cases k with
    | zero =>
      simp only [reloadedOutgoing, List.getElem?_cons_zero, Option.some.injEq] at h
      exact ⟨x, by simp, h.symm⟩
    | succ k =>
      simp only [reloadedOutgoing, List.getElem?_cons_succ] at h
      obtain ⟨m, hm, hn⟩ := ih (i + 1) k h
      refine ⟨m, by simpa using hm, ?_⟩
      rw [hn]
      congr 1
      omega

/-- Saving a writer that fits the format and loading the bytes into a fresh
reader succeeds and leaves the reader in `reloadedContext`. -/
theorem Load_Save (hdr : Header P) (w : CrossRoutingContextWriter P) (hfit : FitsFormat hdr w) :
    w.Save hdr [] = .ok (savedImage hdr w) ∧
      CrossRoutingContextReader.fresh.Load hdr (savedImage hdr w) =
        .ok (reloadedContext hdr CrossRoutingContextReader.fresh w) := by
  obtain ⟨hin, hout, hnames, hlen, hcheck, hmem⟩ := hfit
  constructor
  · have hlt : w.m_outgoingNodes.length * w.m_ingoingNodes.length < 2 ^ 64 := by
      calc w.m_outgoingNodes.length * w.m_ingoingNodes.length
          < 2 ^ 32 * 2 ^ 32 := Nat.mul_lt_mul'' hout hin
        _ = 2 ^ 64 := by norm_num
    have := Save_ok hdr w [] (by rw [Nat.mod_eq_of_lt hlt, hcheck, Nat.mul_comm]) hmem
    simpa using this
  · simp only [CrossRoutingContextReader.Load,
      LoadPos_savedImage hdr w CrossRoutingContextReader.fresh hin hout hnames hlen hcheck hmem]

/-! ### Building a context: additions, reservation, cost settings -/

theorem calls_append (hdr : Header P) (w : CrossRoutingContextWriter P) (cs ds : List (Call P)) :
    CrossRoutingContextWriter.calls hdr w (cs ++ ds) =
      match CrossRoutingContextWriter.calls hdr w cs with
      | .error e => .error e
      | .ok w1 => CrossRoutingContextWriter.calls hdr w1 ds := by
  induction cs generalizing w with
  | nil => simp [CrossRoutingContextWriter.calls]
  | cons c cs ih =>
    simp only [List.cons_append, CrossRoutingContextWriter.calls]
    cases w.call hdr c with
    | error e => rfl
    | ok w1 => exact ih w1

theorem ingoingCount_append (cs ds : List (Call P)) :
    ingoingCount (cs ++ ds) = ingoingCount cs + ingoingCount ds := by
  induction cs with
  | nil => simp [ingoingCount]
  | cons c cs ih =>
    rw [List.cons_append]
    cases c <;> simp only [ingoingCount, ih]
    omega

theorem costsSet_append (i j : Nat) (cs ds : List (Call P)) :
    costsSet i j (cs ++ ds) = costsSet i j cs ++ costsSet i j ds := by
  induction cs with
  | nil => simp [costsSet]
  | cons c cs ih =>
    rw [List.cons_append]
    cases c with
    | addIngoing nodeId point => simp only [costsSet, ih]
    | addOutgoing nodeId targetMwm point => simp only [costsSet, ih]
    | reserve => simp only [costsSet, ih]
    | setCost i1 j1 value =>
      simp only [costsSet, ih]
      split <;> simp

/-- Additions cannot fail. -/
theorem calls_adds_ok (hdr : Header P) (cs : List (Call P)) (h : ∀ c ∈ cs, c.isAdd = true) :
    ∀ w, ∃ w1, CrossRoutingContextWriter.calls hdr w cs = .ok w1 := by
  induction cs with
  | nil => exact fun w => ⟨w, rfl⟩
  | cons c cs ih =>
    intro w
    have hc := h c (List.mem_cons_self _ _)
    have ih1 := ih (fun d hd => h d (List.mem_cons_of_mem _ hd))
    cases c with
    | addIngoing nodeId point =>
      simpa [CrossRoutingContextWriter.calls, CrossRoutingContextWriter.call] using ih1 _
    | addOutgoing nodeId targetMwm point =>
      simpa [CrossRoutingContextWriter.calls, CrossRoutingContextWriter.call] using ih1 _
    | reserve => simp [Call.isAdd] at hc
    | setCost i j v => simp [Call.isAdd] at hc

theorem calls_ingoingCount (hdr : Header P) (cs : List (Call P)) :
    ∀ w, CrossRoutingContextWriter.calls hdr CrossRoutingContextWriter.empty cs = .ok w →
      w.m_ingoingNodes.length = ingoingCount cs := by
  induction cs using List.reverseRecOn with
  | nil =>
    intro w h
    simp only [CrossRoutingContextWriter.calls, Except.ok.injEq] at h
    subst h
    rfl
  | append_singleton cs c ih =>
    intro w2 h
    obtain ⟨w, hw, hc⟩ := calls_snoc_ok hdr _ w2 cs c h
    have := ih w hw
    rw [ingoingCount_append]
    cases c with
    | addIngoing nodeId point =>
      simp only [CrossRoutingContextWriter.call, Except.ok.injEq] at hc
      subst hc
      simp [CrossRoutingContextWriter.AddIngoingNode, ingoingCount, this]
    | addOutgoing nodeId targetMwm point =>
      simp only [CrossRoutingContextWriter.call, Except.ok.injEq] at hc
      subst hc
      simp [CrossRoutingContextWriter.AddOutgoingNode, ingoingCount, this]
    | reserve =>
      simp only [CrossRoutingContextWriter.call, Except.ok.injEq] at hc
      subst hc
      simp [CrossRoutingContextWriter.ReserveAdjacencyMatrix, ingoingCount, this]
    | setCost i j value =>
      obtain ⟨a, b, _, _, hs⟩ := call_setCost_ok hdr w w2 i j value hc
      obtain ⟨h1, _, _, _⟩ := SetAdjacencyCost_ok w w2 a b value hs
      simp [h1, ingoingCount, this]

/-- Values stored by well-typed calls are values of their field types. -/
theorem calls_typed (hdr : Header P) (w : CrossRoutingContextWriter P) (cs : List (Call P))
    (hcs : ∀ c ∈ cs, c.wellTyped hdr = true)
    (h : CrossRoutingContextWriter.calls hdr CrossRoutingContextWriter.empty cs = .ok w) :
    (∀ n ∈ w.m_ingoingNodes, n.m_nodeId < 256 ^ hdr.nodeIdBytes) ∧
      (∀ n ∈ w.m_outgoingNodes, n.m_nodeId < 256 ^ hdr.nodeIdBytes) ∧
      (∀ x ∈ w.m_adjacencyMatrix, x < 256 ^ hdr.weightBytes) := by
  refine calls_invariant hdr (fun v =>
    (∀ n ∈ v.m_ingoingNodes, n.m_nodeId < 256 ^ hdr.nodeIdBytes) ∧
      (∀ n ∈ v.m_outgoingNodes, n.m_nodeId < 256 ^ hdr.nodeIdBytes) ∧
      (∀ x ∈ v.m_adjacencyMatrix, x < 256 ^ hdr.weightBytes))
    (fun c => c.wellTyped hdr = true) ?_ CrossRoutingContextWriter.empty w cs ?_ hcs h
  · intro v c v1 ⟨hi, ho, hm⟩ hty hc
    cases c with
    | addIngoing nodeId point =>
      simp only [CrossRoutingContextWriter.call, Except.ok.injEq] at hc
      subst hc
      refine ⟨?_, ho, hm⟩
      intro n hn
      simp only [CrossRoutingContextWriter.AddIngoingNode, List.mem_append,
        List.mem_singleton] at hn
      rcases hn with hn | hn
      · exact hi n hn
      · subst hn
        simpa [Call.wellTyped] using hty
    | addOutgoing nodeId targetMwm point =>
      simp only [CrossRoutingContextWriter.call, Except.ok.injEq] at hc
      subst hc
      refine ⟨hi, ?_, hm⟩
      intro n hn
      simp only [CrossRoutingContextWriter.AddOutgoingNode, List.mem_append,
        List.mem_singleton] at hn
      rcases hn with hn | hn
      · exact ho n hn
      · subst hn
        simpa [Call.wellTyped] using hty
    | reserve =>
      simp only [CrossRoutingContextWriter.call, Except.ok.injEq] at hc
      subst hc
      refine ⟨hi, ho, ?_⟩
      intro x hx
      simp only [CrossRoutingContextWriter.ReserveAdjacencyMatrix, resize, List.mem_append] at hx
      rcases hx with hx | hx
      · exact hm x (List.mem_of_mem_take hx)
      · have := List.eq_of_mem_replicate hx
        subst this
        have : 0 < 256 ^ hdr.weightBytes := Nat.pow_pos (by norm_num)
        simp only [INVALID_CONTEXT_EDGE_WEIGHT]
        omega
    | setCost i j value =>
      obtain ⟨a, b, _, _, hs⟩ := call_setCost_ok hdr v v1 i j value hc
      simp only [CrossRoutingContextWriter.SetAdjacencyCost] at hs
      split at hs
      · simp only [Except.ok.injEq] at hs
        subst hs
        refine ⟨hi, ho, ?_⟩
        intro x hx
        rcases List.mem_or_eq_of_mem_set hx with hx | hx
        · exact hm x hx
        · subst hx
          simpa [Call.wellTyped] using hty
      · cases hs
  · simp [CrossRoutingContextWriter.empty]

theorem flat_inj (n i1 j1 i j : Nat) (hj1 : j1 < n) (hj : j < n) :
    n * i1 + j1 = n * i + j ↔ i1 = i ∧ j1 = j := by
  constructor
  · intro h
    have hn : 0 < n := by omega
    have e1 : (n * i1 + j1) / n = i1 := by
      rw [Nat.mul_add_div hn, Nat.div_eq_of_lt hj1, Nat.add_zero]
    have e2 : (n * i + j) / n = i := by
      rw [Nat.mul_add_div hn, Nat.div_eq_of_lt hj, Nat.add_zero]
    have hi : i1 = i := by rw [← e1, ← e2, h]
    subst hi
    exact ⟨rfl, by omega⟩
  · rintro ⟨rfl, rfl⟩
    rfl

theorem flat_lt (m n i j : Nat) (hi : i < m) (hj : j < n) : n * i + j < m * n := by
  have : n * (i + 1) ≤ n * m := Nat.mul_le_mul_left n hi
  calc n * i + j < n * i + n := by omega
    _ = n * (i + 1) := by ring
    _ ≤ n * m := this
    _ = m * n := Nat.mul_comm _ _

/-- Cost settings on the nodes of a writer whose matrix has one cell per pair
all succeed, touch nothing but the matrix, keep its length, and leave in the
cell of each pair the last value set for it, or what the cell held before. -/
theorem calls_sets (hdr : Header P) (wr : CrossRoutingContextWriter P) (m n : Nat)
    (hm : wr.m_ingoingNodes.length = m) (hn : wr.m_outgoingNodes.length = n)
    (hi : IndexedFrom IngoingCrossNode.m_adjacencyIndex 0 wr.m_ingoingNodes)
    (ho : IndexedFrom OutgoingCrossNode.m_adjacencyIndex 0 wr.m_outgoingNodes)
    (hlen : wr.m_adjacencyMatrix.length = m * n) (hfit : m * n < 2 ^ 64)
    (sets : List (Call P)) (hsets : ∀ c ∈ sets, c.isSetWithin m n = true) :
    ∃ w, CrossRoutingContextWriter.calls hdr wr sets = .ok w ∧
      w.m_ingoingNodes = wr.m_ingoingNodes ∧ w.m_outgoingNodes = wr.m_outgoingNodes ∧
      w.m_neighborMwmList = wr.m_neighborMwmList ∧
      w.m_adjacencyMatrix.length = wr.m_adjacencyMatrix.length ∧
      ∀ i j, i < m → j < n →
        w.m_adjacencyMatrix[n * i + j]? =
          (costsSet i j sets).getLast?.or wr.m_adjacencyMatrix[n * i + j]? := by
  induction sets using List.reverseRecOn with
  | nil =>
    exact ⟨wr, rfl, rfl, rfl, rfl, rfl, fun i j _ _ => by simp [costsSet]⟩
  | append_singleton cs c ih =>
    obtain ⟨w, hw, h1, h2, h3, h4, h5⟩ :=
      ih (fun d hd => hsets d (List.mem_append_left _ hd))
    have hc := hsets c (by simp)
    cases c with
    | addIngoing nodeId point => simp [Call.isSetWithin] at hc
    | addOutgoing nodeId targetMwm point => simp [Call.isSetWithin] at hc
    | reserve => simp [Call.isSetWithin] at hc
    | setCost i1 j1 v =>
      simp only [Call.isSetWithin, Bool.and_eq_true, decide_eq_true_eq] at hc
      obtain ⟨hi1, hj1⟩ := hc
      have hi1' : i1 < w.m_ingoingNodes.length := by rw [h1, hm]; exact hi1
      have hj1' : j1 < w.m_outgoingNodes.length := by rw [h2, hn]; exact hj1
      have ha := List.getElem?_eq_getElem hi1'
      have hb := List.getElem?_eq_getElem hj1'
      have hiw : IndexedFrom IngoingCrossNode.m_adjacencyIndex 0 w.m_ingoingNodes := by
        rw [h1]
        exact hi
      have how : IndexedFrom OutgoingCrossNode.m_adjacencyIndex 0 w.m_outgoingNodes := by
        rw [h2]
        exact ho
      have ea : (w.m_ingoingNodes[i1]).m_adjacencyIndex = i1 := by
        have := IndexedFrom_get _ 0 _ hiw i1 _ ha
        simpa using this
      have eb : (w.m_outgoingNodes[j1]).m_adjacencyIndex = j1 := by
        have := IndexedFrom_get _ 0 _ how j1 _ hb
        simpa using this
      have hflat := flat_lt m n i1 j1 hi1 hj1
      have hidx : ((w.m_outgoingNodes.length * i1) % 2 ^ 64 + j1) % 2 ^ 64 = n * i1 + j1 := by
        rw [Nat.mod_add_mod, h2, hn]
        exact Nat.mod_eq_of_lt (by omega)
      have hcall : w.call hdr (.setCost i1 j1 v) =
          .ok { w with m_adjacencyMatrix := w.m_adjacencyMatrix.set (n * i1 + j1) v } := by
        simp only [CrossRoutingContextWriter.call, ha, hb,
          CrossRoutingContextWriter.SetAdjacencyCost, ea, eb, hidx]
        rw [if_pos (by omega)]
      refine ⟨{ w with m_adjacencyMatrix := w.m_adjacencyMatrix.set (n * i1 + j1) v },
        ?_, h1, h2, h3, ?_, ?_⟩
      · rw [calls_snoc, hw]
        exact hcall
      · simp [h4]
      · intro i j hi2 hj2
        simp only [List.getElem?_set, costsSet_append, List.getLast?_append, costsSet]
        by_cases hij : i1 = i ∧ j1 = j
        · have := (flat_inj n i1 j1 i j hj1 hj2).2 hij
          rw [if_pos this, if_pos (by omega), if_pos hij]
          simp
        · have : ¬ (n * i1 + j1 = n * i + j) := fun h => hij ((flat_inj n i1 j1 i j hj1 hj2).1 h)
          rw [if_neg this, if_neg hij, h5 i j hi2 hj2]
          simp

theorem reloadedIngoing_typed (hdr : Header P) (i : Nat) (ns : List (IngoingCrossNode P))
    (hidx : IndexedFrom IngoingCrossNode.m_adjacencyIndex i ns)
    (hty : ∀ n ∈ ns, n.m_nodeId < 256 ^ hdr.nodeIdBytes) :
    reloadedIngoing hdr i ns = ns.map (IngoingCrossNode.requantized hdr) := by
  induction ns generalizing i with
  | nil => rfl
  | cons n ns ih =>
    simp only [reloadedIngoing, List.map_cons]
    rw [ih (i + 1) hidx.2 (fun m hm => hty m (List.mem_cons_of_mem _ hm))]
    congr 1
    simp only [IngoingCrossNode.reloaded, IngoingCrossNode.requantized,
      Nat.mod_eq_of_lt (hty n (List.mem_cons_self _ _)), ← hidx.1]

theorem reloadedOutgoing_typed (hdr : Header P) (i : Nat) (ns : List (OutgoingCrossNode P))
    (hidx : IndexedFrom OutgoingCrossNode.m_adjacencyIndex i ns)
    (hty : ∀ n ∈ ns, n.m_nodeId < 256 ^ hdr.nodeIdBytes)
    (hx : ∀ n ∈ ns, n.m_outgoingIndex < 2 ^ 32) :
    reloadedOutgoing hdr i ns = ns.map (OutgoingCrossNode.requantized hdr) := by
  induction ns generalizing i with
  | nil => rfl
  | cons n ns ih =>
    simp only [reloadedOutgoing, List.map_cons]
    rw [ih (i + 1) hidx.2 (fun m hm => hty m (List.mem_cons_of_mem _ hm))
      (fun m hm => hx m (List.mem_cons_of_mem _ hm))]
    congr 1
    simp only [OutgoingCrossNode.reloaded, OutgoingCrossNode.requantized,
      Nat.mod_eq_of_lt (hty n (List.mem_cons_self _ _)),
      Nat.mod_eq_of_lt (hx n (List.mem_cons_self _ _)), ← hidx.1]

theorem map_mod_typed (b : Nat) (xs : List Nat) (h : ∀ x ∈ xs, x < b) :
    xs.map (· % b) = xs := by
  induction xs with
  | nil => rfl
  | cons x xs ih =>
    simp only [List.map_cons]
    rw [Nat.mod_eq_of_lt (h x (List.mem_cons_self _ _)),
      ih (fun y hy => h y (List.mem_cons_of_mem _ hy))]

/-- A context built by additions, `ReserveAdjacencyMatrix` and cost settings on
its own nodes, with counts, name lengths and matrix size within the format: the
calls succeed, the writer fits the format, holds one node per addition, and each
cell holds the last value set for its pair or the sentinel. -/
theorem calls_build (hdr : Header P) (adds sets : List (Call P))
    (hadds : ∀ c ∈ adds, c.isAdd = true)
    (hsets : ∀ c ∈ sets, c.isSetWithin (ingoingCount adds) (passedNames adds).length = true)
    (hin : ingoingCount adds < 2 ^ 32) (hout : (passedNames adds).length < 2 ^ 32)
    (hlen : ∀ name ∈ passedNames adds, name.length < 2 ^ 32)
    (hmem : hdr.weightBytes * (ingoingCount adds * (passedNames adds).length) < 2 ^ 64) :
    ∃ w, CrossRoutingContextWriter.calls hdr CrossRoutingContextWriter.empty
        (adds ++ .reserve :: sets) = .ok w ∧
      FitsFormat hdr w ∧ w.m_ingoingNodes.length = ingoingCount adds ∧
      w.m_outgoingNodes.length = (passedNames adds).length ∧
      ∀ i j, i < ingoingCount adds → j < (passedNames adds).length →
        w.m_adjacencyMatrix[(passedNames adds).length * i + j]? =
          some (expectedCost hdr i j sets) := by
  obtain ⟨wa, hwa⟩ := calls_adds_ok hdr adds hadds CrossRoutingContextWriter.empty
  have hnores : Call.reserve ∉ adds := fun h => by simpa [Call.isAdd] using hadds _ h
  have hma := calls_unreserved hdr _ wa adds rfl hnores hwa
  have hca := calls_ingoingCount hdr adds wa hwa
  obtain ⟨hmem_a, hco, _⟩ := calls_history hdr adds wa hwa
  obtain ⟨hia, hoa, _, hle, _⟩ := calls_state hdr wa adds hwa
  have hlt : ingoingCount adds * (passedNames adds).length < 2 ^ 64 := by
    calc ingoingCount adds * (passedNames adds).length
        < 2 ^ 32 * 2 ^ 32 := Nat.mul_lt_mul'' hin hout
      _ = 2 ^ 64 := by norm_num
  have hres : (wa.ReserveAdjacencyMatrix hdr).m_adjacencyMatrix =
      List.replicate (ingoingCount adds * (passedNames adds).length)
        (INVALID_CONTEXT_EDGE_WEIGHT hdr) := by
    simp only [CrossRoutingContextWriter.ReserveAdjacencyMatrix]
    rw [hma, hca, hco, Nat.mod_eq_of_lt hlt]
    simp [resize]
  obtain ⟨w, hw, h1, h2, h3, h4, h5⟩ := calls_sets hdr (wa.ReserveAdjacencyMatrix hdr)
    (ingoingCount adds) (passedNames adds).length hca hco hia hoa
    (by rw [hres, List.length_replicate]) hlt sets hsets
  have hmlen : w.m_adjacencyMatrix.length =
      ingoingCount adds * (passedNames adds).length := by
    rw [h4, hres, List.length_replicate]
  refine ⟨w, ?_, ?_, by rw [h1]; exact hca, by rw [h2]; exact hco, ?_⟩
  · rw [calls_append, hwa]
    simp only [CrossRoutingContextWriter.calls, CrossRoutingContextWriter.call]
    exact hw
  · refine ⟨by rw [h1]; exact hca ▸ hin, by rw [h2]; exact hco ▸ hout, ?_, ?_, ?_, ?_⟩
    · rw [h3]
      have : (wa.ReserveAdjacencyMatrix hdr).m_neighborMwmList = wa.m_neighborMwmList := rfl
      rw [this]
      omega
    · intro name hname
      rw [h3] at hname
      exact hlen name ((hmem_a name).1 hname)
    · rw [hmlen, h1, h2]
      have e1 : (wa.ReserveAdjacencyMatrix hdr).m_ingoingNodes = wa.m_ingoingNodes := rfl
      have e2 : (wa.ReserveAdjacencyMatrix hdr).m_outgoingNodes = wa.m_outgoingNodes := rfl
      rw [e1, e2, hca, hco]
    · rw [hmlen]
      exact hmem
  · intro i j hi hj
    rw [h5 i j hi hj, hres, List.getElem?_replicate,
      if_pos (flat_lt _ _ i j hi hj)]
    simp only [expectedCost]
    cases (costsSet i j sets).getLast? <;> rfl

theorem wellTyped_build (hdr : Header P) (adds sets : List (Call P))
    (htyped : ∀ c ∈ adds ++ sets, c.wellTyped hdr = true) :
    ∀ c ∈ adds ++ .reserve :: sets, c.wellTyped hdr = true := by
  intro c hc
  simp only [List.mem_append, List.mem_cons] at hc
  rcases hc with hc | hc | hc
  · exact htyped c (List.mem_append_left _ hc)
  · subst hc
    rfl
  · exact htyped c (List.mem_append_right _ hc)

/-- For a writer reached by well-typed calls that fits the format, the context
a fresh reader loads from its saved bytes is the writer's, with every point
requantised. -/
theorem reloadedContext_typed (hdr : Header P) (cs : List (Call P))
    (w : CrossRoutingContextWriter P)
    (hcalls : CrossRoutingContextWriter.calls hdr CrossRoutingContextWriter.empty cs = .ok w)
    (htyped : ∀ c ∈ cs, c.wellTyped hdr = true) (hfit : FitsFormat hdr w) :
    reloadedContext hdr CrossRoutingContextReader.fresh w =
      { m_ingoingIndex := w.m_ingoingNodes.map (IngoingCrossNode.requantized hdr)
        m_outgoingNodes := w.m_outgoingNodes.map (OutgoingCrossNode.requantized hdr)
        m_adjacencyMatrix := w.m_adjacencyMatrix
        m_neighborMwmList := w.m_neighborMwmList } := by
  obtain ⟨hi, ho, hx, hle, _⟩ := calls_state hdr w cs hcalls
  obtain ⟨hti, hto, htm⟩ := calls_typed hdr w cs htyped hcalls
  obtain ⟨_, hout, hnames, _, _, _⟩ := hfit
  simp only [reloadedContext, CrossRoutingContextReader.fresh, List.nil_append]
  rw [reloadedIngoing_typed hdr 0 _ hi hti,
    reloadedOutgoing_typed hdr 0 _ ho hto (fun n hn => by have := hx n hn; omega),
    map_mod_typed _ _ htm]

/-! ### Loading a truncated source -/

theorem ReadsWithin_take (r : List Byte) (n : Nat) :
    ReadsWithin (r.take n) r (r.take n).length := by
  intro pos len d h
  simp only [Read] at h
  split at h
  · rename_i hle
    simp only [Option.some.injEq] at h
    have hle2 := hle
    simp only [List.length_take] at hle2
    refine ⟨?_, hle⟩
    simp only [Read]
    have e : len ⊓ (n - pos) = len := by omega
    rw [if_pos (by omega), ← h, List.drop_take, List.take_take, e]
  · cases h

theorem ingoing_Load_within (hdr : Header P) (r0 r : List Byte) (limit : Nat)
    (hr : ReadsWithin r0 r limit) (pos i : Nat) (x : IngoingCrossNode P) (p : Nat)
    (h : IngoingCrossNode.Load hdr r0 pos i = some (x, p)) :
    IngoingCrossNode.Load hdr r pos i = some (x, p) ∧ p ≤ limit := by
  simp only [IngoingCrossNode.Load] at h ⊢
  cases h1 : Read r0 pos (hdr.nodeIdBytes + 8) with
  | none => rw [h1] at h; cases h
  | some buff =>
    obtain ⟨h2, h3⟩ := hr _ _ _ h1
    rw [h1] at h
    simp only [Option.some.injEq, Prod.mk.injEq] at h
    rw [h2]
    exact ⟨by simp only [Option.some.injEq, Prod.mk.injEq]; exact h, by omega⟩

theorem outgoing_Load_within (hdr : Header P) (r0 r : List Byte) (limit : Nat)
    (hr : ReadsWithin r0 r limit) (pos i : Nat) (x : OutgoingCrossNode P) (p : Nat)
    (h : OutgoingCrossNode.Load hdr r0 pos i = some (x, p)) :
    OutgoingCrossNode.Load hdr r pos i = some (x, p) ∧ p ≤ limit := by
  simp only [OutgoingCrossNode.Load] at h ⊢
  cases h1 : Read r0 pos (hdr.nodeIdBytes + 8 + outgoingIndexBytes) with
  | none => rw [h1] at h; cases h
  | some buff =>
    obtain ⟨h2, h3⟩ := hr _ _ _ h1
    rw [h1] at h
    simp only [Option.some.injEq, Prod.mk.injEq] at h
    rw [h2]
    exact ⟨by simp only [Option.some.injEq, Prod.mk.injEq]; exact h, by omega⟩

theorem loadIngoingLoop_within (hdr : Header P) (r0 r : List Byte) (limit : Nat)
    (hr : ReadsWithin r0 r limit) (k : Nat) :
    ∀ (i pos : Nat) (tree t : List (IngoingCrossNode P)) (p : Nat), pos ≤ limit →
      loadIngoingLoop hdr r0 k i pos tree = .ok (t, p) →
      loadIngoingLoop hdr r k i pos tree = .ok (t, p) ∧ p ≤ limit := by
  induction k with
  | zero =>
    intro i pos tree t p hpos h
    simp only [loadIngoingLoop, Except.ok.injEq, Prod.mk.injEq] at h ⊢
    exact ⟨h, by omega⟩
  | succ k ih =>
    intro i pos tree t p hpos h
    simp only [loadIngoingLoop] at h ⊢
    cases h1 : IngoingCrossNode.Load hdr r0 pos i with
    | none => rw [h1] at h; cases h
    | some v =>
      obtain ⟨x, p1⟩ := v
      obtain ⟨h2, h3⟩ := ingoing_Load_within hdr r0 r limit hr pos i x p1 h1
      rw [h1] at h
      rw [h2]
      exact ih _ _ _ _ _ h3 h

theorem loadOutgoingLoop_within (hdr : Header P) (r0 r : List Byte) (limit : Nat)
    (hr : ReadsWithin r0 r limit) (k : Nat) :
    ∀ (i pos : Nat) (nodes t : List (OutgoingCrossNode P)) (p : Nat), pos ≤ limit →
      loadOutgoingLoop hdr r0 k i pos nodes = .ok (t, p) →
      loadOutgoingLoop hdr r k i pos nodes = .ok (t, p) ∧ p ≤ limit := by
  induction k with
  | zero =>
    intro i pos nodes t p hpos h
    simp only [loadOutgoingLoop, Except.ok.injEq, Prod.mk.injEq] at h ⊢
    exact ⟨h, by omega⟩
  | succ k ih =>
    intro i pos nodes t p hpos h
    simp only [loadOutgoingLoop] at h ⊢
    cases h1 : OutgoingCrossNode.Load hdr r0 pos i with
    | none => rw [h1] at h; cases h
    | some v =>
      obtain ⟨x, p1⟩ := v
      obtain ⟨h2, h3⟩ := outgoing_Load_within hdr r0 r limit hr pos i x p1 h1
      rw [h1] at h
      rw [h2]
      exact ih _ _ _ _ _ h3 h

theorem loadNamesLoop_within (r0 r : List Byte) (limit : Nat)
    (hr : ReadsWithin r0 r limit) (k : Nat) :
    ∀ (pos : Nat) (names t : List (List Byte)) (p : Nat), pos ≤ limit →
      loadNamesLoop r0 k pos names = .ok (t, p) →
      loadNamesLoop r k pos names = .ok (t, p) ∧ p ≤ limit := by
  induction k with
  | zero =>
    intro pos names t p hpos h
    simp only [loadNamesLoop, Except.ok.injEq, Prod.mk.injEq] at h ⊢
    exact ⟨h, by omega⟩
  | succ k ih =>
    intro pos names t p hpos h
    simp only [loadNamesLoop] at h ⊢
    cases h1 : Read r0 pos 4 with
    | none => rw [h1] at h; cases h
    | some b =>
      obtain ⟨h2, _⟩ := hr _ _ _ h1
      rw [h1] at h
      simp only at h
      cases h3 : Read r0 (pos + 4) (ofBytes b) with
      | none => rw [h3] at h; cases h
      | some buffer =>
        obtain ⟨h4, h5⟩ := hr _ _ _ h3
        rw [h3] at h
        rw [h2]
        simp only
        rw [h4]
        exact ih _ _ _ _ h5 h

/-- A `Load` that succeeds on a source succeeds in the same way on any source
that agrees with it on its successful reads, and ends within their limit. -/
theorem LoadPos_within (hdr : Header P) (r0 r : List Byte) (limit : Nat)
    (hr : ReadsWithin r0 r limit) (s s1 : CrossRoutingContextReader P) (p : Nat)
    (h : s.LoadPos hdr r0 = .ok (s1, p)) : s.LoadPos hdr r = .ok (s1, p) ∧ p ≤ limit := by
  simp only [CrossRoutingContextReader.LoadPos] at h ⊢
  cases h1 : Read r0 0 4 with
  | none => rw [h1] at h; cases h
  | some b0 =>
    obtain ⟨h1', hb0⟩ := hr _ _ _ h1
    rw [h1] at h
    rw [h1']
    simp only at h ⊢
    cases h2 : loadIngoingLoop hdr r0 (ofBytes b0) 0 4 s.m_ingoingIndex with
    | error e => rw [h2] at h; cases h
    | ok v =>
      obtain ⟨tree, pos1⟩ := v
      obtain ⟨h2', hp1⟩ := loadIngoingLoop_within hdr r0 r limit hr _ _ _ _ _ _ (by omega) h2
      rw [h2] at h
      rw [h2']
      simp only at h ⊢
      cases h3 : Read r0 pos1 4 with
      | none => rw [h3] at h; cases h
      | some b1 =>
        obtain ⟨h3', hb1⟩ := hr _ _ _ h3
        rw [h3] at h
        rw [h3']
        simp only at h ⊢
        cases h4 : loadOutgoingLoop hdr r0 (ofBytes b1) 0 (pos1 + 4)
            (resize s.m_outgoingNodes (ofBytes b1) hdr.defaultOutgoingCrossNode) with
        | error e => rw [h4] at h; cases h
        | ok v =>
          obtain ⟨nodes, pos2⟩ := v
          obtain ⟨h4', hp2⟩ :=
            loadOutgoingLoop_within hdr r0 r limit hr _ _ _ _ _ _ hb1 h4
          rw [h4] at h
          rw [h4']
          simp only at h ⊢
          cases h5 : Read r0 pos2
              (hdr.weightBytes * (ofBytes b0 * nodes.length % 2 ^ 64) % 2 ^ 64) with
          | none => rw [h5] at h; cases h
          | some data =>
            obtain ⟨h5', hb5⟩ := hr _ _ _ h5
            rw [h5] at h
            rw [h5']
            simp only at h ⊢
            cases h6 : Read r0
                (pos2 + hdr.weightBytes * (ofBytes b0 * nodes.length % 2 ^ 64) % 2 ^ 64) 4 with
            | none => rw [h6] at h; cases h
            | some b2 =>
              obtain ⟨h6', hb6⟩ := hr _ _ _ h6
              rw [h6] at h
              rw [h6']
              simp only at h ⊢
              cases h7 : loadNamesLoop r0 (ofBytes b2)
                  (pos2 + hdr.weightBytes * (ofBytes b0 * nodes.length % 2 ^ 64) % 2 ^ 64 + 4)
                  s.m_neighborMwmList with
              | error e => rw [h7] at h; cases h
              | ok v =>
                obtain ⟨names, pos3⟩ := v
                obtain ⟨h7', hp3⟩ := loadNamesLoop_within r0 r limit hr _ _ _ _ _ hb6 h7
                rw [h7] at h
                rw [h7']
                simp only [Except.ok.injEq, Prod.mk.injEq] at h ⊢
                exact ⟨h, by omega⟩

/-- The only way `Load` fails is the out-of-bounds error of a read. -/
theorem LoadPos_error (hdr : Header P) (s : CrossRoutingContextReader P) (r : List Byte)
    (e : Failure × CrossRoutingContextReader P) (h : s.LoadPos hdr r = .error e) :
    e.1 = .outOfBounds := by
  simp only [CrossRoutingContextReader.LoadPos] at h
  repeat' split at h
  all_goals first
    | (cases h; rfl)
    | cases h

/-! ### Adjacency indices assigned by `Load` -/

theorem take_succ_set {α : Type} (l : List α) (i : Nat) (x : α) (h : i < l.length) :
    (l.set i x).take (i + 1) = l.take i ++ [x] := by
  induction l generalizing i with
  | nil => simp at h
  | cons y ys ih =>
    cases i with
    | zero => simp
    | succ i =>
      simp only [List.length_cons, Nat.add_lt_add_iff_right] at h
      simp [ih i h]

theorem loadIngoingLoop_indexed (hdr : Header P) (r : List Byte) (k : Nat) :
    ∀ (i pos : Nat) (tree t : List (IngoingCrossNode P)) (p : Nat), tree.length = i →
      IndexedFrom IngoingCrossNode.m_adjacencyIndex 0 tree →
      loadIngoingLoop hdr r k i pos tree = .ok (t, p) →
      IndexedFrom IngoingCrossNode.m_adjacencyIndex 0 t := by
  induction k with
  | zero =>
    intro i pos tree t p _ hidx h
    simp only [loadIngoingLoop, Except.ok.injEq, Prod.mk.injEq] at h
    exact h.1 ▸ hidx
  | succ k ih =>
    intro i pos tree t p hlen hidx h
    simp only [loadIngoingLoop] at h
    cases h1 : IngoingCrossNode.Load hdr r pos i with
    | none => rw [h1] at h; cases h
    | some v =>
      obtain ⟨x, p1⟩ := v
      rw [h1] at h
      have hx : x.m_adjacencyIndex = i := by
        simp only [IngoingCrossNode.Load] at h1
        split at h1
        · cases h1
        · simp only [Option.some.injEq, Prod.mk.injEq] at h1
          rw [← h1.1]
      refine ih (i + 1) p1 (tree ++ [x]) t p (by simp [hlen]) ?_ h
      rw [IndexedFrom_append]
      exact ⟨hidx, by simp [IndexedFrom, hx, hlen]⟩

theorem loadOutgoingLoop_indexed (hdr : Header P) (r : List Byte) (k : Nat) :
    ∀ (i pos : Nat) (nodes t : List (OutgoingCrossNode P)) (p : Nat), i + k = nodes.length →
      IndexedFrom OutgoingCrossNode.m_adjacencyIndex 0 (nodes.take i) →
      loadOutgoingLoop hdr r k i pos nodes = .ok (t, p) →
      IndexedFrom OutgoingCrossNode.m_adjacencyIndex 0 t := by
  induction k with
  | zero =>
    intro i pos nodes t p hlen hidx h
    simp only [loadOutgoingLoop, Except.ok.injEq, Prod.mk.injEq] at h
    rw [List.take_of_length_le (by omega)] at hidx
    exact h.1 ▸ hidx
  | succ k ih =>
    intro i pos nodes t p hlen hidx h
    simp only [loadOutgoingLoop] at h
    cases h1 : OutgoingCrossNode.Load hdr r pos i with
    | none => rw [h1] at h; cases h
    | some v =>
      obtain ⟨x, p1⟩ := v
      rw [h1] at h
      have hx : x.m_adjacencyIndex = i := by
        simp only [OutgoingCrossNode.Load] at h1
        split at h1
        · cases h1
        · simp only [Option.some.injEq, Prod.mk.injEq] at h1
          rw [← h1.1]
      refine ih (i + 1) p1 (nodes.set i x) t p (by simp; omega) ?_ h
      rw [take_succ_set _ _ _ (by omega), IndexedFrom_append]
      refine ⟨hidx, ?_⟩
      have : (List.take i nodes).length = i := by
        rw [List.length_take]
        omega
      simp [IndexedFrom, hx, this]

/-- After any successful `Load` into a fresh reader the adjacency indices of the
ingoing and of the outgoing nodes are their positions. -/
theorem Load_indexed (hdr : Header P) (r : List Byte) (s1 : CrossRoutingContextReader P)
    (h : CrossRoutingContextReader.fresh.Load hdr r = .ok s1) :
    IndexedFrom IngoingCrossNode.m_adjacencyIndex 0 s1.m_ingoingIndex ∧
      IndexedFrom OutgoingCrossNode.m_adjacencyIndex 0 s1.m_outgoingNodes := by
  simp only [CrossRoutingContextReader.Load] at h
  cases h0 : CrossRoutingContextReader.fresh.LoadPos hdr r with
  | error e => rw [h0] at h; cases h
  | ok v =>
    obtain ⟨s2, p⟩ := v
    rw [h0] at h
    simp only [Except.ok.injEq] at h
    subst h
    simp only [CrossRoutingContextReader.LoadPos] at h0
    cases h1 : Read r 0 4 with
    | none => rw [h1] at h0; cases h0
    | some b0 =>
      rw [h1] at h0
      simp only at h0
      cases h2 : loadIngoingLoop hdr r (ofBytes b0) 0 4
          (CrossRoutingContextReader.fresh : CrossRoutingContextReader P).m_ingoingIndex with
      | error e => rw [h2] at h0; cases h0
      | ok v =>
        obtain ⟨tree, pos1⟩ := v
        rw [h2] at h0
        simp only at h0
        cases h3 : Read r pos1 4 with
        | none => rw [h3] at h0; cases h0
        | some b1 =>
          rw [h3] at h0
          simp only at h0
          cases h4 : loadOutgoingLoop hdr r (ofBytes b1) 0 (pos1 + 4)
              (resize (CrossRoutingContextReader.fresh : CrossRoutingContextReader P).m_outgoingNodes (ofBytes b1)
                hdr.defaultOutgoingCrossNode) with
          | error e => rw [h4] at h0; cases h0
          | ok v =>
            obtain ⟨nodes, pos2⟩ := v
            rw [h4] at h0
            have hti := loadIngoingLoop_indexed hdr r _ 0 4 _ tree pos1
              (by simp [CrossRoutingContextReader.fresh])
              (by simp [CrossRoutingContextReader.fresh, IndexedFrom]) h2
            have hto := loadOutgoingLoop_indexed hdr r _ 0 (pos1 + 4) _ nodes pos2
              (by simp [resize_length]) (by simp [IndexedFrom]) h4
            simp only at h0
            repeat' split at h0
            all_goals first
              | (cases h0; exact ⟨hti, hto⟩)
              | cases h0

/-! ### What `Save` writes, in general -/

theorem Save_general (hdr : Header P) (w : CrossRoutingContextWriter P) (sink : List Byte) :
    w.Save hdr sink =
      if w.m_adjacencyMatrix.length =
          (w.m_outgoingNodes.length * w.m_ingoingNodes.length) % 2 ^ 64 then
        .ok (sink ++ (toBytes 4 (w.m_ingoingNodes.length % 2 ^ 32) ++
          (ingoingImage hdr w.m_ingoingNodes ++
          (toBytes 4 (w.m_outgoingNodes.length % 2 ^ 32) ++
          (outgoingImage hdr w.m_outgoingNodes ++
          ((weightsToBytes hdr.weightBytes w.m_adjacencyMatrix).take
            ((hdr.weightBytes * w.m_adjacencyMatrix.length) % 2 ^ 64) ++
          (toBytes 4 (w.m_neighborMwmList.length % 2 ^ 32) ++
          namesImage w.m_neighborMwmList)))))))
      else .error .checkFailed := by
  simp only [CrossRoutingContextWriter.Save]
  split
  · simp only [foldl_ingoing_Save, foldl_outgoing_Save, foldl_names_Write]
    simp only [Write, List.append_assoc]
  · rfl

theorem ingoingImage_eraseIndex (hdr : Header P) (ns : List (IngoingCrossNode P)) :
    ingoingImage hdr (ns.map IngoingCrossNode.eraseIndex) = ingoingImage hdr ns := by
  induction ns with
  | nil => rfl
  | cons n ns ih =>
    simp only [List.map_cons, ingoingImage, ih]
    rfl

theorem outgoingImage_eraseIndex (hdr : Header P) (ns : List (OutgoingCrossNode P)) :
    outgoingImage hdr (ns.map OutgoingCrossNode.eraseIndex) = outgoingImage hdr ns := by
  induction ns with
  | nil => rfl
  | cons n ns ih =>
    simp only [List.map_cons, outgoingImage, ih]
    rfl

theorem resize_get {α : Type} (xs : List α) (n : Nat) (d : α) (k : Nat) (hk : k < n) :
    (resize xs n d)[k]? = if k < xs.length then xs[k]? else some d := by
  simp only [resize, List.getElem?_append, List.length_take, List.getElem?_take,
    List.getElem?_replicate]
  by_cases h : k < xs.length
  · rw [if_pos (by omega), if_pos hk, if_pos h]
  · rw [if_neg (by omega), if_pos (by omega), if_neg h]

/-! ### The matrix between `ReserveAdjacencyMatrix` and `Save` -/

theorem calls_append_ok (hdr : Header P) (w w2 : CrossRoutingContextWriter P)
    (cs ds : List (Call P)) (h : CrossRoutingContextWriter.calls hdr w (cs ++ ds) = .ok w2) :
    ∃ w1, CrossRoutingContextWriter.calls hdr w cs = .ok w1 ∧
      CrossRoutingContextWriter.calls hdr w1 ds = .ok w2 := by
  rw [calls_append] at h
  cases h1 : CrossRoutingContextWriter.calls hdr w cs with
  | error e => rw [h1] at h; cases h
  | ok w1 => rw [h1] at h; exact ⟨w1, rfl, h⟩

/-- When no node is added after a call of `ReserveAdjacencyMatrix`, the matrix
has as many cells as the `size_t` product of the node counts. -/
theorem calls_reserved_length (hdr : Header P) (cs1 cs2 : List (Call P))
    (w : CrossRoutingContextWriter P)
    (h : CrossRoutingContextWriter.calls hdr CrossRoutingContextWriter.empty
      (cs1 ++ .reserve :: cs2) = .ok w)
    (hno : ∀ c ∈ cs2, c.isAdd = false) :
    w.m_adjacencyMatrix.length =
      (w.m_ingoingNodes.length * w.m_outgoingNodes.length) % 2 ^ 64 := by
  obtain ⟨w1, _, h2⟩ := calls_append_ok hdr _ w cs1 _ h
  simp only [CrossRoutingContextWriter.calls, CrossRoutingContextWriter.call] at h2
  refine calls_invariant hdr (fun v => v.m_adjacencyMatrix.length =
    (v.m_ingoingNodes.length * v.m_outgoingNodes.length) % 2 ^ 64)
    (fun c => c.isAdd = false) ?_ (w1.ReserveAdjacencyMatrix hdr) w cs2 ?_ hno h2
  · intro v c v1 hv hc hcall
    cases c with
    | addIngoing nodeId point => simp [Call.isAdd] at hc
    | addOutgoing nodeId targetMwm point => simp [Call.isAdd] at hc
    | reserve =>
      simp only [CrossRoutingContextWriter.call, Except.ok.injEq] at hcall
      subst hcall
      simp only [CrossRoutingContextWriter.ReserveAdjacencyMatrix, resize_length]
    | setCost i j value =>
      obtain ⟨a, b, _, _, hs⟩ := call_setCost_ok hdr v v1 i j value hcall
      obtain ⟨h1, h2, _, h4⟩ := SetAdjacencyCost_ok v v1 a b value hs
      rw [h1, h2, h4]
      exact hv
  · simp only [CrossRoutingContextWriter.ReserveAdjacencyMatrix, resize_length]

theorem ingoingImage_flatMap (hdr : Header P) (ns : List (IngoingCrossNode P)) :
    ingoingImage hdr ns = ns.flatMap (encodeIngoing hdr) := by
  induction ns with
  | nil => rfl
  | cons n ns ih =>
    simp only [ingoingImage, List.flatMap_cons, ih]
    rfl

theorem outgoingImage_flatMap (hdr : Header P) (ns : List (OutgoingCrossNode P)) :
    outgoingImage hdr ns = ns.flatMap (encodeOutgoing hdr) := by
  induction ns with
  | nil => rfl
  | cons n ns ih =>
    simp only [outgoingImage, List.flatMap_cons, ih]
    rfl

theorem weightsToBytes_flatMap (wb : Nat) (m : List Nat) :
    weightsToBytes wb m = m.flatMap (toBytes wb) := by
  induction m with
  | nil => rfl
  | cons x xs ih => simp only [weightsToBytes, List.flatMap_cons, ih]

theorem namesImage_flatMap (ns : List (List Byte)) (hlen : ∀ n ∈ ns, n.length < 2 ^ 32) :
    namesImage ns = ns.flatMap (fun name => toBytes 4 name.length ++ name) := by
  induction ns with
  | nil => rfl
  | cons n ns ih =>
    simp only [namesImage, List.flatMap_cons, List.append_assoc]
    rw [ih (fun m hm => hlen m (List.mem_cons_of_mem _ hm)),
      Nat.mod_eq_of_lt (hlen n (List.mem_cons_self _ _))]

theorem namesImage_length (ns : List (List Byte)) :
    (namesImage ns).length = (ns.map (fun name => 4 + name.length)).sum := by
  induction ns with
  | nil => rfl
  | cons n ns ih =>
    simp only [namesImage, List.length_append, toBytes_length, ih, List.map_cons,
      List.sum_cons]

theorem savedImage_eq_layout (hdr : Header P) (w : CrossRoutingContextWriter P)
    (hin : w.m_ingoingNodes.length < 2 ^ 32) (hout : w.m_outgoingNodes.length < 2 ^ 32)
    (hnames : w.m_neighborMwmList.length < 2 ^ 32)
    (hlen : ∀ n ∈ w.m_neighborMwmList, n.length < 2 ^ 32) :
    savedImage hdr w = contextLayout hdr w := by
  simp only [savedImage, contextLayout, Nat.mod_eq_of_lt hin, Nat.mod_eq_of_lt hout,
    Nat.mod_eq_of_lt hnames, ingoingImage_flatMap, outgoingImage_flatMap,
    weightsToBytes_flatMap, namesImage_flatMap _ hlen]

theorem weightsToBytes_cell (wb : Nat) (m : List Nat) :
    ∀ (k x : Nat), m[k]? = some x →
      ((weightsToBytes wb m).drop (wb * k)).take wb = toBytes wb x := by
  induction m with
  | nil => intro k x h; simp at h
  | cons y ys ih =>
    intro k x h
    cases k with
    | zero =>
      simp only [List.getElem?_cons_zero, Option.some.injEq] at h
      subst h
      simp only [Nat.mul_zero, List.drop_zero, weightsToBytes]
      exact List.take_left' (toBytes_length _ _)
    | succ k =>
      simp only [List.getElem?_cons_succ] at h
      have e : wb * (k + 1) = wb + wb * k := by ring
      rw [e, ← List.drop_drop, weightsToBytes, List.drop_left' (toBytes_length _ _)]
      exact ih k x h

/-! ### What a `Load` leaves behind -/

theorem Read_some (r : List Byte) (pos len : Nat) (d : List Byte)
    (h : Read r pos len = some d) : pos + len ≤ r.length ∧ d.length = len := by
  simp only [Read] at h
  split at h
  · rename_i hle
    simp only [Option.some.injEq] at h
    subst h
    refine ⟨hle, ?_⟩
    rw [List.length_take, List.length_drop]
    omega
  · cases h

theorem loadIngoingLoop_length (hdr : Header P) (r : List Byte) (k : Nat) :
    ∀ (i pos : Nat) (tree t : List (IngoingCrossNode P)) (p : Nat),
      loadIngoingLoop hdr r k i pos tree = .ok (t, p) → t.length = tree.length + k := by
  induction k with
  | zero =>
    intro i pos tree t p h
    simp only [loadIngoingLoop, Except.ok.injEq, Prod.mk.injEq] at h
    rw [← h.1, Nat.add_zero]
  | succ k ih =>
    intro i pos tree t p h
    simp only [loadIngoingLoop] at h
    cases h1 : IngoingCrossNode.Load hdr r pos i with
    | none => rw [h1] at h; cases h
    | some v =>
      obtain ⟨x, p1⟩ := v
      rw [h1] at h
      rw [ih _ _ _ _ _ h, List.length_append, List.length_singleton]
      omega

theorem loadOutgoingLoop_length (hdr : Header P) (r : List Byte) (k : Nat) :
    ∀ (i pos : Nat) (nodes t : List (OutgoingCrossNode P)),
      (loadOutgoingLoop hdr r k i pos nodes = .error t ∨
        ∃ p, loadOutgoingLoop hdr r k i pos nodes = .ok (t, p)) →
      t.length = nodes.length := by
  induction k with
  | zero =>
    intro i pos nodes t h
    simp only [loadOutgoingLoop] at h
    rcases h with h | ⟨p, h⟩
    · cases h
    · cases h
      rfl
  | succ k ih =>
    intro i pos nodes t h
    simp only [loadOutgoingLoop] at h
    cases h1 : OutgoingCrossNode.Load hdr r pos i with
    | none =>
      rw [h1] at h
      rcases h with h | ⟨p, h⟩
      · cases h
        rfl
      · cases h
    | some v =>
      obtain ⟨x, p1⟩ := v
      rw [h1] at h
      rw [ih _ _ _ _ h, List.length_set]

/-- After a successful `Load` into a fresh reader the matrix has one cell for
each pair of an ingoing and an outgoing node, and both counts are below 2^32. -/
theorem Load_matrix_length (hdr : Header P) (r : List Byte)
    (s1 : CrossRoutingContextReader P)
    (h : CrossRoutingContextReader.fresh.Load hdr r = .ok s1) :
    s1.m_adjacencyMatrix.length = s1.m_ingoingIndex.length * s1.m_outgoingNodes.length ∧
      s1.m_ingoingIndex.length < 2 ^ 32 ∧ s1.m_outgoingNodes.length < 2 ^ 32 := by
  simp only [CrossRoutingContextReader.Load] at h
  cases h0 : CrossRoutingContextReader.fresh.LoadPos hdr r with
  | error e => rw [h0] at h; cases h
  | ok v =>
    obtain ⟨s2, p⟩ := v
    rw [h0] at h
    simp only [Except.ok.injEq] at h
    subst h
    simp only [CrossRoutingContextReader.LoadPos, CrossRoutingContextReader.fresh] at h0
    cases h1 : Read r 0 4 with
    | none => rw [h1] at h0; cases h0
    | some b0 =>
      have hb0 : ofBytes b0 < 2 ^ 32 := by
        have := ofBytes_lt b0
        rw [(Read_some _ _ _ _ h1).2] at this
        exact this
      rw [h1] at h0
      simp only at h0
      cases h2 : loadIngoingLoop hdr r (ofBytes b0) 0 4 ([] : List (IngoingCrossNode P)) with
      | error e => rw [h2] at h0; cases h0
      | ok v =>
        obtain ⟨tree, pos1⟩ := v
        have htree := loadIngoingLoop_length hdr r _ _ _ _ _ _ h2
        rw [h2] at h0
        simp only at h0
        cases h3 : Read r pos1 4 with
        | none => rw [h3] at h0; cases h0
        | some b1 =>
          have hb1 : ofBytes b1 < 2 ^ 32 := by
            have := ofBytes_lt b1
            rw [(Read_some _ _ _ _ h3).2] at this
            exact this
          rw [h3] at h0
          simp only at h0
          cases h4 : loadOutgoingLoop hdr r (ofBytes b1) 0 (pos1 + 4)
              (resize ([] : List (OutgoingCrossNode P)) (ofBytes b1)
                hdr.defaultOutgoingCrossNode) with
          | error e => rw [h4] at h0; cases h0
          | ok v =>
            obtain ⟨nodes, pos2⟩ := v
            have hnodes := loadOutgoingLoop_length hdr r _ _ _ _ _ (Or.inr ⟨_, h4⟩)
            rw [resize_length] at hnodes
            rw [h4] at h0
            simp only at h0
            have hprod : ofBytes b0 * nodes.length < 2 ^ 64 := by
              calc ofBytes b0 * nodes.length < 2 ^ 32 * 2 ^ 32 :=
                    Nat.mul_lt_mul'' hb0 (by omega)
                _ = 2 ^ 64 := by norm_num
            cases h5 : Read r pos2
                (hdr.weightBytes * (ofBytes b0 * nodes.length % 2 ^ 64) % 2 ^ 64) with
            | none => rw [h5] at h0; cases h0
            | some data =>
              rw [h5] at h0
              simp only at h0
              cases h6 : Read r
                  (pos2 + hdr.weightBytes * (ofBytes b0 * nodes.length % 2 ^ 64) % 2 ^ 64)
                  4 with
              | none => rw [h6] at h0; cases h0
              | some b2 =>
                rw [h6] at h0
                simp only at h0
                cases h7 : loadNamesLoop r (ofBytes b2)
                    (pos2 + hdr.weightBytes * (ofBytes b0 * nodes.length % 2 ^ 64) % 2 ^ 64 + 4)
                    ([] : List (List Byte)) with
                | error e => rw [h7] at h0; cases h0
                | ok v =>
                  obtain ⟨names, pos3⟩ := v
                  rw [h7] at h0
                  simp only [Except.ok.injEq, Prod.mk.injEq] at h0
                  obtain ⟨h0, _⟩ := h0
                  subst h0
                  simp only [weightsOfBytes_length]
                  rw [Nat.mod_eq_of_lt hprod, htree, List.length_nil, Nat.zero_add]
                  exact ⟨rfl, hb0, by omega⟩

/-! ### The nodes of a writer are the nodes added -/

theorem addedIngoing_append (cs ds : List (Call P)) :
    addedIngoing (cs ++ ds) = addedIngoing cs ++ addedIngoing ds := by
  induction cs with
  | nil => rfl
  | cons c cs ih => cases c <;> simp [addedIngoing, ih]

theorem addedOutgoing_append (cs ds : List (Call P)) :
    addedOutgoing (cs ++ ds) = addedOutgoing cs ++ addedOutgoing ds := by
  induction cs with
  | nil => rfl
  | cons c cs ih => cases c <;> simp [addedOutgoing, ih]

/-- The ids and points of the nodes a writer holds are those passed to the
`Add` calls, in call order. -/
theorem calls_added (hdr : Header P) (cs : List (Call P)) :
    ∀ w, CrossRoutingContextWriter.calls hdr CrossRoutingContextWriter.empty cs = .ok w →
      w.m_ingoingNodes.map (fun n => (n.m_nodeId, n.m_point)) = addedIngoing cs ∧
      w.m_outgoingNodes.map (fun n => (n.m_nodeId, n.m_point)) = addedOutgoing cs := by
  induction cs using List.reverseRecOn with
  | nil =>
    intro w h
    simp only [CrossRoutingContextWriter.calls, Except.ok.injEq] at h
    subst h
    exact ⟨rfl, rfl⟩
  | append_singleton cs c ih =>
    intro w2 h
    obtain ⟨w, hw, hc⟩ := calls_snoc_ok hdr _ w2 cs c h
    obtain ⟨hi, ho⟩ := ih w hw
    rw [addedIngoing_append, addedOutgoing_append]
    cases c with
    | addIngoing nodeId point =>
      simp only [CrossRoutingContextWriter.call, Except.ok.injEq] at hc
      subst hc
      simp [CrossRoutingContextWriter.AddIngoingNode, addedIngoing, addedOutgoing, hi, ho]
    | addOutgoing nodeId targetMwm point =>
      simp only [CrossRoutingContextWriter.call, Except.ok.injEq] at hc
      subst hc
      simp [CrossRoutingContextWriter.AddOutgoingNode, addedIngoing, addedOutgoing, hi, ho]
    | reserve =>
      simp only [CrossRoutingContextWriter.call, Except.ok.injEq] at hc
      subst hc
      simp [CrossRoutingContextWriter.ReserveAdjacencyMatrix, addedIngoing, addedOutgoing, hi, ho]
    | setCost i j value =>
      obtain ⟨a, b, _, _, hs⟩ := call_setCost_ok hdr w w2 i j value hc
      obtain ⟨h1, h2, _, _⟩ := SetAdjacencyCost_ok w w2 a b value hs
      rw [h1, h2]
      simp [addedIngoing, addedOutgoing, hi, ho]

/-! ### The state a failed `Load` leaves -/

theorem loadIngoingLoop_error_short (hdr : Header P) (r : List Byte) (k : Nat) :
    ∀ (i pos : Nat) (tree t : List (IngoingCrossNode P)),
      loadIngoingLoop hdr r k i pos tree = .error t →
      (decodedIngoing hdr r k i pos).length < k := by
  induction k with
  | zero =>
    intro i pos tree t h
    simp only [loadIngoingLoop] at h
    cases h
  | succ k ih =>
    intro i pos tree t h
    simp only [loadIngoingLoop] at h
    simp only [decodedIngoing]
    cases h1 : IngoingCrossNode.Load hdr r pos i with
    | none => simp
    | some v =>
      obtain ⟨x, p1⟩ := v
      rw [h1] at h
      have := ih _ _ _ _ h
      simp only [List.length_cons]
      omega

theorem ReadsWithin_append (r0 extra : List Byte) : ReadsWithin r0 (r0 ++ extra) r0.length := by
  intro pos len d h
  simp only [Read] at h ⊢
  split at h
  · rename_i hle
    simp only [Option.some.injEq] at h
    subst h
    refine ⟨?_, hle⟩
    rw [if_pos (by rw [List.length_append]; omega),
      List.drop_append_of_le_length (by omega),
      List.take_append_of_le_length (by rw [List.length_drop]; omega)]
  · cases h

/-- A `Load` that succeeds on a source succeeds, with the same result, on the
source followed by more bytes. -/
theorem Load_append (hdr : Header P) (s s1 : CrossRoutingContextReader P) (r0 extra : List Byte)
    (h : s.Load hdr r0 = .ok s1) : s.Load hdr (r0 ++ extra) = .ok s1 := by
  simp only [CrossRoutingContextReader.Load] at h ⊢
  cases h0 : s.LoadPos hdr r0 with
  | error e => rw [h0] at h; cases h
  | ok v =>
    obtain ⟨s2, p⟩ := v
    rw [h0] at h
    rw [(LoadPos_within hdr r0 (r0 ++ extra) r0.length (ReadsWithin_append r0 extra) s s2 p h0).1]
    exact h

/-! ### A name of 2^32 bytes -/

theorem longName_length : longName.length = 2 ^ 32 := List.length_replicate _ _

/-- A name whose length is a multiple of 2^32 is written with length field 0:
the image is that of the same context with the empty name, followed by the bytes
of the name. -/
theorem oneNeighbor_image (name : List Byte) (hlen : name.length % 2 ^ 32 = 0) :
    savedImage gridHeader (oneNeighborWriter name) =
      savedImage gridHeader (oneNeighborWriter []) ++ name := by
  have e : ∀ nm : List Byte, oneNeighborWriter nm =
      { m_ingoingNodes := [], m_outgoingNodes := [nodeC], m_adjacencyMatrix := [],
        m_neighborMwmList := [nm] } := fun nm => rfl
  rw [e name, e []]
  simp only [savedImage, namesImage, hlen, List.length_nil, List.length_cons, Nat.zero_mod,
    List.append_nil, List.append_assoc]

theorem oneNeighbor_Save (name : List Byte) :
    (oneNeighborWriter name).Save gridHeader [] =
      .ok (savedImage gridHeader (oneNeighborWriter name)) :=
  Save_ok gridHeader (oneNeighborWriter name) [] rfl (by
    have e : (oneNeighborWriter name).m_adjacencyMatrix = [] := rfl
    rw [e]
    decide)

/-- The context with one name of a multiple of 2^32 bytes: `Save` succeeds, the
saved bytes are more than 32, and `Load` of them, as of their first 32 bytes,
succeeds with the empty name in place of the name. -/
theorem oneNeighbor_Load (name : List Byte) (hlen : name.length % 2 ^ 32 = 0) :
    CrossRoutingContextReader.fresh.Load gridHeader
        (savedImage gridHeader (oneNeighborWriter name)) = .ok emptyNameReader ∧
      CrossRoutingContextReader.fresh.Load gridHeader
        ((savedImage gridHeader (oneNeighborWriter name)).take 32) = .ok emptyNameReader ∧
      (savedImage gridHeader (oneNeighborWriter name)).length = 32 + name.length := by
  rw [oneNeighbor_image name hlen]
  refine ⟨Load_append gridHeader _ _ _ name rfl, ?_, ?_⟩
  · have ht : (savedImage gridHeader (oneNeighborWriter []) ++ name).take 32 =
        savedImage gridHeader (oneNeighborWriter []) := List.take_left' rfl
    rw [ht]
    rfl
  · rw [List.length_append]
    rfl

/-! ### A node count of 2^32 -/

theorem ingoingCount_replicate (n : Nat) (nodeId : Nat) (point : P) :
    ingoingCount (List.replicate n (Call.addIngoing nodeId point)) = n := by
  induction n with
  | zero => rfl
  | succ n ih => simp only [List.replicate_succ, ingoingCount, ih]

theorem passedNames_replicate (n : Nat) (nodeId : Nat) (point : P) :
    passedNames (List.replicate n (Call.addIngoing nodeId point)) = [] := by
  induction n with
  | zero => rfl
  | succ n ih => simp only [List.replicate_succ, passedNames, ih]

/-- The calls `wideCalls n` succeed when `4 * n` is below 2^64; the writer holds
`n` ingoing nodes, the first with id 0 at the origin, and `Save` succeeds. -/
theorem wideCalls_ok (n : Nat) (hn : 0 < n) (hlt : 4 * n < 2 ^ 64) :
    ∃ w n0 rest,
      CrossRoutingContextWriter.calls gridHeader CrossRoutingContextWriter.empty
        (wideCalls n) = .ok w ∧
      w.m_ingoingNodes = n0 :: rest ∧ n0.m_nodeId = 0 ∧ n0.m_point = (0, 0) ∧
      w.m_ingoingNodes.length = n ∧
      w.Save gridHeader [] = .ok (savedImage gridHeader w) := by
  have hic : ingoingCount (wideAdds n) = n := by
    simp only [wideAdds, ingoingCount_append, ingoingCount_replicate, ingoingCount,
      Nat.add_zero]
  have hpn : passedNames (wideAdds n) = [tileX] := by
    simp only [wideAdds, passedNames_append, passedNames_replicate, passedNames, List.nil_append]
  have hadds : ∀ c ∈ wideAdds n, c.isAdd = true := by
    intro c hc
    simp only [wideAdds, List.mem_append, List.mem_replicate, List.mem_singleton] at hc
    rcases hc with ⟨_, hc⟩ | hc <;> subst hc <;> rfl
  obtain ⟨wa, hwa⟩ := calls_adds_ok gridHeader (wideAdds n) hadds CrossRoutingContextWriter.empty
  have hnores : Call.reserve ∉ wideAdds n := fun h => by simpa [Call.isAdd] using hadds _ h
  have hma := calls_unreserved gridHeader _ wa (wideAdds n) rfl hnores hwa
  have hca := calls_ingoingCount gridHeader (wideAdds n) wa hwa
  obtain ⟨_, hco, _⟩ := calls_history gridHeader (wideAdds n) wa hwa
  obtain ⟨hia, hoa, _, _, _⟩ := calls_state gridHeader wa (wideAdds n) hwa
  rw [hic] at hca
  rw [hpn] at hco
  simp only [List.length_singleton] at hco
  have hres : (wa.ReserveAdjacencyMatrix gridHeader).m_adjacencyMatrix.length = n * 1 := by
    simp only [CrossRoutingContextWriter.ReserveAdjacencyMatrix, resize_length, hca, hco]
    exact Nat.mod_eq_of_lt (by omega)
  obtain ⟨w, hw, h1, h2, _, h4, _⟩ := calls_sets gridHeader (wa.ReserveAdjacencyMatrix gridHeader)
    n 1 hca hco hia hoa hres (by omega) [.setCost 0 0 5]
    (by
      intro c hc
      simp only [List.mem_singleton] at hc
      subst hc
      simp only [Call.isSetWithin, Bool.and_eq_true, decide_eq_true_eq]
      exact ⟨hn, by decide⟩)
  have hcalls : CrossRoutingContextWriter.calls gridHeader CrossRoutingContextWriter.empty
      (wideCalls n) = .ok w := by
    simp only [wideCalls]
    rw [calls_append, hwa]
    simp only [CrossRoutingContextWriter.calls, CrossRoutingContextWriter.call]
    exact hw
  have hwi : w.m_ingoingNodes = wa.m_ingoingNodes := h1
  have hwo : w.m_outgoingNodes = wa.m_outgoingNodes := h2
  obtain ⟨hadded, _⟩ := calls_added gridHeader (wideAdds n) wa hwa
  obtain ⟨m, hm⟩ := Nat.exists_eq_succ_of_ne_zero (Nat.pos_iff_ne_zero.mp hn)
  have hfirst : addedIngoing (wideAdds n) =
      (0, (0, 0)) :: addedIngoing (List.replicate m (Call.addIngoing 0 ((0, 0) : Nat × Nat)) ++
        [.addOutgoing 20 tileX (30, 30)]) := by
    simp only [wideAdds, hm, List.replicate_succ, List.cons_append, addedIngoing]
  rw [hfirst] at hadded
  cases hnodes : wa.m_ingoingNodes with
  | nil => rw [hnodes] at hadded; cases hadded
  | cons n0 rest =>
    rw [hnodes] at hadded
    simp only [List.map_cons, List.cons.injEq, Prod.mk.injEq] at hadded
    refine ⟨w, n0, rest, hcalls, by rw [hwi, hnodes], hadded.1.1, hadded.1.2,
      by rw [hwi]; exact hca, ?_⟩
    have hlen : w.m_adjacencyMatrix.length = n := by rw [h4, hres, Nat.mul_one]
    exact Save_ok gridHeader w [] (by
      rw [hlen, hwi, hwo, hca, hco, Nat.one_mul]
      exact (Nat.mod_eq_of_lt (by omega)).symm) (by rw [hlen]; exact hlt)

/-- A writer whose ingoing count is a multiple of 2^32 and whose first ingoing
node has id 0 at the origin is saved as the twelve zero bytes of the empty
context followed by more bytes. -/
theorem wide_image (w : CrossRoutingContextWriter (Nat × Nat))
    (n0 : IngoingCrossNode (Nat × Nat)) (rest : List (IngoingCrossNode (Nat × Nat)))
    (hnodes : w.m_ingoingNodes = n0 :: rest) (hid : n0.m_nodeId = 0) (hpt : n0.m_point = (0, 0))
    (hmod : w.m_ingoingNodes.length % 2 ^ 32 = 0) :
    ∃ extra, savedImage gridHeader w =
      savedImage gridHeader CrossRoutingContextWriter.empty ++ ([0, 0, 0, 0] ++ extra) := by
  have hsave : n0.Save gridHeader [] = [0, 0, 0, 0, 0, 0, 0, 0, 0, 0, 0, 0] := by
    simp only [IngoingCrossNode.Save, hid, hpt]
    rfl
  refine ⟨ingoingImage gridHeader rest ++
    (toBytes 4 (w.m_outgoingNodes.length % 2 ^ 32) ++ (outgoingImage gridHeader w.m_outgoingNodes ++
      (weightsToBytes gridHeader.weightBytes w.m_adjacencyMatrix ++
        (toBytes 4 (w.m_neighborMwmList.length % 2 ^ 32) ++ namesImage w.m_neighborMwmList)))),
    ?_⟩
  simp only [savedImage, hmod]
  rw [hnodes]
  simp only [ingoingImage, hsave, List.append_assoc]
  rfl

/-- The context of `wideCalls n` for `n` a multiple of 2^32: the calls and `Save`
succeed, and `Load` of the saved bytes, as of their first 12 bytes, succeeds and
leaves the reader empty. -/
theorem wideCalls_Load (n : Nat) (hn : 0 < n) (hmod : n % 2 ^ 32 = 0) (hlt : 4 * n < 2 ^ 64) :
    ∃ w, CrossRoutingContextWriter.calls gridHeader CrossRoutingContextWriter.empty
        (wideCalls n) = .ok w ∧
      w.Save gridHeader [] = .ok (savedImage gridHeader w) ∧
      CrossRoutingContextReader.fresh.Load gridHeader (savedImage gridHeader w) =
        .ok CrossRoutingContextReader.fresh ∧
      CrossRoutingContextReader.fresh.Load gridHeader ((savedImage gridHeader w).take 12) =
        .ok CrossRoutingContextReader.fresh ∧
      12 < (savedImage gridHeader w).length := by
  obtain ⟨w, n0, rest, hcalls, hnodes, hid, hpt, hlen, hsave⟩ := wideCalls_ok n hn hlt
  obtain ⟨extra, himg⟩ := wide_image w n0 rest hnodes hid hpt (by rw [hlen]; exact hmod)
  refine ⟨w, hcalls, hsave, ?_, ?_, ?_⟩
  · rw [himg]
    exact Load_append gridHeader _ _ _ _ rfl
  · have ht : (savedImage gridHeader
        (CrossRoutingContextWriter.empty : CrossRoutingContextWriter (Nat × Nat)) ++
        ([0, 0, 0, 0] ++ extra)).take 12 =
        savedImage gridHeader CrossRoutingContextWriter.empty := List.take_left' rfl
    rw [himg, ht]
    rfl
  · rw [himg, List.length_append, List.length_append]
    have : (savedImage gridHeader
        (CrossRoutingContextWriter.empty : CrossRoutingContextWriter (Nat × Nat))).length = 12 :=
      rfl
    rw [this]
    simp only [List.length_cons, List.length_nil]
    omega

/-! ### Loading a saved image whose names may be longer than their length fields -/

/-- Loading the saved image of a writer whose counts fit their 32-bit fields and
whose matrix passes the `CHECK`: the reads up to the name count succeed, and
`Load` ends as its last loop, over the names, ends. -/
theorem LoadPos_savedImage_names (hdr : Header P) (w : CrossRoutingContextWriter P)
    (s : CrossRoutingContextReader P)
    (hin : w.m_ingoingNodes.length < 2 ^ 32) (hout : w.m_outgoingNodes.length < 2 ^ 32)
    (hnames : w.m_neighborMwmList.length < 2 ^ 32)
    (hcheck : w.m_adjacencyMatrix.length = w.m_ingoingNodes.length * w.m_outgoingNodes.length)
    (hmem : hdr.weightBytes * w.m_adjacencyMatrix.length < 2 ^ 64) :
    s.LoadPos hdr (savedImage hdr w) =
      match loadNamesLoop (savedImage hdr w) w.m_neighborMwmList.length
          (4 + (ingoingImage hdr w.m_ingoingNodes).length + 4 +
            (outgoingImage hdr w.m_outgoingNodes).length +
            hdr.weightBytes * w.m_adjacencyMatrix.length + 4) s.m_neighborMwmList with
      | .error names =>
        .error (.outOfBounds, { reloadedContext hdr s w with m_neighborMwmList := names })
      | .ok (names, pos3) =>
        .ok ({ reloadedContext hdr s w with m_neighborMwmList := names }, pos3) := by
  have h1 : Read (savedImage hdr w) 0 4 = some (toBytes 4 (w.m_ingoingNodes.length % 2 ^ 32)) :=
    Read_at [] _ (ingoingImage hdr w.m_ingoingNodes ++
      (toBytes 4 (w.m_outgoingNodes.length % 2 ^ 32) ++ (outgoingImage hdr w.m_outgoingNodes ++
      (weightsToBytes hdr.weightBytes w.m_adjacencyMatrix ++
        (toBytes 4 (w.m_neighborMwmList.length % 2 ^ 32) ++
          namesImage w.m_neighborMwmList))))) _ 0 4
      (by simp only [savedImage, List.append_assoc, List.nil_append]) rfl
      (toBytes_length _ _).symm
  have h2 := loadIngoingLoop_at hdr w.m_ingoingNodes
    (toBytes 4 (w.m_ingoingNodes.length % 2 ^ 32))
    (toBytes 4 (w.m_outgoingNodes.length % 2 ^ 32) ++ (outgoingImage hdr w.m_outgoingNodes ++
      (weightsToBytes hdr.weightBytes w.m_adjacencyMatrix ++
        (toBytes 4 (w.m_neighborMwmList.length % 2 ^ 32) ++ namesImage w.m_neighborMwmList))))
    (savedImage hdr w) 4 0 s.m_ingoingIndex
    (by simp only [savedImage, List.append_assoc]) (toBytes_length _ _).symm
  have h3 : Read (savedImage hdr w) (4 + (ingoingImage hdr w.m_ingoingNodes).length) 4 =
      some (toBytes 4 (w.m_outgoingNodes.length % 2 ^ 32)) :=
    Read_at (toBytes 4 (w.m_ingoingNodes.length % 2 ^ 32) ++ ingoingImage hdr w.m_ingoingNodes)
      _ (outgoingImage hdr w.m_outgoingNodes ++
      (weightsToBytes hdr.weightBytes w.m_adjacencyMatrix ++
        (toBytes 4 (w.m_neighborMwmList.length % 2 ^ 32) ++ namesImage w.m_neighborMwmList)))
      _ _ 4 (by simp only [savedImage, List.append_assoc])
      (by simp only [List.length_append, toBytes_length]) (toBytes_length _ _).symm
  have h4 := loadOutgoingLoop_at hdr w.m_outgoingNodes
    (toBytes 4 (w.m_ingoingNodes.length % 2 ^ 32) ++ ingoingImage hdr w.m_ingoingNodes ++
      toBytes 4 (w.m_outgoingNodes.length % 2 ^ 32))
    (weightsToBytes hdr.weightBytes w.m_adjacencyMatrix ++
      (toBytes 4 (w.m_neighborMwmList.length % 2 ^ 32) ++ namesImage w.m_neighborMwmList))
    (savedImage hdr w) (4 + (ingoingImage hdr w.m_ingoingNodes).length + 4) []
    (resize s.m_outgoingNodes w.m_outgoingNodes.length hdr.defaultOutgoingCrossNode)
    (by simp only [savedImage, List.append_assoc]) (by simp only [List.length_append, toBytes_length])
    (resize_length _ _ _)
  have eadj : (w.m_ingoingNodes.length * w.m_outgoingNodes.length) % 2 ^ 64 =
      w.m_adjacencyMatrix.length := by
    rw [← hcheck]
    have : w.m_adjacencyMatrix.length < 2 ^ 64 := by
      rw [hcheck]
      calc w.m_ingoingNodes.length * w.m_outgoingNodes.length
          < 2 ^ 32 * 2 ^ 32 := Nat.mul_lt_mul'' hin hout
        _ = 2 ^ 64 := by norm_num
    exact Nat.mod_eq_of_lt this
  have h5 : Read (savedImage hdr w)
      (4 + (ingoingImage hdr w.m_ingoingNodes).length + 4 +
        (outgoingImage hdr w.m_outgoingNodes).length)
      (hdr.weightBytes * w.m_adjacencyMatrix.length) =
      some (weightsToBytes hdr.weightBytes w.m_adjacencyMatrix) :=
    Read_at (toBytes 4 (w.m_ingoingNodes.length % 2 ^ 32) ++ ingoingImage hdr w.m_ingoingNodes ++
      toBytes 4 (w.m_outgoingNodes.length % 2 ^ 32) ++ outgoingImage hdr w.m_outgoingNodes)
      _ (toBytes 4 (w.m_neighborMwmList.length % 2 ^ 32) ++ namesImage w.m_neighborMwmList)
      _ _ _ (by simp only [savedImage, List.append_assoc])
      (by simp only [List.length_append, toBytes_length]) (weightsToBytes_length _ _).symm
  have h6 : Read (savedImage hdr w)
      (4 + (ingoingImage hdr w.m_ingoingNodes).length + 4 +
        (outgoingImage hdr w.m_outgoingNodes).length +
        hdr.weightBytes * w.m_adjacencyMatrix.length) 4 =
      some (toBytes 4 (w.m_neighborMwmList.length % 2 ^ 32)) :=
    Read_at (toBytes 4 (w.m_ingoingNodes.length % 2 ^ 32) ++ ingoingImage hdr w.m_ingoingNodes ++
      toBytes 4 (w.m_outgoingNodes.length % 2 ^ 32) ++ outgoingImage hdr w.m_outgoingNodes ++
      weightsToBytes hdr.weightBytes w.m_adjacencyMatrix)
      _ (namesImage w.m_neighborMwmList)
      _ _ 4 (by simp only [savedImage, List.append_assoc])
      (by simp only [List.length_append, toBytes_length, weightsToBytes_length]) (toBytes_length _ _).symm
  have e5 : overlay (weightsToBytes hdr.weightBytes w.m_adjacencyMatrix)
      (weightsToBytes hdr.weightBytes
        (resize s.m_adjacencyMatrix w.m_adjacencyMatrix.length 0)) =
      weightsToBytes hdr.weightBytes w.m_adjacencyMatrix :=
    overlay_full _ _ (by rw [weightsToBytes_length, weightsToBytes_length, resize_length])
  have e6 := weightsOfBytes_toBytes hdr.weightBytes w.m_adjacencyMatrix []
  rw [List.append_nil] at e6
  simp only [List.nil_append, List.length_nil] at h4
  simp only [CrossRoutingContextReader.LoadPos, h1, ofBytes_count _ hin, h2, h3,
    ofBytes_count _ hout, h4, reloadedOutgoing_length, eadj, Nat.mod_eq_of_lt hmem, h5, e5, e6,
    h6, ofBytes_count _ hnames]
  cases loadNamesLoop (savedImage hdr w) w.m_neighborMwmList.length
      (4 + (ingoingImage hdr w.m_ingoingNodes).length + 4 +
        (outgoingImage hdr w.m_outgoingNodes).length +
        hdr.weightBytes * w.m_adjacencyMatrix.length + 4) s.m_neighborMwmList with
  | error names => rfl
  | ok v => rfl

/-- Whatever the names are, when `Load` of the saved image succeeds the nodes
and the matrix of the reader are those decoded from the writer's. -/
theorem LoadPos_savedImage_ok (hdr : Header P) (w : CrossRoutingContextWriter P)
    (s : CrossRoutingContextReader P)
    (hin : w.m_ingoingNodes.length < 2 ^ 32) (hout : w.m_outgoingNodes.length < 2 ^ 32)
    (hnames : w.m_neighborMwmList.length < 2 ^ 32)
    (hcheck : w.m_adjacencyMatrix.length = w.m_ingoingNodes.length * w.m_outgoingNodes.length)
    (hmem : hdr.weightBytes * w.m_adjacencyMatrix.length < 2 ^ 64)
    (s1 : CrossRoutingContextReader P) (p : Nat)
    (h : s.LoadPos hdr (savedImage hdr w) = .ok (s1, p)) :
    s1.m_ingoingIndex = s.m_ingoingIndex ++ reloadedIngoing hdr 0 w.m_ingoingNodes ∧
      s1.m_outgoingNodes = reloadedOutgoing hdr 0 w.m_outgoingNodes ∧
      s1.m_adjacencyMatrix = w.m_adjacencyMatrix.map (· % 256 ^ hdr.weightBytes) := by
  rw [LoadPos_savedImage_names hdr w s hin hout hnames hcheck hmem] at h
  split at h
  · cases h
  · simp only [Except.ok.injEq, Prod.mk.injEq] at h
    obtain ⟨h, _⟩ := h
    subst h
    exact ⟨rfl, rfl, rfl⟩

theorem Load_savedImage_ok (hdr : Header P) (w : CrossRoutingContextWriter P)
    (hin : w.m_ingoingNodes.length < 2 ^ 32) (hout : w.m_outgoingNodes.length < 2 ^ 32)
    (hnames : w.m_neighborMwmList.length < 2 ^ 32)
    (hcheck : w.m_adjacencyMatrix.length = w.m_ingoingNodes.length * w.m_outgoingNodes.length)
    (hmem : hdr.weightBytes * w.m_adjacencyMatrix.length < 2 ^ 64)
    (r : CrossRoutingContextReader P)
    (h : CrossRoutingContextReader.fresh.Load hdr (savedImage hdr w) = .ok r) :
    r.m_ingoingIndex = reloadedIngoing hdr 0 w.m_ingoingNodes ∧
      r.m_outgoingNodes = reloadedOutgoing hdr 0 w.m_outgoingNodes ∧
      r.m_adjacencyMatrix = w.m_adjacencyMatrix.map (· % 256 ^ hdr.weightBytes) := by
  simp only [CrossRoutingContextReader.Load] at h
  cases h0 : CrossRoutingContextReader.fresh.LoadPos hdr (savedImage hdr w) with
  | error e => rw [h0] at h; cases h
  | ok v =>
    obtain ⟨s2, p⟩ := v
    rw [h0] at h
    simp only [Except.ok.injEq] at h
    subst h
    have := LoadPos_savedImage_ok hdr w CrossRoutingContextReader.fresh hin hout hnames hcheck
      hmem s2 p h0
    simpa [CrossRoutingContextReader.fresh] using this

/-- A context built by additions, `ReserveAdjacencyMatrix` and cost settings on
its own nodes, the product of the node counts being below 2^64: the calls
succeed, the writer holds one node per addition and one cell per pair, and each
cell holds the last value set for its pair or the sentinel. -/
theorem calls_build_nowrap (hdr : Header P) (adds sets : List (Call P))
    (hadds : ∀ c ∈ adds, c.isAdd = true)
    (hsets : ∀ c ∈ sets, c.isSetWithin (ingoingCount adds) (passedNames adds).length = true)
    (hlt : ingoingCount adds * (passedNames adds).length < 2 ^ 64) :
    ∃ w, CrossRoutingContextWriter.calls hdr CrossRoutingContextWriter.empty
        (adds ++ .reserve :: sets) = .ok w ∧
      w.m_ingoingNodes.length = ingoingCount adds ∧
      w.m_outgoingNodes.length = (passedNames adds).length ∧
      w.m_adjacencyMatrix.length = ingoingCount adds * (passedNames adds).length ∧
      (∀ name ∈ w.m_neighborMwmList, name ∈ passedNames adds) ∧
      ∀ i j, i < ingoingCount adds → j < (passedNames adds).length →
        w.m_adjacencyMatrix[(passedNames adds).length * i + j]? =
          some (expectedCost hdr i j sets) := by
  obtain ⟨wa, hwa⟩ := calls_adds_ok hdr adds hadds CrossRoutingContextWriter.empty
  have hnores : Call.reserve ∉ adds := fun h => by simpa [Call.isAdd] using hadds _ h
  have hma := calls_unreserved hdr _ wa adds rfl hnores hwa
  have hca := calls_ingoingCount hdr adds wa hwa
  obtain ⟨hmem_a, hco, _⟩ := calls_history hdr adds wa hwa
  obtain ⟨hia, hoa, _, _, _⟩ := calls_state hdr wa adds hwa
  have hres : (wa.ReserveAdjacencyMatrix hdr).m_adjacencyMatrix =
      List.replicate (ingoingCount adds * (passedNames adds).length)
        (INVALID_CONTEXT_EDGE_WEIGHT hdr) := by
    simp only [CrossRoutingContextWriter.ReserveAdjacencyMatrix]
    rw [hma, hca, hco, Nat.mod_eq_of_lt hlt]
    simp [resize]
  obtain ⟨w, hw, h1, h2, h3, h4, h5⟩ := calls_sets hdr (wa.ReserveAdjacencyMatrix hdr)
    (ingoingCount adds) (passedNames adds).length hca hco hia hoa
    (by rw [hres, List.length_replicate]) hlt sets hsets
  refine ⟨w, ?_, by rw [h1]; exact hca, by rw [h2]; exact hco,
    by rw [h4, hres, List.length_replicate], ?_, ?_⟩
  · rw [calls_append, hwa]
    simp only [CrossRoutingContextWriter.calls, CrossRoutingContextWriter.call]
    exact hw
  · intro name hname
    rw [h3] at hname
    exact (hmem_a name).1 hname
  · intro i j hi hj
    rw [h5 i j hi hj, hres, List.getElem?_replicate,
      if_pos (flat_lt _ _ i j hi hj)]
    simp only [expectedCost]
    cases (costsSet i j sets).getLast? <;> rfl

theorem wideAdds_counts (n : Nat) :
    ingoingCount (wideAdds n) = n ∧ passedNames (wideAdds n) = [tileX] := by
  constructor
  · simp only [wideAdds, ingoingCount_append, ingoingCount_replicate, ingoingCount,
      Nat.add_zero]
  · simp only [wideAdds, passedNames_append, passedNames_replicate, passedNames,
      List.nil_append]

theorem wideCalls_names (n : Nat) : passedNames (wideCalls n) = [tileX] := by
  simp only [wideCalls, passedNames_append, (wideAdds_counts n).2, passedNames,
    List.append_nil]

/-! ### Names longer than their length field -/

theorem garbledCalls_ok (rest : List Byte) :
    CrossRoutingContextWriter.calls gridHeader CrossRoutingContextWriter.empty
      (garbledCalls rest) = .ok (garbledWriter rest) := rfl

/-- The last loop of `Load` on the image of `garbledWriter rest`, for `rest` of
2^32 - 4 bytes: the first name is read as empty, the second as 2^32 - 1 bytes,
and the read of the third goes past the end. -/
theorem garbled_names_fail (rest : List Byte) (hrest : rest.length = 2 ^ 32 - 4) :
    ∃ names, loadNamesLoop (savedImage gridHeader (garbledWriter rest)) 3 84 [] =
      .error names := by
  have hx : (garbledName rest).length % 2 ^ 32 = 0 := by
    simp only [garbledName, List.length_cons, hrest]
    norm_num
  have hN : namesImage [garbledName rest, [255, 255, 255], []] =
      [0, 0, 0, 0] ++ ([255, 255, 255, 255] ++
        ((rest ++ [3, 0, 0]) ++ ([0, 255, 255, 255] ++ [0, 0, 0, 0]))) := by
    simp only [namesImage, hx]
    show [0, 0, 0, 0] ++ garbledName rest ++
      ([3, 0, 0, 0] ++ [255, 255, 255] ++ ([0, 0, 0, 0] ++ [] ++ [])) = _
    simp only [garbledName, List.append_assoc, List.cons_append, List.nil_append,
      List.append_nil]
  have hr : savedImage gridHeader (garbledWriter rest) =
      (savedImage gridHeader (garbledWriter [])).take 84 ++
        ([0, 0, 0, 0] ++ ([255, 255, 255, 255] ++
          ((rest ++ [3, 0, 0]) ++ ([0, 255, 255, 255] ++ [0, 0, 0, 0])))) := by
    rw [← hN]
    rfl
  have hpre : ((savedImage gridHeader (garbledWriter [])).take 84).length = 84 := rfl
  have h1 : Read (savedImage gridHeader (garbledWriter rest)) 84 4 = some [0, 0, 0, 0] :=
    Read_at _ _ _ _ 84 4 hr hpre.symm rfl
  have h2 : Read (savedImage gridHeader (garbledWriter rest)) (84 + 4) 0 = some [] :=
    Read_at ((savedImage gridHeader (garbledWriter [])).take 84 ++ [0, 0, 0, 0]) []
      ([255, 255, 255, 255] ++
        ((rest ++ [3, 0, 0]) ++ ([0, 255, 255, 255] ++ [0, 0, 0, 0]))) _ _ 0
      (by rw [hr]; simp only [List.append_assoc, List.nil_append])
      (by rw [List.length_append, hpre]; rfl) rfl
  have h3 : Read (savedImage gridHeader (garbledWriter rest)) (84 + 4 + 0) 4 =
      some [255, 255, 255, 255] :=
    Read_at ((savedImage gridHeader (garbledWriter [])).take 84 ++ [0, 0, 0, 0])
      [255, 255, 255, 255]
      ((rest ++ [3, 0, 0]) ++ ([0, 255, 255, 255] ++ [0, 0, 0, 0])) _ _ 4
      (by rw [hr]; simp only [List.append_assoc])
      (by rw [List.length_append, hpre]; rfl) rfl
  have h4 : Read (savedImage gridHeader (garbledWriter rest)) (84 + 4 + 0 + 4) 4294967295 =
      some (rest ++ [3, 0, 0]) :=
    Read_at ((savedImage gridHeader (garbledWriter [])).take 84 ++ [0, 0, 0, 0] ++
        [255, 255, 255, 255])
      (rest ++ [3, 0, 0]) ([0, 255, 255, 255] ++ [0, 0, 0, 0]) _ _ _
      (by rw [hr]; simp only [List.append_assoc])
      (by rw [List.length_append, List.length_append, hpre]; rfl)
      (by rw [List.length_append, hrest]; rfl)
  have h5 : Read (savedImage gridHeader (garbledWriter rest))
      (84 + 4 + 0 + 4 + 4294967295) 4 = some [0, 255, 255, 255] :=
    Read_at ((savedImage gridHeader (garbledWriter [])).take 84 ++ [0, 0, 0, 0] ++
        [255, 255, 255, 255] ++ (rest ++ [3, 0, 0]))
      [0, 255, 255, 255] [0, 0, 0, 0] _ _ 4
      (by rw [hr]; simp only [List.append_assoc])
      (by
        rw [List.length_append, List.length_append, List.length_append, List.length_append,
          hpre, hrest]
        rfl) rfl
  have h6 : Read (savedImage gridHeader (garbledWriter rest))
      (84 + 4 + 0 + 4 + 4294967295 + 4) 4294967040 = none := by
    have hlen : (savedImage gridHeader (garbledWriter rest)).length = 2 ^ 32 + 99 := by
      rw [hr]
      simp only [List.length_append, hpre, hrest, List.length_cons, List.length_nil]
      norm_num
    simp only [Read, hlen]
    rw [if_neg (by norm_num)]
  have e1 : ofBytes ([0, 0, 0, 0] : List Byte) = 0 := rfl
  have e2 : ofBytes ([255, 255, 255, 255] : List Byte) = 4294967295 := rfl
  have e3 : ofBytes ([0, 255, 255, 255] : List Byte) = 4294967040 := rfl
  refine ⟨[[], rest ++ [3, 0, 0]], ?_⟩
  simp only [loadNamesLoop, h1, e1, h2, h3, e2, h4, h5, e3, h6, List.nil_append,
    List.cons_append]

theorem garbledName_length (rest : List Byte) :
    (garbledName rest).length = rest.length + 4 := rfl

theorem longRest_length : longRest.length = 2 ^ 32 - 4 := List.length_replicate _ _

/-- The context of `garbledCalls rest`, for `rest` of 2^32 - 4 bytes, has one
ingoing and three outgoing nodes; `Save` succeeds, and `Load` of the saved bytes
into a fresh reader fails in the name section. -/
theorem garbled_Load_fails (rest : List Byte) (hrest : rest.length = 2 ^ 32 - 4) :
    (garbledWriter rest).Save gridHeader [] =
        .ok (savedImage gridHeader (garbledWriter rest)) ∧
      ∃ s1, CrossRoutingContextReader.fresh.Load gridHeader
        (savedImage gridHeader (garbledWriter rest)) = .error (.outOfBounds, s1) := by
  have hin : (garbledWriter rest).m_ingoingNodes.length < 2 ^ 32 := by
    show 1 < 2 ^ 32
    norm_num
  have hout : (garbledWriter rest).m_outgoingNodes.length < 2 ^ 32 := by
    show 3 < 2 ^ 32
    norm_num
  have hnames : (garbledWriter rest).m_neighborMwmList.length < 2 ^ 32 := by
    show 3 < 2 ^ 32
    norm_num
  have hcheck : (garbledWriter rest).m_adjacencyMatrix.length =
      (garbledWriter rest).m_ingoingNodes.length * (garbledWriter rest).m_outgoingNodes.length :=
    rfl
  have hmem : gridHeader.weightBytes * (garbledWriter rest).m_adjacencyMatrix.length <
      2 ^ 64 := by
    show 4 * 3 < 2 ^ 64
    norm_num
  constructor
  · exact Save_ok gridHeader (garbledWriter rest) [] rfl hmem
  · obtain ⟨names, hn⟩ := garbled_names_fail rest hrest
    have hn1 : loadNamesLoop (savedImage gridHeader (garbledWriter rest))
        (garbledWriter rest).m_neighborMwmList.length
        (4 + (ingoingImage gridHeader (garbledWriter rest).m_ingoingNodes).length + 4 +
          (outgoingImage gridHeader (garbledWriter rest).m_outgoingNodes).length +
          gridHeader.weightBytes * (garbledWriter rest).m_adjacencyMatrix.length + 4)
        (CrossRoutingContextReader.fresh :
          CrossRoutingContextReader (Nat × Nat)).m_neighborMwmList = .error names := hn
    simp only [CrossRoutingContextReader.Load]
    rw [LoadPos_savedImage_names gridHeader (garbledWriter rest) CrossRoutingContextReader.fresh
      hin hout hnames hcheck hmem, hn1]
    exact ⟨_, rfl⟩

/-! ## Theorems -/

/-- C1: a context built from the empty writer by additions, then
`ReserveAdjacencyMatrix`, then cost settings on its own nodes, with arguments of
their declared types, node counts and name lengths below 2^32 and a matrix that
fits in the address space: the calls succeed, `Save` succeeds, `Load` of its
bytes into a fresh reader succeeds, and the reader holds the writer's ingoing
nodes and outgoing nodes in the same order with the same ids, indices and
`unpack (pack point)` for every point, the writer's name list, and the writer's
matrix. -/
theorem context_roundtrip (hdr : Header P) (adds sets : List (Call P))
    (hadds : ∀ c ∈ adds, c.isAdd = true)
    (hsets : ∀ c ∈ sets, c.isSetWithin (ingoingCount adds) (outgoingCount adds) = true)
    (htyped : ∀ c ∈ adds ++ sets, c.wellTyped hdr = true)
    (hin : ingoingCount adds < 2 ^ 32) (hout : outgoingCount adds < 2 ^ 32)
    (hlen : ∀ name ∈ passedNames adds, name.length < 2 ^ 32)
    (hmem : hdr.weightBytes * (ingoingCount adds * outgoingCount adds) < 2 ^ 64) :
    ∃ w bytes r,
      CrossRoutingContextWriter.calls hdr CrossRoutingContextWriter.empty
        (adds ++ .reserve :: sets) = .ok w ∧
      w.Save hdr [] = .ok bytes ∧
      CrossRoutingContextReader.fresh.Load hdr bytes = .ok r ∧
      r.m_ingoingIndex = w.m_ingoingNodes.map (IngoingCrossNode.requantized hdr) ∧
      r.m_outgoingNodes = w.m_outgoingNodes.map (OutgoingCrossNode.requantized hdr) ∧
      r.m_neighborMwmList = w.m_neighborMwmList ∧
      r.m_adjacencyMatrix = w.m_adjacencyMatrix := by
  obtain ⟨w, hw, hfit, _, _, _⟩ := calls_build hdr adds sets hadds hsets hin hout hlen hmem
  obtain ⟨hs, hl⟩ := Load_Save hdr w hfit
  rw [reloadedContext_typed hdr _ w hw (wellTyped_build hdr adds sets htyped) hfit] at hl
  exact ⟨w, _, _, hw, hs, hl, rfl, rfl, rfl, rfl⟩

/-- Instance of C1: the scenario of the specification. -/
theorem context_roundtrip_witness :
    ∃ w bytes r,
      CrossRoutingContextWriter.calls gridHeader CrossRoutingContextWriter.empty
        (scenarioAdds ++ .reserve :: scenarioSets) = .ok w ∧
      w.Save gridHeader [] = .ok bytes ∧
      CrossRoutingContextReader.fresh.Load gridHeader bytes = .ok r ∧
      r.m_ingoingIndex = w.m_ingoingNodes.map (IngoingCrossNode.requantized gridHeader) ∧
      r.m_outgoingNodes = w.m_outgoingNodes.map (OutgoingCrossNode.requantized gridHeader) ∧
      r.m_neighborMwmList = w.m_neighborMwmList ∧
      r.m_adjacencyMatrix = w.m_adjacencyMatrix :=
  context_roundtrip gridHeader scenarioAdds scenarioSets (by decide) (by decide) (by decide)
    (by decide) (by decide) (by decide) (by decide)

/-- C4: in every writer reached from the empty writer the neighbour-name list
has no repetition and its length is the number of distinct names passed to
`AddOutgoingNode` so far. -/
theorem names_deduplicated (hdr : Header P) (cs : List (Call P))
    (w : CrossRoutingContextWriter P)
    (hcalls : CrossRoutingContextWriter.calls hdr CrossRoutingContextWriter.empty cs = .ok w) :
    w.m_neighborMwmList.Nodup ∧
      w.m_neighborMwmList.length = (passedNames cs).dedup.length ∧
      ∀ (id1 id2 : Nat) (name : List Byte) (p1 p2 : P),
        ((CrossRoutingContextWriter.empty.AddOutgoingNode id1 name p1).AddOutgoingNode
          id2 name p2).m_neighborMwmList = [name] := by
  obtain ⟨_, _, _, _, hn⟩ := calls_state hdr w cs hcalls
  obtain ⟨hm, _, _⟩ := calls_history hdr cs w hcalls
  refine ⟨hn, ?_, ?_⟩
  · rw [← List.card_toFinset, ← List.toFinset_card_of_nodup hn]
    congr 1
    ext x
    simp [hm x]
  · intro id1 id2 name p1 p2
    simp [CrossRoutingContextWriter.AddOutgoingNode, CrossRoutingContextWriter.empty, findIndex]

/-- Instance of C4: the scenario passes "tileX" twice and the list has one entry. -/
theorem names_deduplicated_witness :
    scenarioWriter.m_neighborMwmList.Nodup ∧
      scenarioWriter.m_neighborMwmList.length = (passedNames scenarioCalls).dedup.length ∧
      ∀ (id1 id2 : Nat) (name : List Byte) (p1 p2 : Nat × Nat),
        ((CrossRoutingContextWriter.empty.AddOutgoingNode id1 name p1).AddOutgoingNode
          id2 name p2).m_neighborMwmList = [name] :=
  names_deduplicated gridHeader scenarioCalls scenarioWriter rfl

/-- C5, amended: for a writer reached from the empty writer whose `Save`
succeeds and narrows nothing (node counts, number of names and every name
length below 2^32), `Load` of the saved bytes into a fresh reader succeeds, the
reader has one outgoing node per `AddOutgoingNode` call, and
`GetOutgoingMwmName` on the k-th of them passes its assertion and returns the
name passed to the k-th call. -/
theorem neighbor_name_roundtrip (hdr : Header P) (cs : List (Call P))
    (w : CrossRoutingContextWriter P)
    (hcalls : CrossRoutingContextWriter.calls hdr CrossRoutingContextWriter.empty cs = .ok w)
    (hfit : FitsFormat hdr w) :
    ∃ bytes r, w.Save hdr [] = .ok bytes ∧
      CrossRoutingContextReader.fresh.Load hdr bytes = .ok r ∧
      r.m_outgoingNodes.length = (passedNames cs).length ∧
      ∀ (k : Nat) (node : OutgoingCrossNode P), r.m_outgoingNodes[k]? = some node →
        ∃ name, (passedNames cs)[k]? = some name ∧ r.GetOutgoingMwmName node = .ok name := by
  obtain ⟨hs, hl⟩ := Load_Save hdr w hfit
  obtain ⟨_, _, hx, hle, _⟩ := calls_state hdr w cs hcalls
  obtain ⟨_, hlen, hres⟩ := calls_history hdr cs w hcalls
  obtain ⟨_, hout, hnames, _, _, _⟩ := hfit
  refine ⟨_, _, hs, hl, ?_, ?_⟩
  · simp [reloadedContext, reloadedOutgoing_length, hlen]
  · intro k node hk
    simp only [reloadedContext] at hk
    obtain ⟨m, hm, hnode⟩ := reloadedOutgoing_get hdr _ 0 k node hk
    have hmem : m ∈ w.m_outgoingNodes := List.getElem?_mem hm
    have hidx := hx m hmem
    have hmap := congrArg (fun l => l[k]?) (hres (by omega))
    simp only [List.getElem?_map, hm, Option.map_some', resolveName] at hmap
    cases hp : (passedNames cs)[k]? with
    | none => rw [hp] at hmap; cases hmap
    | some name =>
      rw [hp] at hmap
      simp only [Option.map_some', Option.some.injEq] at hmap
      refine ⟨name, rfl, ?_⟩
      have hmod : m.m_outgoingIndex % 2 ^ 32 = m.m_outgoingIndex :=
        Nat.mod_eq_of_lt (by omega)
      simp only [CrossRoutingContextReader.GetOutgoingMwmName, reloadedContext,
        CrossRoutingContextReader.fresh, List.nil_append, hnode, OutgoingCrossNode.reloaded, hmod,
        hidx, dite_true, Except.ok.injEq]
      have := List.getElem?_eq_getElem hidx
      rw [hmap] at this
      simpa using this.symm

/-- Instance of the amended C5: the scenario's writer, whose two outgoing nodes
both resolve to "tileX". -/
theorem neighbor_name_roundtrip_witness :
    ∃ bytes r, scenarioWriter.Save gridHeader [] = .ok bytes ∧
      CrossRoutingContextReader.fresh.Load gridHeader bytes = .ok r ∧
      r.m_outgoingNodes.length = (passedNames scenarioCalls).length ∧
      ∀ (k : Nat) (node : OutgoingCrossNode (Nat × Nat)), r.m_outgoingNodes[k]? = some node →
        ∃ name, (passedNames scenarioCalls)[k]? = some name ∧
          r.GetOutgoingMwmName node = .ok name :=
  neighbor_name_roundtrip gridHeader scenarioCalls scenarioWriter rfl (by decide)

/-- C6: in every writer reached from the empty writer each outgoing node's
`m_outgoingIndex` is below the length of the name list; and `AddOutgoingNode`
only appends to the name list, leaves every earlier node where and as it was,
and leaves the name each earlier node resolves to unchanged. -/
theorem outgoingIndex_valid (hdr : Header P) (cs : List (Call P))
    (w : CrossRoutingContextWriter P)
    (hcalls : CrossRoutingContextWriter.calls hdr CrossRoutingContextWriter.empty cs = .ok w) :
    (∀ n ∈ w.m_outgoingNodes, n.m_outgoingIndex < w.m_neighborMwmList.length) ∧
    ∀ nodeId targetMwm point,
      (∀ n ∈ (w.AddOutgoingNode nodeId targetMwm point).m_outgoingNodes,
        n.m_outgoingIndex < (w.AddOutgoingNode nodeId targetMwm point).m_neighborMwmList.length) ∧
      (∃ suffix, (w.AddOutgoingNode nodeId targetMwm point).m_neighborMwmList =
        w.m_neighborMwmList ++ suffix) ∧
      ∀ (k : Nat) (n : OutgoingCrossNode P), w.m_outgoingNodes[k]? = some n →
        (w.AddOutgoingNode nodeId targetMwm point).m_outgoingNodes[k]? = some n ∧
        resolveName (w.AddOutgoingNode nodeId targetMwm point).m_neighborMwmList n =
          resolveName w.m_neighborMwmList n ∧
        ∃ name, resolveName w.m_neighborMwmList n = some name := by
  obtain ⟨_, _, hx, _, _⟩ := calls_state hdr w cs hcalls
  refine ⟨hx, fun nodeId targetMwm point => ⟨?_, ?_, fun k n hk => ⟨?_, ?_, ?_⟩⟩⟩
  · have h2 : CrossRoutingContextWriter.calls hdr CrossRoutingContextWriter.empty
        (cs ++ [.addOutgoing nodeId targetMwm point]) =
        .ok (w.AddOutgoingNode nodeId targetMwm point) := by
      rw [calls_snoc, hcalls]
      rfl
    exact (calls_state hdr _ _ h2).2.2.1
  · obtain ⟨suffix, hs, _, _⟩ := AddOutgoingNode_names w nodeId targetMwm point
    exact ⟨suffix, hs⟩
  · have hlt : k < w.m_outgoingNodes.length := by
      by_contra hcon
      rw [List.getElem?_eq_none (by omega)] at hk
      cases hk
    simp only [CrossRoutingContextWriter.AddOutgoingNode]
    rw [List.getElem?_append_left hlt, hk]
  · obtain ⟨suffix, hs, _, _⟩ := AddOutgoingNode_names w nodeId targetMwm point
    rw [hs]
    simp only [resolveName]
    exact List.getElem?_append_left (hx n (List.getElem?_mem hk))
  · have := hx n (List.getElem?_mem hk)
    exact ⟨_, List.getElem?_eq_getElem this⟩

/-- Instance of C6: the scenario's writer. -/
theorem outgoingIndex_valid_witness :
    (∀ n ∈ scenarioWriter.m_outgoingNodes,
      n.m_outgoingIndex < scenarioWriter.m_neighborMwmList.length) ∧
    ∀ nodeId targetMwm point,
      (∀ n ∈ (scenarioWriter.AddOutgoingNode nodeId targetMwm point).m_outgoingNodes,
        n.m_outgoingIndex <
          (scenarioWriter.AddOutgoingNode nodeId targetMwm point).m_neighborMwmList.length) ∧
      (∃ suffix, (scenarioWriter.AddOutgoingNode nodeId targetMwm point).m_neighborMwmList =
        scenarioWriter.m_neighborMwmList ++ suffix) ∧
      ∀ (k : Nat) (n : OutgoingCrossNode (Nat × Nat)), scenarioWriter.m_outgoingNodes[k]? = some n →
        (scenarioWriter.AddOutgoingNode nodeId targetMwm point).m_outgoingNodes[k]? = some n ∧
        resolveName (scenarioWriter.AddOutgoingNode nodeId targetMwm point).m_neighborMwmList n =
          resolveName scenarioWriter.m_neighborMwmList n ∧
        ∃ name, resolveName scenarioWriter.m_neighborMwmList n = some name :=
  outgoingIndex_valid gridHeader scenarioCalls scenarioWriter rfl

/-- C7: `GetAdjacencyCost` never reads outside the matrix and returns what its
reference definition returns: the sentinel when either adjacency index is
`kInvalidAdjacencyIndex` or when the flat index, computed in `size_t`
arithmetic, is not below the matrix length, and the cell at the flat index
otherwise. -/
theorem GetAdjacencyCost_eq_reference (hdr : Header P) (s : CrossRoutingContextReader P)
    (ingoing : IngoingCrossNode P) (outgoing : OutgoingCrossNode P) :
    s.GetAdjacencyCost hdr ingoing outgoing =
      some (GetAdjacencyCostReference hdr s ingoing outgoing) := by
  unfold CrossRoutingContextReader.GetAdjacencyCost GetAdjacencyCostReference
  by_cases h1 : ingoing.m_adjacencyIndex = hdr.kInvalidAdjacencyIndex
  · simp [h1]
  · by_cases h2 : outgoing.m_adjacencyIndex = hdr.kInvalidAdjacencyIndex
    · simp [h2]
    · simp only [h1, h2, or_self, if_false, Nat.mod_add_mod]
      split
      · rename_i h
        simp [h, List.getElem?_eq_getElem h]
      · rename_i h
        simp [h]

/-- C8, as stated, fails: with A and B both within the query rectangle and A
yielded first, `FindIngoingNodeByPoint` leaves B, not A, in the output node. -/
theorem FindIngoingNodeByPoint_not_first :
    gridHeader.ForEachInRect readerAB.m_ingoingIndex (11, 11) = [nodeA, nodeB] ∧
      readerAB.FindIngoingNodeByPoint gridHeader (11, 11) nodeA = (true, nodeB) ∧
      nodeB ≠ nodeA := by
  decide

/-- C8, amended: `FindIngoingNodeByPoint` returns false and leaves the output
node unchanged when the spatial query yields nothing, and otherwise returns true
with the output node equal to the last node the query yields. -/
theorem FindIngoingNodeByPoint_last (hdr : Header P) (s : CrossRoutingContextReader P)
    (point : P) (node : IngoingCrossNode P) :
    s.FindIngoingNodeByPoint hdr point node =
      match (hdr.ForEachInRect s.m_ingoingIndex point).getLast? with
      | none => (false, node)
      | some nd => (true, nd) := by
  unfold CrossRoutingContextReader.FindIngoingNodeByPoint
  generalize hdr.ForEachInRect s.m_ingoingIndex point = hits
  induction hits using List.reverseRecOn with
  | nil => rfl
  | append_singleton xs x _ => simp [List.foldl_append]

/-- C10, amended: for a writer whose `Save` succeeds and narrows nothing (node
counts, number of names and every name length below 2^32) and the bytes its
`Save` produces, `Load` of any strict prefix of them, the empty one included,
into a reader in any state ends in the out-of-bounds error. -/
theorem truncated_rejected (hdr : Header P) (w : CrossRoutingContextWriter P)
    (bytes : List Byte) (n : Nat) (s : CrossRoutingContextReader P)
    (hfit : FitsFormat hdr w) (hsave : w.Save hdr [] = .ok bytes) (hn : n < bytes.length) :
    ∃ s1, s.Load hdr (bytes.take n) = .error (.outOfBounds, s1) := by
  obtain ⟨hs, _⟩ := Load_Save hdr w hfit
  rw [hs] at hsave
  simp only [Except.ok.injEq] at hsave
  subst hsave
  obtain ⟨hin, hout, hnames, hlen, hcheck, hmem⟩ := hfit
  have hfull := LoadPos_savedImage hdr w s hin hout hnames hlen hcheck hmem
  cases h : s.LoadPos hdr ((savedImage hdr w).take n) with
  | error e =>
    have he := LoadPos_error hdr s _ e h
    refine ⟨e.2, ?_⟩
    simp only [CrossRoutingContextReader.Load, h]
    rw [← he]
  | ok v =>
    obtain ⟨s1, p⟩ := v
    obtain ⟨h1, h2⟩ := LoadPos_within hdr _ _ _ (ReadsWithin_take (savedImage hdr w) n) s s1 p h
    rw [hfull] at h1
    simp only [Except.ok.injEq, Prod.mk.injEq] at h1
    simp only [List.length_take] at h2
    omega

/-- Instance of the amended C10: the scenario's 93 bytes cut after 80. -/
theorem truncated_rejected_witness :
    ∃ s1, CrossRoutingContextReader.fresh.Load gridHeader
      ((savedImage gridHeader scenarioWriter).take 80) = .error (.outOfBounds, s1) :=
  truncated_rejected gridHeader scenarioWriter (savedImage gridHeader scenarioWriter) 80
    CrossRoutingContextReader.fresh (by decide) (Load_Save gridHeader scenarioWriter (by decide)).1
    (by decide)

/-- C12: the encoding of an ingoing node is its id field followed by the eight
bytes of the packed point, with no padding; when it sits at offset `pos` of a
source, `Load` at `pos` with index `k` yields the same id, the point
`unpack (pack point)` and adjacency index `k`, and returns
`pos + sizeof(id) + 8`.  The encoding of an outgoing node has the four bytes of
the neighbour index after these, and `Load` yields also the same neighbour index
and returns `pos + sizeof(id) + 8 + 4`.  The id and the neighbour index are
values of their field types. -/
theorem node_codec_roundtrip (hdr : Header P) (pre post : List Byte) (k : Nat) :
    (∀ n : IngoingCrossNode P, n.m_nodeId < 256 ^ hdr.nodeIdBytes →
      (∀ sink, n.Save hdr sink = sink ++ (toBytes hdr.nodeIdBytes n.m_nodeId ++
        toBytes 8 (packedPoint hdr n.m_point))) ∧
      IngoingCrossNode.Load hdr (pre ++ (n.Save hdr [] ++ post)) pre.length k =
        some ({ m_nodeId := n.m_nodeId
                m_point := hdr.Int64ToPoint (packedPoint hdr n.m_point)
                m_adjacencyIndex := k }, pre.length + hdr.nodeIdBytes + 8)) ∧
    (∀ n : OutgoingCrossNode P, n.m_nodeId < 256 ^ hdr.nodeIdBytes →
      n.m_outgoingIndex < 2 ^ 32 →
      (∀ sink, n.Save hdr sink = sink ++ (toBytes hdr.nodeIdBytes n.m_nodeId ++
        toBytes 8 (packedPoint hdr n.m_point) ++ toBytes 4 n.m_outgoingIndex)) ∧
      OutgoingCrossNode.Load hdr (pre ++ (n.Save hdr [] ++ post)) pre.length k =
        some ({ m_nodeId := n.m_nodeId
                m_point := hdr.Int64ToPoint (packedPoint hdr n.m_point)
                m_outgoingIndex := n.m_outgoingIndex
                m_adjacencyIndex := k }, pre.length + hdr.nodeIdBytes + 8 + 4)) := by
  constructor
  · intro n hid
    refine ⟨fun sink => rfl, ?_⟩
    rw [ingoing_Load_at hdr n pre post _ pre.length k rfl rfl]
    simp only [IngoingCrossNode.reloaded, Nat.mod_eq_of_lt hid, Nat.add_assoc]
  · intro n hid hidx
    refine ⟨fun sink => rfl, ?_⟩
    rw [outgoing_Load_at hdr n pre post _ pre.length k rfl rfl]
    simp only [OutgoingCrossNode.reloaded, Nat.mod_eq_of_lt hid, Nat.mod_eq_of_lt hidx,
      Nat.add_assoc, outgoingIndexBytes]

/-- Instance of C12: nodes A and D of the scenario, placed after three bytes. -/
theorem node_codec_roundtrip_witness :
    ((∀ sink, nodeA.Save gridHeader sink = sink ++ (toBytes gridHeader.nodeIdBytes nodeA.m_nodeId ++
        toBytes 8 (packedPoint gridHeader nodeA.m_point))) ∧
      IngoingCrossNode.Load gridHeader ([1, 2, 3] ++ (nodeA.Save gridHeader [] ++ [9]))
          [1, 2, 3].length 5 =
        some ({ m_nodeId := nodeA.m_nodeId
                m_point := gridHeader.Int64ToPoint (packedPoint gridHeader nodeA.m_point)
                m_adjacencyIndex := 5 }, [1, 2, 3].length + gridHeader.nodeIdBytes + 8)) ∧
    ((∀ sink, nodeD.Save gridHeader sink = sink ++ (toBytes gridHeader.nodeIdBytes nodeD.m_nodeId ++
        toBytes 8 (packedPoint gridHeader nodeD.m_point) ++ toBytes 4 nodeD.m_outgoingIndex)) ∧
      OutgoingCrossNode.Load gridHeader ([1, 2, 3] ++ (nodeD.Save gridHeader [] ++ [9]))
          [1, 2, 3].length 5 =
        some ({ m_nodeId := nodeD.m_nodeId
                m_point := gridHeader.Int64ToPoint (packedPoint gridHeader nodeD.m_point)
                m_outgoingIndex := nodeD.m_outgoingIndex
                m_adjacencyIndex := 5 }, [1, 2, 3].length + gridHeader.nodeIdBytes + 8 + 4)) :=
  have h := node_codec_roundtrip gridHeader [1, 2, 3] [9] 5
  ⟨h.1 nodeA (by decide), h.2 nodeD (by decide) (by decide)⟩

/-- C18: on a writer whose matrix has one cell per pair of nodes,
`SetAdjacencyCost` on nodes with adjacency indices `i` and `j` within the counts
succeeds, leaves `value` in the cell of `(i, j)`, leaves the cell of every other
valid pair as it was (the flat index is injective on valid pairs), and leaves
the nodes, the names and the matrix length unchanged. -/
theorem SetAdjacencyCost_one_cell (w : CrossRoutingContextWriter P)
    (ingoing : IngoingCrossNode P) (outgoing : OutgoingCrossNode P) (value : Nat)
    (hlen : w.m_adjacencyMatrix.length = w.m_ingoingNodes.length * w.m_outgoingNodes.length)
    (hvec : w.m_adjacencyMatrix.length < 2 ^ 64)
    (hi : ingoing.m_adjacencyIndex < w.m_ingoingNodes.length)
    (hj : outgoing.m_adjacencyIndex < w.m_outgoingNodes.length) :
    ∃ w1, w.SetAdjacencyCost ingoing outgoing value = .ok w1 ∧
      w1.m_adjacencyMatrix[w.m_outgoingNodes.length * ingoing.m_adjacencyIndex +
        outgoing.m_adjacencyIndex]? = some value ∧
      (∀ i j, i < w.m_ingoingNodes.length → j < w.m_outgoingNodes.length →
        ¬ (i = ingoing.m_adjacencyIndex ∧ j = outgoing.m_adjacencyIndex) →
        w.m_outgoingNodes.length * i + j ≠
          w.m_outgoingNodes.length * ingoing.m_adjacencyIndex + outgoing.m_adjacencyIndex ∧
        w1.m_adjacencyMatrix[w.m_outgoingNodes.length * i + j]? =
          w.m_adjacencyMatrix[w.m_outgoingNodes.length * i + j]?) ∧
      w1.m_ingoingNodes = w.m_ingoingNodes ∧ w1.m_outgoingNodes = w.m_outgoingNodes ∧
      w1.m_neighborMwmList = w.m_neighborMwmList ∧
      w1.m_adjacencyMatrix.length = w.m_adjacencyMatrix.length := by
  have hflat := flat_lt _ _ _ _ hi hj
  have hidx : ((w.m_outgoingNodes.length * ingoing.m_adjacencyIndex) % 2 ^ 64 +
      outgoing.m_adjacencyIndex) % 2 ^ 64 =
      w.m_outgoingNodes.length * ingoing.m_adjacencyIndex + outgoing.m_adjacencyIndex := by
    rw [Nat.mod_add_mod]
    exact Nat.mod_eq_of_lt (by omega)
  refine ⟨{ w with m_adjacencyMatrix := (w.m_adjacencyMatrix.set
              (w.m_outgoingNodes.length * ingoing.m_adjacencyIndex +
                outgoing.m_adjacencyIndex) value) },
    ?_, ?_, ?_, rfl, rfl, rfl, ?_⟩
  · simp only [CrossRoutingContextWriter.SetAdjacencyCost, hidx]
    rw [if_pos (by omega)]
  · simp only [List.getElem?_set]
    rw [if_pos trivial, if_pos (by omega)]
  · intro i j hi2 hj2 hne
    have hne2 : ¬ (w.m_outgoingNodes.length * ingoing.m_adjacencyIndex +
        outgoing.m_adjacencyIndex = w.m_outgoingNodes.length * i + j) := by
      intro h
      have := (flat_inj _ _ _ _ _ hj hj2).1 h
      exact hne ⟨this.1.symm, this.2.symm⟩
    refine ⟨fun h => hne2 h.symm, ?_⟩
    simp only [List.getElem?_set]
    rw [if_neg hne2]
  · simp

/-- Instance of C18: setting cost(B,C) in the scenario's writer. -/
theorem SetAdjacencyCost_one_cell_witness :
    ∃ w1, scenarioWriter.SetAdjacencyCost nodeB nodeC 9 = .ok w1 ∧
      w1.m_adjacencyMatrix[scenarioWriter.m_outgoingNodes.length * nodeB.m_adjacencyIndex +
        nodeC.m_adjacencyIndex]? = some 9 ∧
      (∀ i j, i < scenarioWriter.m_ingoingNodes.length →
        j < scenarioWriter.m_outgoingNodes.length →
        ¬ (i = nodeB.m_adjacencyIndex ∧ j = nodeC.m_adjacencyIndex) →
        scenarioWriter.m_outgoingNodes.length * i + j ≠
          scenarioWriter.m_outgoingNodes.length * nodeB.m_adjacencyIndex +
            nodeC.m_adjacencyIndex ∧
        w1.m_adjacencyMatrix[scenarioWriter.m_outgoingNodes.length * i + j]? =
          scenarioWriter.m_adjacencyMatrix[scenarioWriter.m_outgoingNodes.length * i + j]?) ∧
      w1.m_ingoingNodes = scenarioWriter.m_ingoingNodes ∧
      w1.m_outgoingNodes = scenarioWriter.m_outgoingNodes ∧
      w1.m_neighborMwmList = scenarioWriter.m_neighborMwmList ∧
      w1.m_adjacencyMatrix.length = scenarioWriter.m_adjacencyMatrix.length :=
  SetAdjacencyCost_one_cell scenarioWriter nodeB nodeC 9 (by decide) (by decide) (by decide)
    (by decide)

/-- C19: `Save` of a node does not depend on its adjacency index: two ingoing
nodes with the same id and point, and two outgoing nodes with the same id, point
and neighbour index, are written as the same bytes; and two writers that are
equal once the adjacency indices of their nodes are erased produce the same
`Save` result on every sink. -/
theorem adjacencyIndex_not_persisted (hdr : Header P) :
    (∀ (n1 n2 : IngoingCrossNode P) (sink : List Byte), n1.m_nodeId = n2.m_nodeId →
      n1.m_point = n2.m_point → n1.Save hdr sink = n2.Save hdr sink) ∧
    (∀ (n1 n2 : OutgoingCrossNode P) (sink : List Byte), n1.m_nodeId = n2.m_nodeId →
      n1.m_point = n2.m_point → n1.m_outgoingIndex = n2.m_outgoingIndex →
      n1.Save hdr sink = n2.Save hdr sink) ∧
    (∀ (w1 w2 : CrossRoutingContextWriter P) (sink : List Byte),
      w1.m_ingoingNodes.map IngoingCrossNode.eraseIndex =
        w2.m_ingoingNodes.map IngoingCrossNode.eraseIndex →
      w1.m_outgoingNodes.map OutgoingCrossNode.eraseIndex =
        w2.m_outgoingNodes.map OutgoingCrossNode.eraseIndex →
      w1.m_adjacencyMatrix = w2.m_adjacencyMatrix →
      w1.m_neighborMwmList = w2.m_neighborMwmList →
      w1.Save hdr sink = w2.Save hdr sink) := by
  refine ⟨?_, ?_, ?_⟩
  · intro n1 n2 sink hid hp
    simp only [IngoingCrossNode.Save, hid, hp]
  · intro n1 n2 sink hid hp hx
    simp only [OutgoingCrossNode.Save, hid, hp, hx]
  · intro w1 w2 sink hi ho hm hn
    have hli : w1.m_ingoingNodes.length = w2.m_ingoingNodes.length := by
      simpa using congrArg List.length hi
    have hlo : w1.m_outgoingNodes.length = w2.m_outgoingNodes.length := by
      simpa using congrArg List.length ho
    have hii : ingoingImage hdr w1.m_ingoingNodes = ingoingImage hdr w2.m_ingoingNodes := by
      rw [← ingoingImage_eraseIndex, hi, ingoingImage_eraseIndex]
    have hoi : outgoingImage hdr w1.m_outgoingNodes = outgoingImage hdr w2.m_outgoingNodes := by
      rw [← outgoingImage_eraseIndex, ho, outgoingImage_eraseIndex]
    rw [Save_general, Save_general, hli, hlo, hii, hoi, hm, hn]

/-- Instance of C19: the scenario's writer and the same writer with other
adjacency indices in its nodes. -/
theorem adjacencyIndex_not_persisted_witness :
    (nodeA.Save gridHeader [] = { nodeA with m_adjacencyIndex := 7 }.Save gridHeader []) ∧
    (nodeC.Save gridHeader [] = { nodeC with m_adjacencyIndex := 9 }.Save gridHeader []) ∧
    scenarioWriter.Save gridHeader [] = scenarioWriterReindexed.Save gridHeader [] :=
  have h := adjacencyIndex_not_persisted gridHeader
  ⟨h.1 _ _ [] rfl rfl, h.2.1 _ _ [] rfl rfl rfl,
    h.2.2 scenarioWriter scenarioWriterReindexed [] (by decide) (by decide) rfl rfl⟩

/-- C14, as stated, fails: `ReserveAdjacencyMatrix` on the scenario's writer,
whose matrix is reserved and partly filled, leaves the costs 5 and 7 in place. -/
theorem ReserveAdjacencyMatrix_keeps_cells :
    (scenarioWriter.ReserveAdjacencyMatrix gridHeader).m_adjacencyMatrix =
        [5, 4294967295, 4294967295, 7] ∧
      INVALID_CONTEXT_EDGE_WEIGHT gridHeader = 4294967295 ∧
      (5 : Nat) ≠ INVALID_CONTEXT_EDGE_WEIGHT gridHeader := by
  decide

/-- C14, amended: after `ReserveAdjacencyMatrix` the matrix has as many cells as
the `size_t` product of the node counts, which is their product when that is
below 2^64; a cell at a position the matrix already had keeps its value and
every other cell holds the sentinel; so every cell holds the sentinel when the
matrix was empty before the call.  Nodes and names are untouched. -/
theorem ReserveAdjacencyMatrix_post (hdr : Header P) (w : CrossRoutingContextWriter P) :
    (w.ReserveAdjacencyMatrix hdr).m_adjacencyMatrix.length =
      (w.m_ingoingNodes.length * w.m_outgoingNodes.length) % 2 ^ 64 ∧
    (w.m_ingoingNodes.length * w.m_outgoingNodes.length < 2 ^ 64 →
      (w.ReserveAdjacencyMatrix hdr).m_adjacencyMatrix.length =
        w.m_ingoingNodes.length * w.m_outgoingNodes.length) ∧
    (∀ k, k < (w.ReserveAdjacencyMatrix hdr).m_adjacencyMatrix.length →
      (w.ReserveAdjacencyMatrix hdr).m_adjacencyMatrix[k]? =
        if k < w.m_adjacencyMatrix.length then w.m_adjacencyMatrix[k]?
        else some (INVALID_CONTEXT_EDGE_WEIGHT hdr)) ∧
    (w.m_adjacencyMatrix = [] →
      ∀ x ∈ (w.ReserveAdjacencyMatrix hdr).m_adjacencyMatrix,
        x = INVALID_CONTEXT_EDGE_WEIGHT hdr) ∧
    (w.ReserveAdjacencyMatrix hdr).m_ingoingNodes = w.m_ingoingNodes ∧
    (w.ReserveAdjacencyMatrix hdr).m_outgoingNodes = w.m_outgoingNodes ∧
    (w.ReserveAdjacencyMatrix hdr).m_neighborMwmList = w.m_neighborMwmList := by
  have hl : (w.ReserveAdjacencyMatrix hdr).m_adjacencyMatrix.length =
      (w.m_ingoingNodes.length * w.m_outgoingNodes.length) % 2 ^ 64 := by
    simp only [CrossRoutingContextWriter.ReserveAdjacencyMatrix, resize_length]
  refine ⟨hl, fun hfit => ?_, fun k hk => ?_, fun hempty x hx => ?_, rfl, rfl, rfl⟩
  · rw [hl, Nat.mod_eq_of_lt hfit]
  · rw [hl] at hk
    simp only [CrossRoutingContextWriter.ReserveAdjacencyMatrix]
    exact resize_get _ _ _ k hk
  · simp only [CrossRoutingContextWriter.ReserveAdjacencyMatrix, resize, hempty,
      List.take_nil, List.nil_append] at hx
    exact List.eq_of_mem_replicate hx

/-- Instance of C14 as amended: the writer with A and one outgoing node, whose
matrix is still empty. -/
theorem ReserveAdjacencyMatrix_post_witness :
    (writerUnreserved.ReserveAdjacencyMatrix gridHeader).m_adjacencyMatrix.length =
        writerUnreserved.m_ingoingNodes.length * writerUnreserved.m_outgoingNodes.length ∧
      ∀ x ∈ (writerUnreserved.ReserveAdjacencyMatrix gridHeader).m_adjacencyMatrix,
        x = INVALID_CONTEXT_EDGE_WEIGHT gridHeader :=
  have h := ReserveAdjacencyMatrix_post gridHeader writerUnreserved
  ⟨h.2.1 (by decide), h.2.2.2.1 (by decide)⟩

/-- C15, as stated, fails: the writer reached by adding A and one outgoing node
has an empty matrix although the product of its counts is 1. -/
theorem matrix_length_not_invariant :
    CrossRoutingContextWriter.calls gridHeader CrossRoutingContextWriter.empty
        [.addIngoing 10 (10, 10), .addOutgoing 20 tileX (30, 30)] = .ok writerUnreserved ∧
      writerUnreserved.m_adjacencyMatrix.length = 0 ∧
      writerUnreserved.m_ingoingNodes.length * writerUnreserved.m_outgoingNodes.length = 1 :=
  ⟨rfl, by decide, by decide⟩

/-- C15, amended: with the product of the node counts below 2^64, the matrix
length is that product in every writer reached from the empty writer by calls
among which no node is added after the last `ReserveAdjacencyMatrix`;
`ReserveAdjacencyMatrix` establishes this and `SetAdjacencyCost` keeps it, while
adding a node breaks it when the other kind's count is not zero. -/
theorem matrix_length_after_reserve (hdr : Header P) :
    (∀ (cs1 cs2 : List (Call P)) (w : CrossRoutingContextWriter P),
      CrossRoutingContextWriter.calls hdr CrossRoutingContextWriter.empty
        (cs1 ++ .reserve :: cs2) = .ok w →
      (∀ c ∈ cs2, c.isAdd = false) →
      w.m_ingoingNodes.length * w.m_outgoingNodes.length < 2 ^ 64 →
      w.m_adjacencyMatrix.length = w.m_ingoingNodes.length * w.m_outgoingNodes.length) ∧
    (∀ w : CrossRoutingContextWriter P,
      w.m_ingoingNodes.length * w.m_outgoingNodes.length < 2 ^ 64 →
      (w.ReserveAdjacencyMatrix hdr).m_adjacencyMatrix.length =
        (w.ReserveAdjacencyMatrix hdr).m_ingoingNodes.length *
          (w.ReserveAdjacencyMatrix hdr).m_outgoingNodes.length) ∧
    (∀ (w w1 : CrossRoutingContextWriter P) (ingoing : IngoingCrossNode P)
      (outgoing : OutgoingCrossNode P) (value : Nat),
      w.m_adjacencyMatrix.length = w.m_ingoingNodes.length * w.m_outgoingNodes.length →
      w.SetAdjacencyCost ingoing outgoing value = .ok w1 →
      w1.m_adjacencyMatrix.length = w1.m_ingoingNodes.length * w1.m_outgoingNodes.length) ∧
    (∀ (w : CrossRoutingContextWriter P) (nodeId : Nat) (point : P),
      w.m_adjacencyMatrix.length = w.m_ingoingNodes.length * w.m_outgoingNodes.length →
      0 < w.m_outgoingNodes.length →
      (w.AddIngoingNode nodeId point).m_adjacencyMatrix.length ≠
        (w.AddIngoingNode nodeId point).m_ingoingNodes.length *
          (w.AddIngoingNode nodeId point).m_outgoingNodes.length) ∧
    (∀ (w : CrossRoutingContextWriter P) (nodeId : Nat) (targetMwm : List Byte) (point : P),
      w.m_adjacencyMatrix.length = w.m_ingoingNodes.length * w.m_outgoingNodes.length →
      0 < w.m_ingoingNodes.length →
      (w.AddOutgoingNode nodeId targetMwm point).m_adjacencyMatrix.length ≠
        (w.AddOutgoingNode nodeId targetMwm point).m_ingoingNodes.length *
          (w.AddOutgoingNode nodeId targetMwm point).m_outgoingNodes.length) := by
  refine ⟨?_, ?_, ?_, ?_, ?_⟩
  · intro cs1 cs2 w h hno hfit
    rw [calls_reserved_length hdr cs1 cs2 w h hno, Nat.mod_eq_of_lt hfit]
  · intro w hfit
    simp only [CrossRoutingContextWriter.ReserveAdjacencyMatrix, resize_length]
    exact Nat.mod_eq_of_lt hfit
  · intro w w1 a b v hlen hs
    obtain ⟨h1, h2, _, h4⟩ := SetAdjacencyCost_ok w w1 a b v hs
    rw [h1, h2, h4]
    exact hlen
  · intro w nodeId point hlen hout
    simp only [CrossRoutingContextWriter.AddIngoingNode, List.length_append,
      List.length_singleton, hlen]
    intro h
    have : (w.m_ingoingNodes.length + 1) * w.m_outgoingNodes.length =
        w.m_ingoingNodes.length * w.m_outgoingNodes.length + w.m_outgoingNodes.length := by
      ring
    omega
  · intro w nodeId targetMwm point hlen hin
    simp only [CrossRoutingContextWriter.AddOutgoingNode, List.length_append,
      List.length_singleton, hlen]
    intro h
    have : w.m_ingoingNodes.length * (w.m_outgoingNodes.length + 1) =
        w.m_ingoingNodes.length * w.m_outgoingNodes.length + w.m_ingoingNodes.length := by
      ring
    omega

/-- Instance of C15 as amended: the scenario, where the reservation follows the
additions; one more cost setting; one more node. -/
theorem matrix_length_after_reserve_witness :
    scenarioWriter.m_adjacencyMatrix.length =
        scenarioWriter.m_ingoingNodes.length * scenarioWriter.m_outgoingNodes.length ∧
    (writerUnreserved.ReserveAdjacencyMatrix gridHeader).m_adjacencyMatrix.length =
        (writerUnreserved.ReserveAdjacencyMatrix gridHeader).m_ingoingNodes.length *
          (writerUnreserved.ReserveAdjacencyMatrix gridHeader).m_outgoingNodes.length ∧
    (∀ w1, scenarioWriter.SetAdjacencyCost nodeB nodeC 9 = .ok w1 →
      w1.m_adjacencyMatrix.length = w1.m_ingoingNodes.length * w1.m_outgoingNodes.length) ∧
    (scenarioWriter.AddIngoingNode 12 (50, 50)).m_adjacencyMatrix.length ≠
        (scenarioWriter.AddIngoingNode 12 (50, 50)).m_ingoingNodes.length *
          (scenarioWriter.AddIngoingNode 12 (50, 50)).m_outgoingNodes.length ∧
    (scenarioWriter.AddOutgoingNode 22 tileX (50, 50)).m_adjacencyMatrix.length ≠
        (scenarioWriter.AddOutgoingNode 22 tileX (50, 50)).m_ingoingNodes.length *
          (scenarioWriter.AddOutgoingNode 22 tileX (50, 50)).m_outgoingNodes.length :=
  have h := matrix_length_after_reserve gridHeader
  ⟨h.1 scenarioAdds scenarioSets scenarioWriter rfl (by decide) (by decide),
    h.2.1 writerUnreserved (by decide),
    fun w1 hs => h.2.2.1 scenarioWriter w1 nodeB nodeC 9 (by decide) hs,
    h.2.2.2.1 scenarioWriter 12 (50, 50) (by decide) (by decide),
    h.2.2.2.2 scenarioWriter 22 tileX (50, 50) (by decide) (by decide)⟩

/-- C13: for a writer that satisfies the precondition of `Save`, with counts and
name lengths below 2^32 and a matrix that fits in the address space, `Save`
appends to the sink exactly the layout of the specification; the count fields
read back as the counts; the length of what is appended is
`4 + in * (sizeof(id) + 8) + 4 + out * (sizeof(id) + 8 + 4) + in * out * sizeof(weight)
+ 4 + sum over names of (4 + length)`; and the weight of cell `(i, j)` sits at
weight position `out * i + j` of the matrix run. -/
theorem Save_layout (hdr : Header P) (w : CrossRoutingContextWriter P) (sink : List Byte)
    (hcheck : w.m_adjacencyMatrix.length = w.m_ingoingNodes.length * w.m_outgoingNodes.length)
    (hin : w.m_ingoingNodes.length < 2 ^ 32) (hout : w.m_outgoingNodes.length < 2 ^ 32)
    (hnames : w.m_neighborMwmList.length < 2 ^ 32)
    (hlen : ∀ n ∈ w.m_neighborMwmList, n.length < 2 ^ 32)
    (hmem : hdr.weightBytes * w.m_adjacencyMatrix.length < 2 ^ 64) :
    w.Save hdr sink = .ok (sink ++ contextLayout hdr w) ∧
    ofBytes (toBytes 4 w.m_ingoingNodes.length) = w.m_ingoingNodes.length ∧
    ofBytes (toBytes 4 w.m_outgoingNodes.length) = w.m_outgoingNodes.length ∧
    ofBytes (toBytes 4 w.m_neighborMwmList.length) = w.m_neighborMwmList.length ∧
    (contextLayout hdr w).length =
      4 + w.m_ingoingNodes.length * (hdr.nodeIdBytes + 8) + 4 +
        w.m_outgoingNodes.length * (hdr.nodeIdBytes + 8 + 4) +
        w.m_ingoingNodes.length * w.m_outgoingNodes.length * hdr.weightBytes + 4 +
        (w.m_neighborMwmList.map (fun name => 4 + name.length)).sum ∧
    (∀ i j, i < w.m_ingoingNodes.length → j < w.m_outgoingNodes.length →
      ∃ cell, w.m_adjacencyMatrix[w.m_outgoingNodes.length * i + j]? = some cell ∧
        ((contextLayout hdr w).drop
          (4 + w.m_ingoingNodes.length * (hdr.nodeIdBytes + 8) + 4 +
            w.m_outgoingNodes.length * (hdr.nodeIdBytes + 8 + 4) +
            hdr.weightBytes * (w.m_outgoingNodes.length * i + j))).take hdr.weightBytes =
          toBytes hdr.weightBytes cell) := by
  have hlt : w.m_outgoingNodes.length * w.m_ingoingNodes.length < 2 ^ 64 := by
    calc w.m_outgoingNodes.length * w.m_ingoingNodes.length
        < 2 ^ 32 * 2 ^ 32 := Nat.mul_lt_mul'' hout hin
      _ = 2 ^ 64 := by norm_num
  have heq := savedImage_eq_layout hdr w hin hout hnames hlen
  have hcount : ∀ n, n < 2 ^ 32 → ofBytes (toBytes 4 n) = n := by
    intro n hn
    rw [ofBytes_toBytes]
    exact Nat.mod_eq_of_lt (by omega)
  refine ⟨?_, hcount _ hin, hcount _ hout, hcount _ hnames, ?_, ?_⟩
  · rw [← heq]
    exact Save_ok hdr w sink (by rw [Nat.mod_eq_of_lt hlt, hcheck, Nat.mul_comm]) hmem
  · rw [← heq]
    simp only [savedImage, List.length_append, toBytes_length, ingoingImage_length,
      outgoingImage_length, weightsToBytes_length, namesImage_length, hcheck,
      outgoingIndexBytes]
    ring
  · intro i j hi hj
    have hflat := flat_lt _ _ i j hi hj
    have hk : w.m_outgoingNodes.length * i + j < w.m_adjacencyMatrix.length := by omega
    refine ⟨_, List.getElem?_eq_getElem hk, ?_⟩
    have hcell := weightsToBytes_cell hdr.weightBytes w.m_adjacencyMatrix _ _
      (List.getElem?_eq_getElem hk)
    have hpre : (toBytes 4 (w.m_ingoingNodes.length % 2 ^ 32) ++
        ingoingImage hdr w.m_ingoingNodes ++ toBytes 4 (w.m_outgoingNodes.length % 2 ^ 32) ++
        outgoingImage hdr w.m_outgoingNodes).length =
        4 + w.m_ingoingNodes.length * (hdr.nodeIdBytes + 8) + 4 +
          w.m_outgoingNodes.length * (hdr.nodeIdBytes + 8 + 4) := by
      simp only [List.length_append, toBytes_length, ingoingImage_length,
        outgoingImage_length, outgoingIndexBytes]
    have hsplit : savedImage hdr w =
        (toBytes 4 (w.m_ingoingNodes.length % 2 ^ 32) ++
          ingoingImage hdr w.m_ingoingNodes ++ toBytes 4 (w.m_outgoingNodes.length % 2 ^ 32) ++
          outgoingImage hdr w.m_outgoingNodes) ++
        (weightsToBytes hdr.weightBytes w.m_adjacencyMatrix ++
          (toBytes 4 (w.m_neighborMwmList.length % 2 ^ 32) ++
            namesImage w.m_neighborMwmList)) := by
      simp only [savedImage, List.append_assoc]
    have hrun : hdr.weightBytes * (w.m_outgoingNodes.length * i + j) + hdr.weightBytes ≤
        (weightsToBytes hdr.weightBytes w.m_adjacencyMatrix).length := by
      rw [weightsToBytes_length]
      calc hdr.weightBytes * (w.m_outgoingNodes.length * i + j) + hdr.weightBytes
          = hdr.weightBytes * (w.m_outgoingNodes.length * i + j + 1) := by ring
        _ ≤ hdr.weightBytes * w.m_adjacencyMatrix.length := Nat.mul_le_mul_left _ hk
    rw [← heq, hsplit, ← hpre, ← List.drop_drop, List.drop_left,
      List.drop_append_of_le_length (by omega),
      List.take_append_of_le_length (by rw [List.length_drop]; omega)]
    exact hcell

/-- Instance of C13: the scenario's writer and its 93 bytes. -/
theorem Save_layout_witness :
    scenarioWriter.Save gridHeader [] = .ok ([] ++ contextLayout gridHeader scenarioWriter) ∧
    (contextLayout gridHeader scenarioWriter).length = 93 ∧
    (contextLayout gridHeader scenarioWriter).length =
      4 + scenarioWriter.m_ingoingNodes.length * (gridHeader.nodeIdBytes + 8) + 4 +
        scenarioWriter.m_outgoingNodes.length * (gridHeader.nodeIdBytes + 8 + 4) +
        scenarioWriter.m_ingoingNodes.length * scenarioWriter.m_outgoingNodes.length *
          gridHeader.weightBytes + 4 +
        (scenarioWriter.m_neighborMwmList.map (fun name => 4 + name.length)).sum :=
  have h := Save_layout gridHeader scenarioWriter [] (by decide) (by decide) (by decide)
    (by decide) (by decide) (by decide)
  ⟨h.1, by decide, h.2.2.2.2.1⟩

/-- C20, as stated, fails: the reader loaded from the scenario's bytes has two
outgoing nodes and a matrix of 2 * 2 cells; asked for the cost from A to an
outgoing node whose adjacency index is 3, it answers 7, the stored cost of the
pair (B, D), and not the sentinel. -/
theorem GetAdjacencyCost_stray_column :
    CrossRoutingContextReader.fresh.Load gridHeader (savedImage gridHeader scenarioWriter) =
      .ok scenarioReader ∧
    scenarioReader.m_adjacencyMatrix.length =
      scenarioReader.m_ingoingIndex.length * scenarioReader.m_outgoingNodes.length ∧
    scenarioReader.m_outgoingNodes.length ≤ strayOutgoing.m_adjacencyIndex ∧
    scenarioReader.GetAdjacencyCost gridHeader nodeA strayOutgoing = some 7 ∧
    scenarioReader.GetAdjacencyCost gridHeader nodeA strayOutgoing ≠
      some (INVALID_CONTEXT_EDGE_WEIGHT gridHeader) ∧
    scenarioReader.GetAdjacencyCost gridHeader scenarioNodeB nodeD = some 7 :=
  ⟨rfl, by decide, by decide, by decide, by decide, by decide⟩

/-- C20, amended: a reader produced by a successful `Load` into a fresh reader
has a matrix of `ingoingCount * outgoingCount` cells.  For a pair of nodes whose
row index is out of range, `ingoingCount ≤ ingoing.adjacencyIndex`, and whose
flat index `outgoingCount * row + column` is below 2^64, `GetAdjacencyCost`
returns the sentinel.  A column index out of range is not rejected by itself:
when neither index is `kInvalidAdjacencyIndex` and the flat index is below
`ingoingCount * outgoingCount`, the answer is the stored cell at that flat
index, which is the cell of the valid pair `(flat / outgoingCount,
flat % outgoingCount)`. -/
theorem GetAdjacencyCost_out_of_range (hdr : Header P) (bytes : List Byte)
    (r : CrossRoutingContextReader P)
    (hload : CrossRoutingContextReader.fresh.Load hdr bytes = .ok r)
    (ingoing : IngoingCrossNode P) (outgoing : OutgoingCrossNode P) :
    r.m_adjacencyMatrix.length = r.m_ingoingIndex.length * r.m_outgoingNodes.length ∧
    (r.m_ingoingIndex.length ≤ ingoing.m_adjacencyIndex →
      r.m_outgoingNodes.length * ingoing.m_adjacencyIndex + outgoing.m_adjacencyIndex < 2 ^ 64 →
      r.GetAdjacencyCost hdr ingoing outgoing = some (INVALID_CONTEXT_EDGE_WEIGHT hdr)) ∧
    (ingoing.m_adjacencyIndex ≠ hdr.kInvalidAdjacencyIndex →
      outgoing.m_adjacencyIndex ≠ hdr.kInvalidAdjacencyIndex →
      r.m_outgoingNodes.length * ingoing.m_adjacencyIndex + outgoing.m_adjacencyIndex <
        r.m_ingoingIndex.length * r.m_outgoingNodes.length →
      ∃ cell, r.GetAdjacencyCost hdr ingoing outgoing = some cell ∧
        r.m_adjacencyMatrix[r.m_outgoingNodes.length *
          ((r.m_outgoingNodes.length * ingoing.m_adjacencyIndex + outgoing.m_adjacencyIndex) /
            r.m_outgoingNodes.length) +
          (r.m_outgoingNodes.length * ingoing.m_adjacencyIndex + outgoing.m_adjacencyIndex) %
            r.m_outgoingNodes.length]? = some cell ∧
        (r.m_outgoingNodes.length * ingoing.m_adjacencyIndex + outgoing.m_adjacencyIndex) /
          r.m_outgoingNodes.length < r.m_ingoingIndex.length ∧
        (r.m_outgoingNodes.length * ingoing.m_adjacencyIndex + outgoing.m_adjacencyIndex) %
          r.m_outgoingNodes.length < r.m_outgoingNodes.length) := by
  obtain ⟨hlen, hin, hout⟩ := Load_matrix_length hdr bytes r hload
  refine ⟨hlen, ?_, ?_⟩
  · intro hrow hwrap
    simp only [CrossRoutingContextReader.GetAdjacencyCost]
    split
    · rfl
    · have hle : r.m_outgoingNodes.length * ingoing.m_adjacencyIndex < 2 ^ 64 := by omega
      rw [Nat.mod_eq_of_lt hle, Nat.mod_eq_of_lt hwrap, hlen]
      have hge : r.m_ingoingIndex.length * r.m_outgoingNodes.length ≤
          r.m_outgoingNodes.length * ingoing.m_adjacencyIndex := by
        rw [Nat.mul_comm]
        exact Nat.mul_le_mul_left _ hrow
      rw [if_neg (by omega)]
  · intro ha hb hflat
    have hprod : r.m_ingoingIndex.length * r.m_outgoingNodes.length < 2 ^ 64 := by
      calc r.m_ingoingIndex.length * r.m_outgoingNodes.length
          < 2 ^ 32 * 2 ^ 32 := Nat.mul_lt_mul'' hin hout
        _ = 2 ^ 64 := by norm_num
    have hpos : 0 < r.m_outgoingNodes.length := by
      rcases Nat.eq_zero_or_pos r.m_outgoingNodes.length with h0 | h0
      · rw [h0] at hflat
        simp at hflat
      · exact h0
    have hk : r.m_outgoingNodes.length * ingoing.m_adjacencyIndex +
        outgoing.m_adjacencyIndex < r.m_adjacencyMatrix.length := by omega
    refine ⟨r.m_adjacencyMatrix[r.m_outgoingNodes.length * ingoing.m_adjacencyIndex +
      outgoing.m_adjacencyIndex], ?_, ?_, ?_, Nat.mod_lt _ hpos⟩
    · simp only [CrossRoutingContextReader.GetAdjacencyCost]
      rw [if_neg (by simp only [not_or]; exact ⟨ha, hb⟩)]
      have hle : r.m_outgoingNodes.length * ingoing.m_adjacencyIndex < 2 ^ 64 := by omega
      simp only [Nat.mod_eq_of_lt hle]
      rw [Nat.mod_eq_of_lt (by omega), if_pos hk]
      exact List.getElem?_eq_getElem hk
    · simp only [Nat.div_add_mod]
      exact List.getElem?_eq_getElem hk
    · apply Nat.div_lt_of_lt_mul
      rw [Nat.mul_comm r.m_outgoingNodes.length r.m_ingoingIndex.length]
      exact hflat

/-- Instance of the amended C20: in the scenario's reader, row 2 is answered with
the sentinel and column 3 of row 0 with the cell of the pair (1, 1). -/
theorem GetAdjacencyCost_out_of_range_witness :
    scenarioReader.GetAdjacencyCost gridHeader strayIngoing nodeC =
      some (INVALID_CONTEXT_EDGE_WEIGHT gridHeader) ∧
    ∃ cell, scenarioReader.GetAdjacencyCost gridHeader nodeA strayOutgoing = some cell :=
  have h := GetAdjacencyCost_out_of_range gridHeader (savedImage gridHeader scenarioWriter)
    scenarioReader rfl
  ⟨(h strayIngoing nodeC).2.1 (by decide) (by decide),
    match (h nodeA strayOutgoing).2.2 (by decide) (by decide) (by decide) with
    | ⟨cell, hc, _⟩ => ⟨cell, hc⟩⟩

/-- C3: in every writer reached from the empty writer, however the calls of the
two kinds are interleaved, the node at position N of the ingoing nodes is the
N-th node passed to `AddIngoingNode` (its id, its point) with
`m_adjacencyIndex = N`, and the node at position N of the outgoing nodes is the
N-th node passed to `AddOutgoingNode` with `m_adjacencyIndex = N`; there is no
node at a position no call filled.  After `Save` followed by `Load` of the
saved bytes into a fresh reader, the N-th ingoing and the N-th outgoing node
decoded have `m_adjacencyIndex = N`.  This holds with no condition on the
context; in addition, when the format narrows nothing, `Save` and `Load` do
succeed and decode one node per call. -/
theorem adjacencyIndex_deterministic (hdr : Header P) (cs : List (Call P))
    (w : CrossRoutingContextWriter P)
    (hcalls : CrossRoutingContextWriter.calls hdr CrossRoutingContextWriter.empty cs = .ok w) :
    (∀ N : Nat, w.m_ingoingNodes[N]? =
      (addedIngoing cs)[N]?.map
        (fun a => { m_point := a.2, m_nodeId := a.1, m_adjacencyIndex := N })) ∧
    (∀ N : Nat, w.m_outgoingNodes[N]?.map (fun n => (n.m_nodeId, n.m_point, n.m_adjacencyIndex)) =
      (addedOutgoing cs)[N]?.map (fun a => (a.1, a.2, N))) ∧
    (∀ (bytes : List Byte) (r : CrossRoutingContextReader P),
      w.Save hdr [] = .ok bytes → CrossRoutingContextReader.fresh.Load hdr bytes = .ok r →
      (∀ (N : Nat) (n : IngoingCrossNode P), r.m_ingoingIndex[N]? = some n →
        n.m_adjacencyIndex = N) ∧
      (∀ (N : Nat) (n : OutgoingCrossNode P), r.m_outgoingNodes[N]? = some n →
        n.m_adjacencyIndex = N)) ∧
    (FitsFormat hdr w → ∃ bytes r, w.Save hdr [] = .ok bytes ∧
      CrossRoutingContextReader.fresh.Load hdr bytes = .ok r ∧
      r.m_ingoingIndex.length = (addedIngoing cs).length ∧
      r.m_outgoingNodes.length = (addedOutgoing cs).length) := by
  obtain ⟨hi, ho, _, _, _⟩ := calls_state hdr w cs hcalls
  obtain ⟨hai, hao⟩ := calls_added hdr cs w hcalls
  refine ⟨fun N => ?_, fun N => ?_, fun bytes r _ hl => ⟨fun N n h => ?_, fun N n h => ?_⟩,
    fun hfit => ?_⟩
  · have hmap := congrArg (fun l => l[N]?) hai
    simp only [List.getElem?_map] at hmap
    cases hn : w.m_ingoingNodes[N]? with
    | none =>
      rw [hn] at hmap
      rw [← hmap]
      rfl
    | some n =>
      rw [hn] at hmap
      rw [← hmap]
      have hidx : n.m_adjacencyIndex = N := by
        simpa using IndexedFrom_get _ 0 _ hi N n hn
      simp only [Option.map_some', Option.some.injEq]
      rw [← hidx]
  · have hmap := congrArg (fun l => l[N]?) hao
    simp only [List.getElem?_map] at hmap
    cases hn : w.m_outgoingNodes[N]? with
    | none =>
      rw [hn] at hmap
      rw [← hmap]
      rfl
    | some n =>
      rw [hn] at hmap
      rw [← hmap]
      have hidx : n.m_adjacencyIndex = N := by
        simpa using IndexedFrom_get _ 0 _ ho N n hn
      simp only [Option.map_some', Option.some.injEq, Prod.mk.injEq, true_and]
      exact hidx
  · simpa using IndexedFrom_get _ 0 _ (Load_indexed hdr bytes r hl).1 N n h
  · simpa using IndexedFrom_get _ 0 _ (Load_indexed hdr bytes r hl).2 N n h
  · obtain ⟨hs, hl⟩ := Load_Save hdr w hfit
    refine ⟨_, _, hs, hl, ?_, ?_⟩
    · rw [← hai]
      simp [reloadedContext, CrossRoutingContextReader.fresh, reloadedIngoing_length]
    · rw [← hao]
      simp [reloadedContext, reloadedOutgoing_length]

/-- Instance of C3: the scenario with the additions of the two kinds
interleaved (C, A, D, B), which gives the scenario's writer; before and after
the round trip. -/
theorem adjacencyIndex_deterministic_witness :
    scenarioWriter.m_ingoingNodes[1]? =
      some { m_point := (20, 20), m_nodeId := 11, m_adjacencyIndex := 1 } ∧
    scenarioWriter.m_outgoingNodes[1]?.map (fun n => (n.m_nodeId, n.m_point, n.m_adjacencyIndex)) =
      some (21, (40, 40), 1) ∧
    ∃ bytes r, scenarioWriter.Save gridHeader [] = .ok bytes ∧
      CrossRoutingContextReader.fresh.Load gridHeader bytes = .ok r ∧
      r.m_ingoingIndex.length = (addedIngoing interleavedCalls).length ∧
      r.m_outgoingNodes.length = (addedOutgoing interleavedCalls).length ∧
      (∀ (N : Nat) (n : IngoingCrossNode (Nat × Nat)), r.m_ingoingIndex[N]? = some n →
        n.m_adjacencyIndex = N) ∧
      (∀ (N : Nat) (n : OutgoingCrossNode (Nat × Nat)), r.m_outgoingNodes[N]? = some n →
        n.m_adjacencyIndex = N) :=
  have h := adjacencyIndex_deterministic gridHeader interleavedCalls scenarioWriter rfl
  ⟨h.1 1, h.2.1 1,
    match h.2.2.2 (by decide) with
    | ⟨bytes, r, hs, hl, h1, h2⟩ =>
      ⟨bytes, r, hs, hl, h1, h2, (h.2.2.1 bytes r hs hl).1, (h.2.2.1 bytes r hs hl).2⟩⟩

/-- C2, amended: for a context built by well-typed additions with node counts
below 2^32, then `ReserveAdjacencyMatrix`, then cost settings on its own nodes,
with `kInvalidAdjacencyIndex` not below 2^32: the calls and `Save` succeed;
`Load` of the saved bytes into a fresh reader succeeds when every name passed is
shorter than 2^32 bytes; and whenever it succeeds the reader has one ingoing and
one outgoing node per addition, and `GetAdjacencyCost` on its i-th ingoing and
j-th outgoing node returns the value of the last `SetAdjacencyCost` call made
for the pair (i, j), the sentinel when there was none. -/
theorem adjacency_cost_roundtrip (hdr : Header P) (adds sets : List (Call P))
    (hadds : ∀ c ∈ adds, c.isAdd = true)
    (hsets : ∀ c ∈ sets, c.isSetWithin (ingoingCount adds) (outgoingCount adds) = true)
    (htyped : ∀ c ∈ adds ++ sets, c.wellTyped hdr = true)
    (hin : ingoingCount adds < 2 ^ 32) (hout : outgoingCount adds < 2 ^ 32)
    (hmem : hdr.weightBytes * (ingoingCount adds * outgoingCount adds) < 2 ^ 64)
    (hk : 2 ^ 32 ≤ hdr.kInvalidAdjacencyIndex) :
    ∃ w bytes,
      CrossRoutingContextWriter.calls hdr CrossRoutingContextWriter.empty
        (adds ++ .reserve :: sets) = .ok w ∧
      w.Save hdr [] = .ok bytes ∧
      ((∀ name ∈ passedNames adds, name.length < 2 ^ 32) →
        ∃ r, CrossRoutingContextReader.fresh.Load hdr bytes = .ok r) ∧
      ∀ r, CrossRoutingContextReader.fresh.Load hdr bytes = .ok r →
        r.m_ingoingIndex.length = ingoingCount adds ∧
        r.m_outgoingNodes.length = outgoingCount adds ∧
        ∀ (i j : Nat) (ingoing : IngoingCrossNode P) (outgoing : OutgoingCrossNode P),
          r.m_ingoingIndex[i]? = some ingoing → r.m_outgoingNodes[j]? = some outgoing →
          r.GetAdjacencyCost hdr ingoing outgoing = some (expectedCost hdr i j sets) := by
  simp only [outgoingCount] at hsets hout hmem ⊢
  have hlt : ingoingCount adds * (passedNames adds).length < 2 ^ 64 := by
    calc ingoingCount adds * (passedNames adds).length
        < 2 ^ 32 * 2 ^ 32 := Nat.mul_lt_mul'' hin hout
      _ = 2 ^ 64 := by norm_num
  obtain ⟨w, hw, hci, hco, hmlen, hnm, hcell⟩ := calls_build_nowrap hdr adds sets hadds hsets hlt
  obtain ⟨hi, ho, hx, hle, _⟩ := calls_state hdr w _ hw
  obtain ⟨hti, hto, htm⟩ := calls_typed hdr w _ (wellTyped_build hdr adds sets htyped) hw
  have hin1 : w.m_ingoingNodes.length < 2 ^ 32 := by rw [hci]; exact hin
  have hout1 : w.m_outgoingNodes.length < 2 ^ 32 := by rw [hco]; exact hout
  have hnames1 : w.m_neighborMwmList.length < 2 ^ 32 := by omega
  have hcheck : w.m_adjacencyMatrix.length =
      w.m_ingoingNodes.length * w.m_outgoingNodes.length := by rw [hmlen, hci, hco]
  have hmem1 : hdr.weightBytes * w.m_adjacencyMatrix.length < 2 ^ 64 := by
    rw [hmlen]
    exact hmem
  have hsave : w.Save hdr [] = .ok (savedImage hdr w) := by
    have := Save_ok hdr w [] (by
      rw [hcheck, Nat.mul_comm]
      exact (Nat.mod_eq_of_lt (by rw [hco, hci, Nat.mul_comm]; exact hlt)).symm) hmem1
    rw [List.nil_append] at this
    exact this
  refine ⟨w, _, hw, hsave, ?_, ?_⟩
  · intro hlen
    exact ⟨_, (Load_Save hdr w ⟨hin1, hout1, hnames1, fun n hn => hlen n (hnm n hn), hcheck,
      hmem1⟩).2⟩
  intro r hr
  obtain ⟨hri, hro, hrm⟩ := Load_savedImage_ok hdr w hin1 hout1 hnames1 hcheck hmem1 r hr
  rw [reloadedIngoing_typed hdr 0 _ hi hti] at hri
  rw [reloadedOutgoing_typed hdr 0 _ ho hto (fun n hn => by have := hx n hn; omega)] at hro
  rw [map_mod_typed _ _ htm] at hrm
  refine ⟨by rw [hri, List.length_map, hci], by rw [hro, List.length_map, hco], ?_⟩
  intro i j a b ha hb
  rw [hri] at ha
  rw [hro] at hb
  simp only [List.getElem?_map] at ha hb
  cases hwa : w.m_ingoingNodes[i]? with
  | none => rw [hwa] at ha; cases ha
  | some a0 =>
    cases hwb : w.m_outgoingNodes[j]? with
    | none => rw [hwb] at hb; cases hb
    | some b0 =>
      rw [hwa] at ha
      rw [hwb] at hb
      simp only [Option.map_some', Option.some.injEq] at ha hb
      have hilt : i < ingoingCount adds := by
        rw [← hci]
        by_contra hcon
        rw [List.getElem?_eq_none (by omega)] at hwa
        cases hwa
      have hjlt : j < (passedNames adds).length := by
        rw [← hco]
        by_contra hcon
        rw [List.getElem?_eq_none (by omega)] at hwb
        cases hwb
      have ea : a.m_adjacencyIndex = i := by
        have := IndexedFrom_get _ 0 _ hi i a0 hwa
        rw [← ha]
        simpa [IngoingCrossNode.requantized] using this
      have eb : b.m_adjacencyIndex = j := by
        have := IndexedFrom_get _ 0 _ ho j b0 hwb
        rw [← hb]
        simpa [OutgoingCrossNode.requantized] using this
      have hflat := flat_lt _ _ i j hilt hjlt
      simp only [CrossRoutingContextReader.GetAdjacencyCost, ea, eb, hro, hrm, List.length_map,
        hco, hmlen]
      rw [if_neg (by omega), Nat.mod_add_mod, Nat.mod_eq_of_lt (by omega),
        if_pos (by omega)]
      exact hcell i j hilt hjlt

/-- Instance of the amended C2: the scenario of the specification, where
cost(A,C) = 5, cost(B,D) = 7 and the two other pairs get the sentinel. -/
theorem adjacency_cost_roundtrip_witness :
    (∃ w bytes r,
      CrossRoutingContextWriter.calls gridHeader CrossRoutingContextWriter.empty
        (scenarioAdds ++ .reserve :: scenarioSets) = .ok w ∧
      w.Save gridHeader [] = .ok bytes ∧
      CrossRoutingContextReader.fresh.Load gridHeader bytes = .ok r ∧
      r.m_ingoingIndex.length = ingoingCount scenarioAdds ∧
      r.m_outgoingNodes.length = outgoingCount scenarioAdds ∧
      ∀ (i j : Nat) (ingoing : IngoingCrossNode (Nat × Nat))
        (outgoing : OutgoingCrossNode (Nat × Nat)),
        r.m_ingoingIndex[i]? = some ingoing → r.m_outgoingNodes[j]? = some outgoing →
        r.GetAdjacencyCost gridHeader ingoing outgoing =
          some (expectedCost gridHeader i j scenarioSets)) ∧
    expectedCost gridHeader 0 0 scenarioSets = 5 ∧
    expectedCost gridHeader 1 1 scenarioSets = 7 ∧
    expectedCost gridHeader 0 1 scenarioSets = INVALID_CONTEXT_EDGE_WEIGHT gridHeader ∧
    expectedCost gridHeader 1 0 scenarioSets = INVALID_CONTEXT_EDGE_WEIGHT gridHeader :=
  ⟨match adjacency_cost_roundtrip gridHeader scenarioAdds scenarioSets (by decide) (by decide)
      (by decide) (by decide) (by decide) (by decide) (by decide) with
    | ⟨w, bytes, hc, hs, hload, hall⟩ =>
      match hload (by decide) with
      | ⟨r, hr⟩ => ⟨w, bytes, r, hc, hs, hr, (hall r hr).1, (hall r hr).2.1, (hall r hr).2.2⟩,
    by decide, by decide, by decide, by decide⟩

/-- C5, as stated, fails.  The writer with one outgoing node towards a neighbour
whose name has 2^32 bytes holds one name; `Save` succeeds and writes the length
field 0; `Load` of the saved bytes into a fresh reader succeeds, and
`GetOutgoingMwmName` on the loaded node returns the empty string, not the name
passed.  And the context with 2^32 ingoing nodes and one outgoing node is saved
with an ingoing count field of 0: `Load` succeeds and the reader holds no
outgoing node at all. -/
theorem neighbor_name_lost :
    (CrossRoutingContextWriter.calls gridHeader CrossRoutingContextWriter.empty
        [.addOutgoing 20 longName (30, 30)] = .ok (oneNeighborWriter longName) ∧
      (oneNeighborWriter longName).m_neighborMwmList.length = 1 ∧
      (oneNeighborWriter longName).Save gridHeader [] =
        .ok (savedImage gridHeader (oneNeighborWriter longName)) ∧
      CrossRoutingContextReader.fresh.Load gridHeader
        (savedImage gridHeader (oneNeighborWriter longName)) = .ok emptyNameReader ∧
      emptyNameReader.m_outgoingNodes[0]? = some nodeC ∧
      emptyNameReader.GetOutgoingMwmName nodeC = .ok [] ∧
      (passedNames [Call.addOutgoing 20 longName ((30, 30) : Nat × Nat)])[0]? = some longName ∧
      longName ≠ []) ∧
    ∃ w, CrossRoutingContextWriter.calls gridHeader CrossRoutingContextWriter.empty
        (wideCalls (2 ^ 32)) = .ok w ∧
      w.Save gridHeader [] = .ok (savedImage gridHeader w) ∧
      CrossRoutingContextReader.fresh.Load gridHeader (savedImage gridHeader w) =
        .ok CrossRoutingContextReader.fresh ∧
      passedNames (wideCalls (2 ^ 32)) = [tileX] ∧
      (CrossRoutingContextReader.fresh :
        CrossRoutingContextReader (Nat × Nat)).m_outgoingNodes = [] :=
  ⟨⟨rfl, rfl, oneNeighbor_Save longName,
      (oneNeighbor_Load longName (by rw [longName_length]; norm_num)).1, rfl, rfl, rfl,
      fun h => by
        have := congrArg List.length h
        rw [longName_length] at this
        norm_num at this⟩,
    match wideCalls_Load (2 ^ 32) (by norm_num) (by norm_num) (by norm_num) with
    | ⟨w, hcalls, hsave, hload, _, _⟩ =>
      ⟨w, hcalls, hsave, hload, wideCalls_names (2 ^ 32), rfl⟩⟩

/-- C10, as stated, fails.  `Save` of the writer with one outgoing node towards
a neighbour whose name has 2^32 bytes succeeds and produces 32 + 2^32 bytes;
`Load` of their first 32 bytes, a strict prefix, succeeds.  And `Save` of the
context with 2^32 ingoing nodes succeeds, and `Load` of the first 12 bytes
produced, a strict prefix, succeeds. -/
theorem truncated_accepted :
    ((oneNeighborWriter longName).Save gridHeader [] =
        .ok (savedImage gridHeader (oneNeighborWriter longName)) ∧
      (savedImage gridHeader (oneNeighborWriter longName)).length = 32 + 2 ^ 32 ∧
      CrossRoutingContextReader.fresh.Load gridHeader
        ((savedImage gridHeader (oneNeighborWriter longName)).take 32) = .ok emptyNameReader) ∧
    ∃ w, CrossRoutingContextWriter.calls gridHeader CrossRoutingContextWriter.empty
        (wideCalls (2 ^ 32)) = .ok w ∧
      w.Save gridHeader [] = .ok (savedImage gridHeader w) ∧
      12 < (savedImage gridHeader w).length ∧
      CrossRoutingContextReader.fresh.Load gridHeader ((savedImage gridHeader w).take 12) =
        .ok CrossRoutingContextReader.fresh :=
  ⟨⟨oneNeighbor_Save longName,
      by rw [(oneNeighbor_Load longName (by rw [longName_length]; norm_num)).2.2,
        longName_length],
      (oneNeighbor_Load longName (by rw [longName_length]; norm_num)).2.1⟩,
    match wideCalls_Load (2 ^ 32) (by norm_num) (by norm_num) (by norm_num) with
    | ⟨w, hcalls, hsave, _, htake, hlen⟩ => ⟨w, hcalls, hsave, hlen, htake⟩⟩

/-- C2, as stated, fails.  The context built by 2^32 calls of `AddIngoingNode`
(id 0, at the origin), one `AddOutgoingNode`, `ReserveAdjacencyMatrix` and
`SetAdjacencyCost` of 5 for the pair (0, 0) is saved with an ingoing count field
of 0; `Load` of the saved bytes into a fresh reader succeeds and leaves the
reader empty, so there is no 0-th ingoing node to ask about and every query is
answered with the sentinel, not with 5.  And the context with one ingoing node
and three outgoing nodes towards three neighbours, the first with a name of 2^32
bytes, built, reserved and given cost 5 for the pair (0, 0) in the same way, is
saved successfully, but `Load` of the saved bytes fails, so that there is no
loaded reader to query. -/
theorem adjacency_cost_lost :
    (∃ w, CrossRoutingContextWriter.calls gridHeader CrossRoutingContextWriter.empty
        (wideCalls (2 ^ 32)) = .ok w ∧
      w.Save gridHeader [] = .ok (savedImage gridHeader w) ∧
      CrossRoutingContextReader.fresh.Load gridHeader (savedImage gridHeader w) =
        .ok CrossRoutingContextReader.fresh ∧
      ingoingCount (wideAdds (2 ^ 32)) = 2 ^ 32 ∧ outgoingCount (wideAdds (2 ^ 32)) = 1 ∧
      expectedCost gridHeader 0 0 [Call.setCost 0 0 5] = 5 ∧
      (CrossRoutingContextReader.fresh :
        CrossRoutingContextReader (Nat × Nat)).m_ingoingIndex[0]? = none ∧
      ∀ (ingoing : IngoingCrossNode (Nat × Nat)) (outgoing : OutgoingCrossNode (Nat × Nat)),
        CrossRoutingContextReader.fresh.GetAdjacencyCost gridHeader ingoing outgoing =
          some 4294967295) ∧
    (CrossRoutingContextWriter.calls gridHeader CrossRoutingContextWriter.empty
        (garbledCalls longRest) = .ok (garbledWriter longRest) ∧
      (garbledName longRest).length = 2 ^ 32 ∧
      (garbledWriter longRest).m_ingoingNodes.length = 1 ∧
      (garbledWriter longRest).m_outgoingNodes.length = 3 ∧
      (garbledWriter longRest).Save gridHeader [] =
        .ok (savedImage gridHeader (garbledWriter longRest)) ∧
      ∃ s1, CrossRoutingContextReader.fresh.Load gridHeader
        (savedImage gridHeader (garbledWriter longRest)) = .error (.outOfBounds, s1)) :=
  ⟨match wideCalls_Load (2 ^ 32) (by norm_num) (by norm_num) (by norm_num) with
    | ⟨w, hcalls, hsave, hload, _, _⟩ =>
      ⟨w, hcalls, hsave, hload, (wideAdds_counts (2 ^ 32)).1,
        by rw [outgoingCount, (wideAdds_counts (2 ^ 32)).2]; rfl, by decide, rfl,
        fun ingoing outgoing => by
          simp only [CrossRoutingContextReader.GetAdjacencyCost, CrossRoutingContextReader.fresh,
            List.length_nil, Nat.not_lt_zero, if_false, ite_self]
          rfl⟩,
    garbledCalls_ok longRest,
    by
      rw [garbledName_length, longRest_length]
      norm_num,
    rfl, rfl,
    (garbled_Load_fails longRest longRest_length).1,
    (garbled_Load_fails longRest longRest_length).2⟩

end Proofs

end routing
